import Mathlib

/-!
# Module-scoped name lookup (lib/AST/Module.cpp)

A shallow embedding of the name-lookup code of `lib/AST/Module.cpp`:
the builtin-module cache, the translation-unit top-level cache, the
extension cache, the local lookups of `Module` and the three global
lookups that look through imports.

Pointers to modules are addresses into a heap of modules, the lazily
created caches are optional fields of the module they hang off, and a
failed `assert` ends the call with `Except.error`. Every lookup returns its
answer together with the heap it leaves.

The theorems on what a lookup finds are stated for heaps in the state the
specification requires of callers: a cache is absent or was built from the
current declaration list (`LookupCacheCurrent`, `ExtensionCacheCurrent`),
access paths have at most one element and are empty for the builtin module
(`ImportsOK`), and extension lookups happen past parsing (`ImportsParsed`).
-/

set_option autoImplicit false

namespace Swift

/-! ## Declarations and types -/

/-- An interned name; the null identifier is the empty string. -/
abbrev Identifier := String

/-- The test `Identifier::empty()`. -/
def Identifier.empty (Name : Identifier) : Bool := Name == ""

abbrev SourceLoc := Nat

/-- The type `Module::AccessPathTy`: the dotted path of an import. -/
abbrev AccessPathTy := List (Identifier × SourceLoc)

/-- The lookup kind `NLKind`. -/
inductive NLKind where
  | UnqualifiedLookup
  | QualifiedLookup
  deriving DecidableEq, Repr

/-- A canonical type, the key of the extension cache. -/
abbrev CanType := Nat

/-- Modelled from the spec: the type representation is declared outside
Module.cpp; lookup reads only whether a type is the error type and what its
canonical form is (`canonical(Type) -> CanonicalKey`), `Spelling` stands for
the type as written. -/
structure TypeBase where
  Spelling : Nat
  isErrorType : Bool
  CanonicalType : CanType
  deriving DecidableEq, Repr

/-- The method `getCanonicalType()`. -/
def TypeBase.getCanonicalType (T : TypeBase) : CanType := T.CanonicalType

/-- Modelled from the spec: a Type Declaration, with the fields its constructor
call in Module.cpp sets (location, name, aliased type, owning module,
module-scope flag); `addr` is the address of the node, its identity. -/
structure TypeAliasDecl where
  addr : Nat
  TypeAliasLoc : SourceLoc
  Name : Identifier
  UnderlyingTy : TypeBase
  Context : Nat
  IsModuleScope : Bool
  deriving DecidableEq, Repr

/-- Modelled from the spec: a Value Declaration (variable, function, ...), of
which lookup reads the name; `addr` is the address of the node, its identity,
and tells overloads of one name apart. -/
structure ValueDecl where
  addr : Nat
  Name : Identifier
  deriving DecidableEq, Repr

/-- Modelled from the spec: a named declaration is a Type Declaration or a Value
Declaration, never both; it is what the builtin cache stores. -/
inductive NamedDecl where
  | TypeAlias (TAD : TypeAliasDecl)
  | Value (VD : ValueDecl)
  deriving DecidableEq, Repr

/-- Modelled from the spec: the declaration categories lookup distinguishes
(Type, Value, Extension, Other); the class hierarchy itself is declared
outside Module.cpp. -/
inductive Decl where
  | TypeAlias (TAD : TypeAliasDecl)
  | Value (VD : ValueDecl)
  | Extension (addr : Nat) (ExtendedType : TypeBase) (Members : List Decl)
  | Other (addr : Nat)

/-- Modelled from the spec: an Extension Declaration carries its extended type
and the ordered list of its members. -/
structure ExtensionDecl where
  addr : Nat
  ExtendedType : TypeBase
  Members : List Decl

def ExtensionDecl.getExtendedType (ED : ExtensionDecl) : TypeBase := ED.ExtendedType

def ExtensionDecl.getMembers (ED : ExtensionDecl) : List Decl := ED.Members

/-- The cast `dyn_cast<TypeAliasDecl>(D)`. -/
def Decl.dyn_cast_TypeAliasDecl : Decl → Option TypeAliasDecl
  | .TypeAlias TAD => some TAD
  | _ => none

/-- The cast `dyn_cast<ValueDecl>(D)`. -/
def Decl.dyn_cast_ValueDecl : Decl → Option ValueDecl
  | .Value VD => some VD
  | _ => none

/-- The cast `dyn_cast<ExtensionDecl>(D)`. -/
def Decl.dyn_cast_ExtensionDecl : Decl → Option ExtensionDecl
  | .Extension a T Ms => some ⟨a, T, Ms⟩
  | _ => none

/-- The cast `dyn_cast_or_null<TypeAliasDecl>(Entry)` on a nullable entry. -/
def NamedDecl.dyn_cast_or_null_TypeAliasDecl : Option NamedDecl → Option TypeAliasDecl
  | some (.TypeAlias TAD) => some TAD
  | _ => none

/-- The cast `dyn_cast_or_null<ValueDecl>(Entry)` on a nullable entry. -/
def NamedDecl.dyn_cast_or_null_ValueDecl : Option NamedDecl → Option ValueDecl
  | some (.Value VD) => some VD
  | _ => none

/-- Modelled from the spec: an element of a translation unit's body is an
expression, a statement or a declaration. -/
inductive ExprStmtOrDecl where
  | ofExpr (addr : Nat)
  | ofStmt (addr : Nat)
  | ofDecl (D : Decl)

/-- The cast `Elt.dyn_cast<Decl*>()`. -/
def ExprStmtOrDecl.dyn_cast_Decl : ExprStmtOrDecl → Option Decl
  | .ofDecl D => some D
  | _ => none

/-! ## DenseMap -/

/-- The map `llvm::DenseMap`, as a list of key/value entries with unique keys. -/
structure DenseMap (K V : Type) where
  entries : List (K × V)

namespace DenseMap

variable {K V : Type} [DecidableEq K]

def empty : DenseMap K V := ⟨[]⟩

def findIn : List (K × V) → K → Option V
  | [], _ => none
  | e :: es, k => if e.1 = k then some e.2 else findIn es k

def setIn : List (K × V) → K → V → List (K × V)
  | [], k, v => [(k, v)]
  | e :: es, k, v => if e.1 = k then (k, v) :: es else e :: setIn es k v

/-- The call `m.find(k)`: `none` stands for `m.end()`. -/
def find (m : DenseMap K V) (k : K) : Option V := findIn m.entries k

/-- The assignment `m[k] = v`. -/
def set (m : DenseMap K V) (k : K) (v : V) : DenseMap K V := ⟨setIn m.entries k v⟩

/-- The reference `m[k]`: the stored value, after inserting the default value
`d` when the key is new. -/
def subscript (m : DenseMap K V) (k : K) (d : V) : V × DenseMap K V :=
  match m.find k with
  | some v => (v, m)
  | none => (d, m.set k d)

end DenseMap

/-! ## Modules and the heap -/

/-- A pointer `Module*`. -/
abbrev ModuleRef := Nat

/-- The cache of the builtin module: one table for types and values. -/
structure BuiltinModuleCache where
  Cache : DenseMap Identifier (Option NamedDecl)

/-- The cache of a translation unit: top-level values and types by name. -/
structure TUModuleCache where
  TopLevelValues : DenseMap Identifier (List ValueDecl)
  TopLevelTypes : DenseMap Identifier TypeAliasDecl

/-- The extension cache of a translation unit. -/
structure TUExtensionCache where
  Extensions : DenseMap CanType (List ExtensionDecl)

/-- Modelled from the spec: a BuiltinModule has no declaration list and no
imports; it owns only its synthesis cache, created on first use. `ASTStage` is
the stage field `lookupExtensions` asserts on. -/
structure BuiltinModule where
  ASTStage : Nat
  LookupCachePimpl : Option BuiltinModuleCache

/-- Modelled from the spec: a translation unit owns the list of its top-level
elements, the list of its imports, each an access path with the imported
module, and its two lazily created caches. -/
structure TranslationUnit where
  ASTStage : Nat
  Body : List ExprStmtOrDecl
  ImportedModules : List (AccessPathTy × ModuleRef)
  LookupCachePimpl : Option TUModuleCache
  ExtensionCachePimpl : Option TUExtensionCache

def TranslationUnit.getImportedModules (TU : TranslationUnit) :
    List (AccessPathTy × ModuleRef) := TU.ImportedModules

/-- A module is the builtin module or a translation unit. -/
inductive Module where
  | ofBuiltin (BM : BuiltinModule)
  | ofTU (TU : TranslationUnit)

/-- The test `isa<BuiltinModule>(this)`. -/
def Module.isBuiltin : Module → Bool
  | .ofBuiltin _ => true
  | .ofTU _ => false

/-- What Module.cpp uses and does not define: the two builtin synthesis
functions, the builtin module the context points to, and the value of the
enumerator `Parsed` of the module's AST stage. -/
structure ASTContext where
  getBuiltinType : String → Option TypeBase
  getBuiltinValue : Identifier → Option ValueDecl
  TheBuiltinModule : ModuleRef
  Parsed : Nat

/-- The memory lookups act on: the module at each address, and the next free
address of the context's allocator. -/
structure Heap where
  Modules : ModuleRef → Module
  ArenaTop : Nat

/-- Store module `M` at address `this`. -/
def Heap.store (H : Heap) (this : ModuleRef) (M : Module) : Heap :=
  { H with Modules := fun r => if r = this then M else H.Modules r }

/-! ## Builtin module name lookup -/

/-- The function `getBuiltinCachePimpl`: the cache behind the pointer, a new
empty one when the pointer is null. -/
def getBuiltinCachePimpl (Ptr : Option BuiltinModuleCache) : BuiltinModuleCache :=
  match Ptr with
  | none => ⟨DenseMap.empty⟩
  | some C => C

/-- The method `BuiltinModuleCache::lookupType`. It returns the declaration,
the cache afterwards and the allocator's next free address. -/
def BuiltinModuleCache.lookupType (self : BuiltinModuleCache) (Ctx : ASTContext)
    (Name : Identifier) (LookupKind : NLKind) (ArenaTop : Nat) :
    Option TypeAliasDecl × BuiltinModuleCache × Nat :=
  -- Only qualified lookup ever finds anything in the builtin module.
  if LookupKind ≠ NLKind.QualifiedLookup then (none, self, ArenaTop) else
  let (Entry, Cache) := self.Cache.subscript Name none
  match Entry with
  | none =>
    match Ctx.getBuiltinType Name with
    | some Ty =>
      let TAD : TypeAliasDecl := ⟨ArenaTop, 0, Name, Ty, Ctx.TheBuiltinModule, true⟩
      (NamedDecl.dyn_cast_or_null_TypeAliasDecl (some (.TypeAlias TAD)),
        ⟨Cache.set Name (some (.TypeAlias TAD))⟩, ArenaTop + 1)
    | none => (NamedDecl.dyn_cast_or_null_TypeAliasDecl none, ⟨Cache⟩, ArenaTop)
  | some D => (NamedDecl.dyn_cast_or_null_TypeAliasDecl (some D), ⟨Cache⟩, ArenaTop)

/-- The method `BuiltinModuleCache::lookupValue`. -/
def BuiltinModuleCache.lookupValue (self : BuiltinModuleCache) (Ctx : ASTContext)
    (Name : Identifier) (LookupKind : NLKind) (Result : List ValueDecl) :
    List ValueDecl × BuiltinModuleCache :=
  -- Only qualified lookup ever finds anything in the builtin module.
  if LookupKind ≠ NLKind.QualifiedLookup then (Result, self) else
  let (Entry, Cache) := self.Cache.subscript Name none
  let (Entry, Cache) :=
    match Entry with
    | none =>
      let V := (Ctx.getBuiltinValue Name).map NamedDecl.Value
      (V, Cache.set Name V)
    | some D => (some D, Cache)
  match NamedDecl.dyn_cast_or_null_ValueDecl Entry with
  | some VD => (Result ++ [VD], ⟨Cache⟩)
  | none => (Result, ⟨Cache⟩)

/-! ## Translation unit name lookup -/

/-- One iteration of the loop of the constructor of `TUModuleCache`. -/
def TUModuleCache.addElement (C : TUModuleCache) (Elt : ExprStmtOrDecl) : TUModuleCache :=
  match Elt.dyn_cast_Decl with
  | none => C
  | some D =>
    let C :=
      match D.dyn_cast_TypeAliasDecl with
      | some TAD =>
        if !TAD.Name.empty then { C with TopLevelTypes := C.TopLevelTypes.set TAD.Name TAD }
        else C
      | none => C
    match D.dyn_cast_ValueDecl with
    | some VD =>
      if !VD.Name.empty then
        let (Vec, Values) := C.TopLevelValues.subscript VD.Name []
        { C with TopLevelValues := Values.set VD.Name (Vec ++ [VD]) }
      else C
    | none => C

/-- The constructor `TUModuleCache::TUModuleCache`: populate the cache on the
first name lookup. -/
def TUModuleCache.ctor (TU : TranslationUnit) : TUModuleCache :=
  TU.Body.foldl TUModuleCache.addElement ⟨DenseMap.empty, DenseMap.empty⟩

/-- The function `getTUCachePimpl`. -/
def getTUCachePimpl (Ptr : Option TUModuleCache) (TU : TranslationUnit) : TUModuleCache :=
  match Ptr with
  | none => TUModuleCache.ctor TU
  | some C => C

/-- The function `freeTUCachePimpl`. -/
def freeTUCachePimpl (_Ptr : Option TUModuleCache) : Option TUModuleCache := none

/-- The condition `AccessPath.size() == 1 && AccessPath[0].first != Name`. -/
def AccessPathTy.filtersOut (AccessPath : AccessPathTy) (Name : Identifier) : Bool :=
  match AccessPath with
  | [P] => P.1 != Name
  | _ => false

/-- The method `TUModuleCache::lookupType`. -/
def TUModuleCache.lookupType (self : TUModuleCache) (AccessPath : AccessPathTy)
    (Name : Identifier) (_LookupKind : NLKind) : Except String (Option TypeAliasDecl) :=
  if ¬ AccessPath.length ≤ 1 then .error "Don't handle this yet" else
  -- If this import is specific to some named type or decl then filter out
  -- any lookups that don't match.
  if AccessPathTy.filtersOut AccessPath Name then .ok none else
  .ok (self.TopLevelTypes.find Name)

/-- The method `TUModuleCache::lookupValue`. -/
def TUModuleCache.lookupValue (self : TUModuleCache) (AccessPath : AccessPathTy)
    (Name : Identifier) (_LookupKind : NLKind) (Result : List ValueDecl) :
    Except String (List ValueDecl) :=
  if ¬ AccessPath.length ≤ 1 then .error "Don't handle this yet" else
  -- If this import is specific to some named type or decl then filter out
  -- any lookups that don't match.
  if AccessPathTy.filtersOut AccessPath Name then .ok Result else
  match self.TopLevelValues.find Name with
  | none => .ok Result
  | some Vec => .ok (Vec.foldl (fun Result Elt => Result ++ [Elt]) Result)

/-! ## Module extension name lookup -/

/-- One iteration of the loop of the constructor of `TUExtensionCache`. -/
def TUExtensionCache.addElement (C : TUExtensionCache) (Elt : ExprStmtOrDecl) :
    TUExtensionCache :=
  match Elt.dyn_cast_Decl with
  | none => C
  | some D =>
    match D.dyn_cast_ExtensionDecl with
    | none => C
    | some ED =>
      -- Ignore failed name lookups.
      if ED.getExtendedType.isErrorType then C else
      let (Vec, Exts) := C.Extensions.subscript ED.getExtendedType.getCanonicalType []
      ⟨Exts.set ED.getExtendedType.getCanonicalType (Vec ++ [ED])⟩

/-- The constructor `TUExtensionCache::TUExtensionCache`. -/
def TUExtensionCache.ctor (TU : TranslationUnit) : TUExtensionCache :=
  TU.Body.foldl TUExtensionCache.addElement ⟨DenseMap.empty⟩

/-- The method `TUExtensionCache::getExtensions`. -/
def TUExtensionCache.getExtensions (self : TUExtensionCache) (T : CanType) :
    List ExtensionDecl :=
  match self.Extensions.find T with
  | none => []
  | some Vec => Vec

/-- The function `getTUExtensionCachePimpl`. -/
def getTUExtensionCachePimpl (Ptr : Option TUExtensionCache) (TU : TranslationUnit) :
    TUExtensionCache :=
  match Ptr with
  | none => TUExtensionCache.ctor TU
  | some C => C

/-- The function `freeTUExtensionCachePimpl`. -/
def freeTUExtensionCachePimpl (_Ptr : Option TUExtensionCache) : Option TUExtensionCache :=
  none

/-- The field `ASTStage` of a module. -/
def Module.ASTStage : Module → Nat
  | .ofBuiltin BM => BM.ASTStage
  | .ofTU TU => TU.ASTStage

/-- The method `Module::lookupExtensions`: all extensions in the module at
`this` that extend the type `T`. -/
def Module.lookupExtensions (Ctx : ASTContext) (H : Heap) (this : ModuleRef) (T : TypeBase) :
    Except String (List ExtensionDecl × Heap) :=
  if ¬ (H.Modules this).ASTStage ≥ Ctx.Parsed then
    .error "Extensions should only be looked up after name binding is underway"
  else
  match H.Modules this with
  -- The builtin module just has free functions, not extensions.
  | .ofBuiltin _ => .ok ([], H)
  | .ofTU TU =>
    let Cache := getTUExtensionCachePimpl TU.ExtensionCachePimpl TU
    .ok (Cache.getExtensions T.getCanonicalType,
      H.store this (.ofTU { TU with ExtensionCachePimpl := some Cache }))

/-! ## Module implementation -/

/-- The method `Module::lookupType`: a local lookup of a type at top-level
scope of the module at `this`, not looking through imports. -/
def Module.lookupType (Ctx : ASTContext) (H : Heap) (this : ModuleRef)
    (AccessPath : AccessPathTy) (Name : Identifier) (LookupKind : NLKind) :
    Except String (Option TypeAliasDecl × Heap) :=
  match H.Modules this with
  | .ofBuiltin BM =>
    if ¬ AccessPath.isEmpty then .error "builtin module's access path always empty!" else
    let Cache := getBuiltinCachePimpl BM.LookupCachePimpl
    let (TAD, Cache, Top) := Cache.lookupType Ctx Name LookupKind H.ArenaTop
    .ok (TAD, { H.store this (.ofBuiltin { BM with LookupCachePimpl := some Cache }) with
                ArenaTop := Top })
  | .ofTU TU =>
    let Cache := getTUCachePimpl TU.LookupCachePimpl TU
    match Cache.lookupType AccessPath Name LookupKind with
    | .error e => .error e
    | .ok TAD => .ok (TAD, H.store this (.ofTU { TU with LookupCachePimpl := some Cache }))

/-- The method `Module::lookupValue`: a local lookup of a (possibly overloaded)
value set at top-level scope of the module at `this`. -/
def Module.lookupValue (Ctx : ASTContext) (H : Heap) (this : ModuleRef)
    (AccessPath : AccessPathTy) (Name : Identifier) (LookupKind : NLKind)
    (Result : List ValueDecl) : Except String (List ValueDecl × Heap) :=
  match H.Modules this with
  | .ofBuiltin BM =>
    if ¬ AccessPath.isEmpty then .error "builtin module's access path always empty!" else
    let Cache := getBuiltinCachePimpl BM.LookupCachePimpl
    let (Result, Cache) := Cache.lookupValue Ctx Name LookupKind Result
    .ok (Result, H.store this (.ofBuiltin { BM with LookupCachePimpl := some Cache }))
  | .ofTU TU =>
    let Cache := getTUCachePimpl TU.LookupCachePimpl TU
    match Cache.lookupValue AccessPath Name LookupKind Result with
    | .error e => .error e
    | .ok Result => .ok (Result, H.store this (.ofTU { TU with LookupCachePimpl := some Cache }))

/-- The import loop of `Module::lookupGlobalType`: take the first match. -/
def Module.lookupGlobalType.scrape (Ctx : ASTContext) (Name : Identifier)
    (LookupKind : NLKind) :
    List (AccessPathTy × ModuleRef) → Heap → Except String (Option TypeAliasDecl × Heap)
  | [], H => .ok (none, H)
  | ImpEntry :: Rest, H =>
    match Module.lookupType Ctx H ImpEntry.2 ImpEntry.1 Name LookupKind with
    | .error e => .error e
    | .ok (some TAD, H) => .ok (some TAD, H)
    | .ok (none, H) => Module.lookupGlobalType.scrape Ctx Name LookupKind Rest H

/-- The method `Module::lookupGlobalType`: a type lookup that looks through the
declarations of imports. -/
def Module.lookupGlobalType (Ctx : ASTContext) (H : Heap) (this : ModuleRef)
    (Name : Identifier) (LookupKind : NLKind) : Except String (Option TypeAliasDecl × Heap) :=
  -- Do a local lookup within the current module.
  match Module.lookupType Ctx H this [] Name LookupKind with
  | .error e => .error e
  | .ok (TAD, H) =>
    -- If we get a hit, we're done.  Also, the builtin module never has imports.
    match TAD, H.Modules this with
    | some TAD, _ => .ok (some TAD, H)
    | none, .ofBuiltin _ => .ok (none, H)
    | none, .ofTU TU =>
      Module.lookupGlobalType.scrape Ctx Name LookupKind TU.getImportedModules H

/-- The import loop of `Module::lookupGlobalValue`. -/
def Module.lookupGlobalValue.scrape (Ctx : ASTContext) (Name : Identifier)
    (LookupKind : NLKind) :
    List (AccessPathTy × ModuleRef) → Heap → List ValueDecl →
      Except String (List ValueDecl × Heap)
  | [], H, Result => .ok (Result, H)
  | ImpEntry :: Rest, H, Result =>
    match Module.lookupValue Ctx H ImpEntry.2 ImpEntry.1 Name LookupKind Result with
    | .error e => .error e
    | .ok (Result, H) =>
      if !Result.isEmpty then .ok (Result, H)
      else Module.lookupGlobalValue.scrape Ctx Name LookupKind Rest H Result

/-- The method `Module::lookupGlobalValue`: a value lookup that looks through
the declarations of imports. -/
def Module.lookupGlobalValue (Ctx : ASTContext) (H : Heap) (this : ModuleRef)
    (Name : Identifier) (LookupKind : NLKind) (Result : List ValueDecl) :
    Except String (List ValueDecl × Heap) :=
  if ¬ Result.isEmpty then
    .error "This expects that the input list is empty, could be generalized"
  else
  -- Do a local lookup within the current module.
  match Module.lookupValue Ctx H this [] Name LookupKind Result with
  | .error e => .error e
  | .ok (Result, H) =>
    if !Result.isEmpty || (H.Modules this).isBuiltin then .ok (Result, H) else
    match H.Modules this with
    | .ofBuiltin _ => .ok (Result, H)
    | .ofTU TU => Module.lookupGlobalValue.scrape Ctx Name LookupKind TU.getImportedModules H Result

/-- The two inner loops of `Module::lookupGlobalExtensionMethods`: push every
member value named `Name` of every extension of the list. -/
def Module.lookupGlobalExtensionMethods.collect (Name : Identifier)
    (EDs : List ExtensionDecl) (Result : List ValueDecl) : List ValueDecl :=
  EDs.foldl (fun Result ED =>
    ED.getMembers.foldl (fun Result Member =>
      match Member.dyn_cast_ValueDecl with
      | some VD => if VD.Name = Name then Result ++ [VD] else Result
      | none => Result) Result) Result

/-- The import loop of `Module::lookupGlobalExtensionMethods`. -/
def Module.lookupGlobalExtensionMethods.scrape (Ctx : ASTContext) (BaseType : TypeBase)
    (Name : Identifier) :
    List (AccessPathTy × ModuleRef) → Heap → List ValueDecl →
      Except String (List ValueDecl × Heap)
  | [], H, Result => .ok (Result, H)
  | ImpEntry :: Rest, H, Result =>
    match Module.lookupExtensions Ctx H ImpEntry.2 BaseType with
    | .error e => .error e
    | .ok (EDs, H) =>
      let Result := Module.lookupGlobalExtensionMethods.collect Name EDs Result
      -- If we found something in an imported module, it wins.
      if !Result.isEmpty then .ok (Result, H)
      else Module.lookupGlobalExtensionMethods.scrape Ctx BaseType Name Rest H Result

/-- The method `Module::lookupGlobalExtensionMethods`: the extension members
named `Name` for the type `BaseType`. -/
def Module.lookupGlobalExtensionMethods (Ctx : ASTContext) (H : Heap) (this : ModuleRef)
    (BaseType : TypeBase) (Name : Identifier) (Result : List ValueDecl) :
    Except String (List ValueDecl × Heap) :=
  if ¬ Result.isEmpty then
    .error "This expects that the input list is empty, could be generalized"
  else
  -- Find all extensions in this module.
  match Module.lookupExtensions Ctx H this BaseType with
  | .error e => .error e
  | .ok (EDs, H) =>
    let Result := Module.lookupGlobalExtensionMethods.collect Name EDs Result
    -- If we found anything in local extensions, they shadow imports.
    if !Result.isEmpty || (H.Modules this).isBuiltin then .ok (Result, H) else
    match H.Modules this with
    | .ofBuiltin _ => .ok (Result, H)
    | .ofTU TU =>
      Module.lookupGlobalExtensionMethods.scrape Ctx BaseType Name TU.getImportedModules H Result

/-! ## TranslationUnit implementation -/

/-- The method `TranslationUnit::clearLookupCache`. -/
def TranslationUnit.clearLookupCache (TU : TranslationUnit) : TranslationUnit :=
  { TU with
    LookupCachePimpl := freeTUCachePimpl TU.LookupCachePimpl
    ExtensionCachePimpl := freeTUExtensionCachePimpl TU.ExtensionCachePimpl }

/-! ## What the declaration list says

The functions below read a translation unit's declaration list directly, the
way the specification words it; the theorems compare the lookups with them. -/

/-- The value declarations named `x` of a list of body elements, in order. -/
def valuesNamedIn (Body : List ExprStmtOrDecl) (x : Identifier) : List ValueDecl :=
  Body.filterMap fun Elt =>
    match Elt with
    | .ofDecl (.Value VD) => if VD.Name = x then some VD else none
    | _ => none

/-- The type declarations named `n` of a list of body elements, in order. -/
def typesNamedIn (Body : List ExprStmtOrDecl) (n : Identifier) : List TypeAliasDecl :=
  Body.filterMap fun Elt =>
    match Elt with
    | .ofDecl (.TypeAlias TAD) => if TAD.Name = n then some TAD else none
    | _ => none

/-- The extensions of a list of body elements whose extended type is not the
error type and has the canonical form `T`, in order. -/
def extensionsIn (Body : List ExprStmtOrDecl) (T : CanType) : List ExtensionDecl :=
  Body.filterMap fun Elt =>
    match Elt with
    | .ofDecl (.Extension a Ty Ms) =>
      if Ty.isErrorType = false ∧ Ty.CanonicalType = T then some ⟨a, Ty, Ms⟩ else none
    | _ => none

/-- The top-level value declarations named `x`, in declaration order. -/
def TranslationUnit.valuesNamed (TU : TranslationUnit) (x : Identifier) : List ValueDecl :=
  valuesNamedIn TU.Body x

/-- The top-level type declarations named `n`, in declaration order. -/
def TranslationUnit.typesNamed (TU : TranslationUnit) (n : Identifier) : List TypeAliasDecl :=
  typesNamedIn TU.Body n

/-- The top-level extensions whose extended type is not the error type and has
the canonical form of `T`, in source order. -/
def TranslationUnit.extensionsOf (TU : TranslationUnit) (T : TypeBase) : List ExtensionDecl :=
  extensionsIn TU.Body T.CanonicalType

/-- The member value declarations named `m` of an extension, in member order. -/
def ExtensionDecl.memberValuesNamed (ED : ExtensionDecl) (m : Identifier) : List ValueDecl :=
  ED.Members.filterMap fun Member =>
    match Member with
    | .Value VD => if VD.Name = m then some VD else none
    | _ => none

/-- Every member value named `m` of every extension of `T` in the translation
unit: extensions in source order, members in member order. -/
def TranslationUnit.extensionMembersNamed (TU : TranslationUnit) (T : TypeBase)
    (m : Identifier) : List ValueDecl :=
  (TU.extensionsOf T).flatMap fun ED => ED.memberValuesNamed m

/-- The extension members named `m` on `T` a module declares: none for the
builtin module, which has no extensions. -/
def Module.extensionMembersNamed (M : Module) (T : TypeBase) (m : Identifier) :
    List ValueDecl :=
  match M with
  | .ofBuiltin _ => []
  | .ofTU TU => TU.extensionMembersNamed T m

/-- The lookup cache is absent or is the one built from the current
declaration list. -/
def TranslationUnit.LookupCacheCurrent (TU : TranslationUnit) : Prop :=
  ∀ C, TU.LookupCachePimpl = some C → C = TUModuleCache.ctor TU

/-- The extension cache is absent or is the one built from the current
declaration list. -/
def TranslationUnit.ExtensionCacheCurrent (TU : TranslationUnit) : Prop :=
  ∀ C, TU.ExtensionCachePimpl = some C → C = TUExtensionCache.ctor TU

/-- Every cache of every translation unit in the heap is absent or current. -/
def Heap.CachesCurrent (H : Heap) : Prop :=
  ∀ r TU, H.Modules r = .ofTU TU → TU.LookupCacheCurrent ∧ TU.ExtensionCacheCurrent

/-- The imports of a module; the builtin module never has imports. -/
def Module.importedModules : Module → List (AccessPathTy × ModuleRef)
  | .ofBuiltin _ => []
  | .ofTU TU => TU.getImportedModules

/-- The documented preconditions on a list of imports: an access path has at
most one element, and the access path of a builtin module is empty. -/
def Heap.ImportsOK (H : Heap) (Imports : List (AccessPathTy × ModuleRef)) : Prop :=
  ∀ I ∈ Imports, I.1.length ≤ 1 ∧ ((H.Modules I.2).isBuiltin = true → I.1 = [])

/-- Every module of a list of imports is past parsing, as `lookupExtensions`
asserts. -/
def Heap.ImportsParsed (Ctx : ASTContext) (H : Heap)
    (Imports : List (AccessPathTy × ModuleRef)) : Prop :=
  ∀ I ∈ Imports, (H.Modules I.2).ASTStage ≥ Ctx.Parsed

/-- The answer of the local `lookupType` in heap `H`, `none` when it fails an
assertion. -/
def Module.localType (Ctx : ASTContext) (H : Heap) (this : ModuleRef)
    (AccessPath : AccessPathTy) (Name : Identifier) (LookupKind : NLKind) :
    Option TypeAliasDecl :=
  match Module.lookupType Ctx H this AccessPath Name LookupKind with
  | .ok (TAD, _) => TAD
  | .error _ => none

/-- The answer of the local `lookupValue` in heap `H` started with an empty
result, empty when it fails an assertion. -/
def Module.localValues (Ctx : ASTContext) (H : Heap) (this : ModuleRef)
    (AccessPath : AccessPathTy) (Name : Identifier) (LookupKind : NLKind) : List ValueDecl :=
  match Module.lookupValue Ctx H this AccessPath Name LookupKind [] with
  | .ok (Result, _) => Result
  | .error _ => []

/-- The answer of `lookupExtensions` in heap `H`, empty when it fails its
assertion. -/
def Module.localExtensions (Ctx : ASTContext) (H : Heap) (this : ModuleRef) (T : TypeBase) :
    List ExtensionDecl :=
  match Module.lookupExtensions Ctx H this T with
  | .ok (EDs, _) => EDs
  | .error _ => []

/-- The extension members named `Name` on `T` that the module at `this`
exposes in heap `H`: the matching members of all its extensions of `T`. -/
def Module.localExtensionMethods (Ctx : ASTContext) (H : Heap) (this : ModuleRef)
    (T : TypeBase) (Name : Identifier) : List ValueDecl :=
  (Module.localExtensions Ctx H this T).flatMap fun ED => ED.memberValuesNamed Name

/-- The first non-empty list of a list of lists, empty when there is none. -/
def firstNonEmpty {α : Type} : List (List α) → List α
  | [] => []
  | L :: Ls => if L.isEmpty then firstNonEmpty Ls else L

/-- The first answer of a list of optional answers. -/
def firstHit {α : Type} : List (Option α) → Option α
  | [] => none
  | some a :: _ => some a
  | none :: As => firstHit As

/-- What a builtin cache holds for a name: a null entry and no entry are alike. -/
def BuiltinModuleCache.entry (C : BuiltinModuleCache) (n : Identifier) : Option NamedDecl :=
  match C.Cache.find n with
  | some (some D) => some D
  | _ => none

/-- Two modules answer every local lookup alike: same variant, stage,
declarations and imports, and the caches they would use hold the same. -/
def Module.Similar : Module → Module → Prop
  | .ofBuiltin B, .ofBuiltin B' =>
    B.ASTStage = B'.ASTStage ∧
    ∀ n, (getBuiltinCachePimpl B.LookupCachePimpl).entry n
      = (getBuiltinCachePimpl B'.LookupCachePimpl).entry n
  | .ofTU T, .ofTU T' =>
    T.ASTStage = T'.ASTStage ∧ T.Body = T'.Body ∧ T.ImportedModules = T'.ImportedModules ∧
    getTUCachePimpl T.LookupCachePimpl T = getTUCachePimpl T'.LookupCachePimpl T' ∧
    getTUExtensionCachePimpl T.ExtensionCachePimpl T
      = getTUExtensionCachePimpl T'.ExtensionCachePimpl T'
  | _, _ => False

/-- Two heaps answer every local lookup alike. -/
def Heap.Similar (H H' : Heap) : Prop :=
  H.ArenaTop = H'.ArenaTop ∧ ∀ r, (H.Modules r).Similar (H'.Modules r)

/-- Every name a builtin cache of the heap holds a declaration for is a name
one of the two synthesis functions yields something for: caches are filled by
synthesis only. -/
def Heap.BuiltinCachesSound (Ctx : ASTContext) (H : Heap) : Prop :=
  ∀ r BM, H.Modules r = .ofBuiltin BM → ∀ n D,
    (getBuiltinCachePimpl BM.LookupCachePimpl).entry n = some D →
      Ctx.getBuiltinType n ≠ none ∨ Ctx.getBuiltinValue n ≠ none

/-- The name `n` is declared at top level by a module: a translation unit has a
top-level type or value declaration named `n`; the builtin module has no
declaration list. -/
def Module.DeclaresTopLevel (M : Module) (n : Identifier) : Prop :=
  match M with
  | .ofTU TU => TU.typesNamed n ≠ [] ∨ TU.valuesNamed n ≠ []
  | .ofBuiltin _ => False

/-- The name `n` is absent from a module: a translation unit declares no
top-level type and no top-level value named `n`; for the builtin module,
neither synthesis function yields anything for `n`. -/
def Module.Absent (Ctx : ASTContext) (M : Module) (n : Identifier) : Prop :=
  match M with
  | .ofTU TU => TU.typesNamed n = [] ∧ TU.valuesNamed n = []
  | .ofBuiltin _ => Ctx.getBuiltinType n = none ∧ Ctx.getBuiltinValue n = none

/-- The call `clearLookupCache()` on the translation unit at `this`: both of its
caches are freed. The builtin module has no such method; the heap is left as
it is. -/
def Heap.clearLookupCache (H : Heap) (this : ModuleRef) : Heap :=
  match H.Modules this with
  | .ofTU TU => H.store this (.ofTU TU.clearLookupCache)
  | .ofBuiltin _ => H

/-- A call a client can make on the heap: the three local lookups, the three
global lookups and the invalidation of a translation unit's caches. -/
inductive Query where
  | lookupType (this : ModuleRef) (AccessPath : AccessPathTy) (Name : Identifier)
      (LookupKind : NLKind)
  | lookupValue (this : ModuleRef) (AccessPath : AccessPathTy) (Name : Identifier)
      (LookupKind : NLKind) (Result : List ValueDecl)
  | lookupExtensions (this : ModuleRef) (T : TypeBase)
  | lookupGlobalType (this : ModuleRef) (Name : Identifier) (LookupKind : NLKind)
  | lookupGlobalValue (this : ModuleRef) (Name : Identifier) (LookupKind : NLKind)
      (Result : List ValueDecl)
  | lookupGlobalExtensionMethods (this : ModuleRef) (BaseType : TypeBase) (Name : Identifier)
      (Result : List ValueDecl)
  | clearLookupCache (this : ModuleRef)

/-- The heap a call leaves, an error when the call fails an assertion. -/
def Heap.after (Ctx : ASTContext) (H : Heap) : Query → Except String Heap
  | .lookupType this p n k =>
    match Module.lookupType Ctx H this p n k with
    | .ok (_, H') => .ok H'
    | .error e => .error e
  | .lookupValue this p n k R =>
    match Module.lookupValue Ctx H this p n k R with
    | .ok (_, H') => .ok H'
    | .error e => .error e
  | .lookupExtensions this T =>
    match Module.lookupExtensions Ctx H this T with
    | .ok (_, H') => .ok H'
    | .error e => .error e
  | .lookupGlobalType this n k =>
    match Module.lookupGlobalType Ctx H this n k with
    | .ok (_, H') => .ok H'
    | .error e => .error e
  | .lookupGlobalValue this n k R =>
    match Module.lookupGlobalValue Ctx H this n k R with
    | .ok (_, H') => .ok H'
    | .error e => .error e
  | .lookupGlobalExtensionMethods this T n R =>
    match Module.lookupGlobalExtensionMethods Ctx H this T n R with
    | .ok (_, H') => .ok H'
    | .error e => .error e
  | .clearLookupCache this => .ok (H.clearLookupCache this)

/-- The heap a sequence of calls leaves; the first failed assertion ends the
run. -/
def Heap.afterAll (Ctx : ASTContext) : Heap → List Query → Except String Heap
  | H, [] => .ok H
  | H, q :: qs =>
    match H.after Ctx q with
    | .ok H' => Heap.afterAll Ctx H' qs
    | .error e => .error e

/-- What the cache of the builtin module at `r` holds for the name `n`; nothing
when the module at `r` is a translation unit. -/
def Heap.builtinEntry (H : Heap) (r : ModuleRef) (n : Identifier) : Option NamedDecl :=
  match H.Modules r with
  | .ofBuiltin BM => (getBuiltinCachePimpl BM.LookupCachePimpl).entry n
  | .ofTU _ => none

/-- The module with its list of imports replaced; the builtin module has no
imports and is left as it is. -/
def Module.withImports (M : Module) (Imports : List (AccessPathTy × ModuleRef)) : Module :=
  match M with
  | .ofTU TU => .ofTU { TU with ImportedModules := Imports }
  | .ofBuiltin BM => .ofBuiltin BM

/-- The heap in which the module at `this` has the list of imports `Imports`. -/
def Heap.setImports (H : Heap) (this : ModuleRef) (Imports : List (AccessPathTy × ModuleRef)) :
    Heap :=
  H.store this ((H.Modules this).withImports Imports)

/-- The imports of a list that are not builtin modules. -/
def Heap.nonBuiltinImports (H : Heap) (Imports : List (AccessPathTy × ModuleRef)) :
    List (AccessPathTy × ModuleRef) :=
  Imports.filter fun I => !(H.Modules I.2).isBuiltin

/-- Two modules are the same but for their lists of imports. -/
def Module.SameButImports : Module → Module → Prop
  | .ofBuiltin B, .ofBuiltin B' => B = B'
  | .ofTU T, .ofTU T' =>
    T.ASTStage = T'.ASTStage ∧ T.Body = T'.Body ∧
    T.LookupCachePimpl = T'.LookupCachePimpl ∧ T.ExtensionCachePimpl = T'.ExtensionCachePimpl
  | _, _ => False

/-- Two heaps are the same but for the lists of imports of their modules. -/
def Heap.SameButImports (H H' : Heap) : Prop :=
  H.ArenaTop = H'.ArenaTop ∧ ∀ r, (H.Modules r).SameButImports (H'.Modules r)

/-- The top-level index built by one pass over a declaration list. -/
def TUModuleCache.ofBody (Body : List ExprStmtOrDecl) : TUModuleCache :=
  Body.foldl TUModuleCache.addElement ⟨DenseMap.empty, DenseMap.empty⟩

/-- The extension index built by one pass over a declaration list. -/
def TUExtensionCache.ofBody (Body : List ExprStmtOrDecl) : TUExtensionCache :=
  Body.foldl TUExtensionCache.addElement ⟨DenseMap.empty⟩

/-- The owner of the translation unit at `this` replaces its declaration list
(parsing, which is outside Module.cpp); the caches are not touched. -/
def Heap.setBody (H : Heap) (this : ModuleRef) (Body : List ExprStmtOrDecl) : Heap :=
  match H.Modules this with
  | .ofTU TU => H.store this (.ofTU { TU with Body := Body })
  | .ofBuiltin _ => H

/-- What can happen to one translation unit: a local lookup with an access
path of at most one element, a change of its declaration list, an
invalidation of its caches. -/
inductive Event where
  | lookupType (AccessPath : Option (Identifier × SourceLoc)) (Name : Identifier)
      (LookupKind : NLKind)
  | lookupValue (AccessPath : Option (Identifier × SourceLoc)) (Name : Identifier)
      (LookupKind : NLKind) (Result : List ValueDecl)
  | lookupExtensions (T : TypeBase)
  | setBody (Body : List ExprStmtOrDecl)
  | clearLookupCache

/-- What an event answers. -/
inductive Answer where
  | type (TAD : Option TypeAliasDecl)
  | values (Result : List ValueDecl)
  | extensions (EDs : List ExtensionDecl)
  | done

/-- The event performed by the code on the translation unit at `this`. -/
def Heap.perform (Ctx : ASTContext) (H : Heap) (this : ModuleRef) :
    Event → Except String (Answer × Heap)
  | .lookupType p n k =>
    match Module.lookupType Ctx H this p.toList n k with
    | .ok (TAD, H') => .ok (.type TAD, H')
    | .error e => .error e
  | .lookupValue p n k R =>
    match Module.lookupValue Ctx H this p.toList n k R with
    | .ok (R', H') => .ok (.values R', H')
    | .error e => .error e
  | .lookupExtensions T =>
    match Module.lookupExtensions Ctx H this T with
    | .ok (EDs, H') => .ok (.extensions EDs, H')
    | .error e => .error e
  | .setBody Body => .ok (.done, H.setBody this Body)
  | .clearLookupCache => .ok (.done, H.clearLookupCache this)

/-- A sequence of events performed by the code: the answers in order and the
heap left. -/
def Heap.performAll (Ctx : ASTContext) (this : ModuleRef) :
    Heap → List Event → Except String (List Answer × Heap)
  | H, [] => .ok ([], H)
  | H, ev :: evs =>
    match H.perform Ctx this ev with
    | .error e => .error e
    | .ok (a, H') =>
      match Heap.performAll Ctx this H' evs with
      | .error e => .error e
      | .ok (as, H'') => .ok (a :: as, H'')

/-- The indexes of a translation unit as the specification describes them: the
current declaration list and, for each index, the declaration list as it stood
when the index was built by its single pass, `none` while the index is not
built. -/
structure IndexSpec where
  decls : List ExprStmtOrDecl
  topLevelBuiltFrom : Option (List ExprStmtOrDecl)
  extensionsBuiltFrom : Option (List ExprStmtOrDecl)

/-- The access-path filter in the specification's words: the path is not empty
and its sole entry names another symbol. -/
def IndexSpec.scopedToOther (p : Option (Identifier × SourceLoc)) (n : Identifier) : Bool :=
  match p with
  | some P => P.1 != n
  | none => false

/-- An event in the specification's words: a lookup builds the index it needs
from the current declaration list when the index is not built, and answers
from the declaration list the index was built from; a change of the
declaration list touches no index; an invalidation discards both indexes. -/
def IndexSpec.step (s : IndexSpec) : Event → Answer × IndexSpec
  | .lookupType p n _ =>
    let B := s.topLevelBuiltFrom.getD s.decls
    (.type (if IndexSpec.scopedToOther p n || n.empty then none
            else (typesNamedIn B n).getLast?),
      { s with topLevelBuiltFrom := some B })
  | .lookupValue p n _ R =>
    let B := s.topLevelBuiltFrom.getD s.decls
    (.values (R ++ if IndexSpec.scopedToOther p n || n.empty then [] else valuesNamedIn B n),
      { s with topLevelBuiltFrom := some B })
  | .lookupExtensions T =>
    let B := s.extensionsBuiltFrom.getD s.decls
    (.extensions (extensionsIn B T.getCanonicalType), { s with extensionsBuiltFrom := some B })
  | .setBody Body => (.done, { s with decls := Body })
  | .clearLookupCache => (.done, { s with topLevelBuiltFrom := none, extensionsBuiltFrom := none })

/-- A sequence of events in the specification's words. -/
def IndexSpec.run : IndexSpec → List Event → List Answer × IndexSpec
  | s, [] => ([], s)
  | s, ev :: evs =>
    let out := s.step ev
    let rest := IndexSpec.run out.2 evs
    (out.1 :: rest.1, rest.2)

/-- The translation unit at `this` is in the state the specification describes
by `s`: same declaration list, each cache absent when the index is not built
and otherwise the index built from the recorded declaration list; the unit is
past parsing. -/
def Heap.Refines (Ctx : ASTContext) (H : Heap) (this : ModuleRef) (s : IndexSpec) : Prop :=
  ∃ TU, H.Modules this = .ofTU TU ∧ TU.ASTStage ≥ Ctx.Parsed ∧ TU.Body = s.decls ∧
    TU.LookupCachePimpl = s.topLevelBuiltFrom.map TUModuleCache.ofBody ∧
    TU.ExtensionCachePimpl = s.extensionsBuiltFrom.map TUExtensionCache.ofBody

/-- Two outcomes of a call agree: both fail the same assertion, or both return
the same answer and leave heaps that are the same but for lists of imports. -/
def Outcome.Agree {α : Type} (x y : Except String (α × Heap)) : Prop :=
  match x, y with
  | .ok (a, H₁), .ok (b, H₂) => a = b ∧ H₁.SameButImports H₂
  | .error e, .error e' => e = e'
  | _, _ => False

/-- The module at `r` is the module at `this` or one of its direct imports. -/
def Heap.VisibleFrom (H : Heap) (this r : ModuleRef) : Prop :=
  r = this ∨ ∃ I ∈ (H.Modules this).importedModules, I.2 = r

/-- The type declaration is a top-level declaration of the translation unit at
`r`. -/
def Heap.DeclaresType (H : Heap) (r : ModuleRef) (TAD : TypeAliasDecl) : Prop :=
  ∃ TU, H.Modules r = .ofTU TU ∧ ExprStmtOrDecl.ofDecl (.TypeAlias TAD) ∈ TU.Body

/-- The value declaration is a top-level declaration of the translation unit at
`r`. -/
def Heap.DeclaresValue (H : Heap) (r : ModuleRef) (VD : ValueDecl) : Prop :=
  ∃ TU, H.Modules r = .ofTU TU ∧ ExprStmtOrDecl.ofDecl (.Value VD) ∈ TU.Body

/-- The value declaration is a member of a top-level extension of the
translation unit at `r`. -/
def Heap.DeclaresMember (H : Heap) (r : ModuleRef) (VD : ValueDecl) : Prop :=
  ∃ TU a Ty Ms, H.Modules r = .ofTU TU ∧
    ExprStmtOrDecl.ofDecl (.Extension a Ty Ms) ∈ TU.Body ∧ Decl.Value VD ∈ Ms

/-! ## Example modules

A small heap the theorems are instantiated at: the builtin module at address
0 and six translation units. -/

/-- A context that synthesizes the builtin type `Int64` and the builtin value
`trunc`; parsing is stage 0 and `Parsed` is stage 1. -/
def exCtx : ASTContext :=
  { getBuiltinType := fun s => if s = "Int64" then some ⟨64, false, 64⟩ else none
    getBuiltinValue := fun n => if n = "trunc" then some ⟨900, "trunc"⟩ else none
    TheBuiltinModule := 0
    Parsed := 1 }

/-- The type `Int` as written. -/
def exInt : TypeBase := ⟨1, false, 100⟩

/-- The type `Int` written through an alias: same canonical type. -/
def exIntAlias : TypeBase := ⟨2, false, 100⟩

/-- Module A: `type Meters = Int`, `func speed`, two overloads of `x`, and an
extension of `Int` with members `bar` and `baz`. -/
def exA : TranslationUnit :=
  { ASTStage := 2
    Body := [.ofDecl (.TypeAlias ⟨10, 1, "Meters", exInt, 1, true⟩),
             .ofDecl (.Value ⟨11, "speed"⟩),
             .ofDecl (.Value ⟨12, "x"⟩),
             .ofStmt 13,
             .ofDecl (.Value ⟨14, "x"⟩),
             .ofDecl (.Extension 15 exInt [.Value ⟨16, "bar"⟩, .Value ⟨17, "baz"⟩])]
    ImportedModules := []
    LookupCachePimpl := none
    ExtensionCachePimpl := none }

/-- Module B: `func x`, `type Meters`, `func Bar`, `type Foo`, an extension of
`Int` with a member `bar`, and an import of module P. -/
def exB : TranslationUnit :=
  { ASTStage := 2
    Body := [.ofDecl (.Value ⟨20, "x"⟩),
             .ofDecl (.TypeAlias ⟨21, 2, "Meters", exInt, 2, true⟩),
             .ofDecl (.Value ⟨22, "Bar"⟩),
             .ofDecl (.TypeAlias ⟨23, 2, "Foo", exInt, 2, true⟩),
             .ofDecl (.TypeAlias ⟨24, 2, "Bar", exInt, 2, true⟩),
             .ofDecl (.Extension 25 exIntAlias [.Value ⟨26, "bar"⟩])]
    ImportedModules := [([], 5)]
    LookupCachePimpl := none
    ExtensionCachePimpl := none }

/-- Module M: two overloads of `f` around an expression, two declarations of
the type `Local`, two extensions of `Int` (written differently) with members
named `m`, an error-typed extension; it imports A, B and the builtin module. -/
def exM : TranslationUnit :=
  { ASTStage := 2
    Body := [.ofDecl (.Value ⟨30, "f"⟩),
             .ofExpr 31,
             .ofDecl (.Value ⟨32, "f"⟩),
             .ofDecl (.TypeAlias ⟨33, 3, "Local", exInt, 3, true⟩),
             .ofDecl (.TypeAlias ⟨34, 3, "Local", exIntAlias, 3, true⟩),
             .ofDecl (.Extension 35 exInt [.Value ⟨36, "m"⟩, .Value ⟨37, "other"⟩]),
             .ofDecl (.Extension 38 exIntAlias [.TypeAlias ⟨39, 3, "m", exInt, 3, true⟩,
               .Value ⟨40, "m"⟩]),
             .ofDecl (.Extension 41 ⟨3, true, 100⟩ [.Value ⟨42, "m"⟩]),
             .ofDecl (.Value ⟨43, "x"⟩),
             .ofDecl (.Other 44)]
    ImportedModules := [([], 1), ([], 2), ([], 0)]
    LookupCachePimpl := none
    ExtensionCachePimpl := none }

/-- Module P, imported by B only: it declares `deep`. -/
def exP : TranslationUnit :=
  { ASTStage := 2
    Body := [.ofDecl (.Value ⟨50, "deep"⟩), .ofDecl (.TypeAlias ⟨51, 5, "deep", exInt, 5, true⟩)]
    ImportedModules := []
    LookupCachePimpl := none
    ExtensionCachePimpl := none }

/-- Module Q: no declarations of its own; it imports A and B. -/
def exQ : TranslationUnit :=
  { ASTStage := 2
    Body := [.ofExpr 60]
    ImportedModules := [([], 1), ([], 2)]
    LookupCachePimpl := none
    ExtensionCachePimpl := none }

/-- Module F: its body is two functions named `f`. -/
def exF : TranslationUnit :=
  { ASTStage := 2
    Body := [.ofDecl (.Value ⟨70, "f"⟩), .ofDecl (.Value ⟨71, "f"⟩)]
    ImportedModules := []
    LookupCachePimpl := none
    ExtensionCachePimpl := none }

/-- Module R: it imports B restricted to the symbol `N`, which B does not
declare. -/
def exR : TranslationUnit :=
  { ASTStage := 2
    Body := []
    ImportedModules := [([("N", 7)], 2)]
    LookupCachePimpl := none
    ExtensionCachePimpl := none }

/-- The example heap: builtin module at 0, A at 1, B at 2, M at 3, Q at 4, P at
5, F at 7, R everywhere else. -/
def exHeap : Heap :=
  { Modules := fun r =>
      match r with
      | 0 => .ofBuiltin ⟨3, none⟩
      | 1 => .ofTU exA
      | 2 => .ofTU exB
      | 3 => .ofTU exM
      | 4 => .ofTU exQ
      | 5 => .ofTU exP
      | 7 => .ofTU exF
      | _ => .ofTU exR
    ArenaTop := 1000 }

/-- Calls made between two lookups of `Int64` in the builtin module: a value
lookup in the builtin module, a global lookup of the same name from module M,
an unqualified lookup, and an invalidation of module M. -/
def exQueries : List Query :=
  [.lookupValue 0 [] "trunc" .QualifiedLookup [],
   .lookupGlobalType 3 "Int64" .QualifiedLookup,
   .lookupValue 0 [] "Int64" .QualifiedLookup [],
   .lookupType 0 [] "Int64" .UnqualifiedLookup,
   .clearLookupCache 3]

/-- The example heap after a qualified `lookupType` of `Int64` in the builtin
module. -/
def exHeapInt64 : Heap :=
  match Module.lookupType exCtx exHeap 0 [] "Int64" .QualifiedLookup with
  | .ok (_, H) => H
  | .error _ => exHeap

/-- The heap `exHeapInt64` after the calls `exQueries`. -/
def exHeapInt64Later : Heap :=
  match Heap.afterAll exCtx exHeapInt64 exQueries with
  | .ok H => H
  | .error _ => exHeapInt64

/-- A context in which both synthesis functions yield something for the name
`both`. -/
def exCtxBoth : ASTContext :=
  { getBuiltinType := fun s => if s = "both" then some ⟨7, false, 7⟩ else none
    getBuiltinValue := fun n => if n = "both" then some ⟨901, "both"⟩ else none
    TheBuiltinModule := 0
    Parsed := 1 }

/-- The example heap after a qualified `lookupType` of `both` in the builtin
module, in the context `exCtxBoth`. -/
def exHeapBothType : Heap :=
  match Module.lookupType exCtxBoth exHeap 0 [] "both" .QualifiedLookup with
  | .ok (_, H) => H
  | .error _ => exHeap

/-- The example heap after a qualified `lookupValue` of `both` in the builtin
module, in the context `exCtxBoth`. -/
def exHeapBothValue : Heap :=
  match Module.lookupValue exCtxBoth exHeap 0 [] "both" .QualifiedLookup [] with
  | .ok (_, H) => H
  | .error _ => exHeap

/-- A new declaration list for module A: another alias `Meters` and a single
function `x`. -/
def exNewBody : List ExprStmtOrDecl :=
  [.ofDecl (.TypeAlias ⟨80, 1, "Meters", exIntAlias, 1, true⟩), .ofDecl (.Value ⟨81, "x"⟩)]

/-- Events on module A: a lookup, a change of its declaration list, two
lookups, an invalidation, two lookups. -/
def exEvents : List Event :=
  [.lookupValue none "x" .QualifiedLookup [],
   .setBody exNewBody,
   .lookupValue none "x" .QualifiedLookup [],
   .lookupType none "Meters" .QualifiedLookup,
   .clearLookupCache,
   .lookupValue none "x" .QualifiedLookup [],
   .lookupType (some ("Meters", 3)) "Meters" .QualifiedLookup]

/-- What the events `exEvents` answer on module A: the declarations of the old
list until the invalidation, those of the new list after it. -/
def exAnswers : List Answer :=
  [.values [⟨12, "x"⟩, ⟨14, "x"⟩],
   .done,
   .values [⟨12, "x"⟩, ⟨14, "x"⟩],
   .type (some ⟨10, 1, "Meters", exInt, 1, true⟩),
   .done,
   .values [⟨81, "x"⟩],
   .type (some ⟨80, 1, "Meters", exIntAlias, 1, true⟩)]

/-- Module U: an unnamed value and an unnamed type at top level; it imports
A. -/
def exU : TranslationUnit :=
  { ASTStage := 2
    Body := [.ofDecl (.Value ⟨90, ""⟩), .ofDecl (.TypeAlias ⟨91, 8, "", exInt, 8, true⟩)]
    ImportedModules := [([], 1)]
    LookupCachePimpl := none
    ExtensionCachePimpl := none }

/-- The example heap with module U stored at address 8. -/
def exHeapU : Heap := exHeap.store 8 (.ofTU exU)

/-! ## Theorems -/

/-! ### DenseMap -/

theorem DenseMap.findIn_setIn {K V : Type} [DecidableEq K] (es : List (K × V)) (k k' : K)
    (v : V) : DenseMap.findIn (DenseMap.setIn es k v) k'
      = if k = k' then some v else DenseMap.findIn es k' := by
  induction es with
  | nil => simp [DenseMap.setIn, DenseMap.findIn]
  | cons e es ih =>
    by_cases h : e.1 = k
    · by_cases h' : k = k'
      · simp [DenseMap.setIn, DenseMap.findIn, h, h']
      · have : ¬ e.1 = k' := fun h2 => h' (h ▸ h2)
        simp [DenseMap.setIn, DenseMap.findIn, h, h', this]
    · by_cases h' : k = k'
      · subst h'
        simp [DenseMap.setIn, DenseMap.findIn, h, ih]
      · simp [DenseMap.setIn, DenseMap.findIn, h, h', ih]

theorem DenseMap.find_set {K V : Type} [DecidableEq K] (m : DenseMap K V) (k k' : K) (v : V) :
    (m.set k v).find k' = if k = k' then some v else m.find k' := by
  simp [DenseMap.find, DenseMap.set, DenseMap.findIn_setIn]

theorem DenseMap.find_empty {K V : Type} [DecidableEq K] (k : K) :
    (DenseMap.empty : DenseMap K V).find k = none := rfl

theorem DenseMap.subscript_fst {K V : Type} [DecidableEq K] (m : DenseMap K V) (k : K)
    (d : V) : (m.subscript k d).1 = (m.find k).getD d := by
  unfold DenseMap.subscript
  cases h : m.find k <;> simp

theorem DenseMap.subscript_snd_find {K V : Type} [DecidableEq K] (m : DenseMap K V)
    (k k' : K) (d : V) :
    (m.subscript k d).2.find k' = if k = k' then some ((m.find k).getD d) else m.find k' := by
  unfold DenseMap.subscript
  cases h : m.find k with
  | none => simp [DenseMap.find_set]
  | some v =>
    by_cases hk : k = k'
    · subst hk; simp [h]
    · simp [hk]

/-! ### The caches built from a declaration list -/

theorem foldl_push_back {α : Type} (Vec Result : List α) :
    Vec.foldl (fun Result Elt => Result ++ [Elt]) Result = Result ++ Vec := by
  induction Vec generalizing Result with
  | nil => simp
  | cons a Vec ih => simp [ih]

theorem Identifier.empty_iff (x : Identifier) : x.empty = true ↔ x = "" := by
  simp [Identifier.empty]

theorem TUModuleCache.addElement_values (C : TUModuleCache) (Elt : ExprStmtOrDecl)
    (x : Identifier) :
    ((C.addElement Elt).TopLevelValues.find x).getD []
      = (C.TopLevelValues.find x).getD [] ++ (if x.empty then [] else valuesNamedIn [Elt] x) := by
  by_cases hx : x = ""
  · subst hx
    rcases Elt with a | a | D
    · simp [TUModuleCache.addElement, ExprStmtOrDecl.dyn_cast_Decl, Identifier.empty]
    · simp [TUModuleCache.addElement, ExprStmtOrDecl.dyn_cast_Decl, Identifier.empty]
    · rcases D with TAD | VD | ⟨a, T, Ms⟩ | a
      · by_cases h : TAD.Name = "" <;>
          simp [TUModuleCache.addElement, ExprStmtOrDecl.dyn_cast_Decl,
            Decl.dyn_cast_TypeAliasDecl, Decl.dyn_cast_ValueDecl, Identifier.empty, h]
      · by_cases h : VD.Name = ""
        · simp [TUModuleCache.addElement, ExprStmtOrDecl.dyn_cast_Decl,
            Decl.dyn_cast_TypeAliasDecl, Decl.dyn_cast_ValueDecl, Identifier.empty, h]
        · simp [TUModuleCache.addElement, ExprStmtOrDecl.dyn_cast_Decl,
            Decl.dyn_cast_TypeAliasDecl, Decl.dyn_cast_ValueDecl, Identifier.empty, h,
            DenseMap.find_set, DenseMap.subscript_snd_find]
      · simp [TUModuleCache.addElement, ExprStmtOrDecl.dyn_cast_Decl,
          Decl.dyn_cast_TypeAliasDecl, Decl.dyn_cast_ValueDecl, Identifier.empty]
      · simp [TUModuleCache.addElement, ExprStmtOrDecl.dyn_cast_Decl,
          Decl.dyn_cast_TypeAliasDecl, Decl.dyn_cast_ValueDecl, Identifier.empty]
  · rcases Elt with a | a | D
    · simp [TUModuleCache.addElement, ExprStmtOrDecl.dyn_cast_Decl, valuesNamedIn]
    · simp [TUModuleCache.addElement, ExprStmtOrDecl.dyn_cast_Decl, valuesNamedIn]
    · rcases D with TAD | VD | ⟨a, T, Ms⟩ | a
      · by_cases h : TAD.Name = "" <;>
          simp [TUModuleCache.addElement, ExprStmtOrDecl.dyn_cast_Decl,
            Decl.dyn_cast_TypeAliasDecl, Decl.dyn_cast_ValueDecl, Identifier.empty, h,
            valuesNamedIn]
      · by_cases h : VD.Name = ""
        · have hne : ¬ "" = x := fun h2 => hx h2.symm
          simp [TUModuleCache.addElement, ExprStmtOrDecl.dyn_cast_Decl,
            Decl.dyn_cast_TypeAliasDecl, Decl.dyn_cast_ValueDecl, Identifier.empty, h,
            valuesNamedIn, hne, hx]
        · by_cases hv : VD.Name = x
          · subst hv
            simp [TUModuleCache.addElement, ExprStmtOrDecl.dyn_cast_Decl,
              Decl.dyn_cast_TypeAliasDecl, Decl.dyn_cast_ValueDecl, Identifier.empty, h,
              valuesNamedIn, DenseMap.find_set, DenseMap.subscript_fst]
          · simp [TUModuleCache.addElement, ExprStmtOrDecl.dyn_cast_Decl,
              Decl.dyn_cast_TypeAliasDecl, Decl.dyn_cast_ValueDecl, Identifier.empty, h,
              valuesNamedIn, DenseMap.find_set, DenseMap.subscript_snd_find, hv, hx]
      · simp [TUModuleCache.addElement, ExprStmtOrDecl.dyn_cast_Decl,
          Decl.dyn_cast_TypeAliasDecl, Decl.dyn_cast_ValueDecl, valuesNamedIn]
      · simp [TUModuleCache.addElement, ExprStmtOrDecl.dyn_cast_Decl,
          Decl.dyn_cast_TypeAliasDecl, Decl.dyn_cast_ValueDecl, valuesNamedIn]

theorem valuesNamedIn_cons (Elt : ExprStmtOrDecl) (Body : List ExprStmtOrDecl)
    (x : Identifier) : valuesNamedIn (Elt :: Body) x = valuesNamedIn [Elt] x ++ valuesNamedIn Body x := by
  have := List.filterMap_append [Elt] Body (fun Elt =>
    match Elt with
    | .ofDecl (.Value VD) => if VD.Name = x then some VD else none
    | _ => none)
  simpa [valuesNamedIn] using this

theorem TUModuleCache.foldl_values (Body : List ExprStmtOrDecl) (C : TUModuleCache)
    (x : Identifier) :
    ((Body.foldl TUModuleCache.addElement C).TopLevelValues.find x).getD []
      = (C.TopLevelValues.find x).getD [] ++ (if x.empty then [] else valuesNamedIn Body x) := by
  induction Body generalizing C with
  | nil => simp [valuesNamedIn]
  | cons Elt Body ih =>
    rw [List.foldl_cons, ih, TUModuleCache.addElement_values, valuesNamedIn_cons Elt Body]
    by_cases hx : x.empty = true <;> simp [hx]

/-- The overload set the constructed cache holds for a non-empty name is the
list of the top-level values of that name, in declaration order. -/
theorem TUModuleCache.ctor_values (TU : TranslationUnit) (x : Identifier) :
    (((TUModuleCache.ctor TU).TopLevelValues.find x).getD [])
      = if x.empty then [] else TU.valuesNamed x := by
  simp [TUModuleCache.ctor, TUModuleCache.foldl_values, DenseMap.find_empty,
    TranslationUnit.valuesNamed]

theorem TUModuleCache.addElement_types (C : TUModuleCache) (Elt : ExprStmtOrDecl)
    (n : Identifier) :
    (C.addElement Elt).TopLevelTypes.find n
      = if n.empty then C.TopLevelTypes.find n
        else (typesNamedIn [Elt] n).getLast?.or (C.TopLevelTypes.find n) := by
  by_cases hn : n = ""
  · subst hn
    rcases Elt with a | a | D
    · simp [TUModuleCache.addElement, ExprStmtOrDecl.dyn_cast_Decl, Identifier.empty]
    · simp [TUModuleCache.addElement, ExprStmtOrDecl.dyn_cast_Decl, Identifier.empty]
    · rcases D with TAD | VD | ⟨a, T, Ms⟩ | a
      · by_cases h : TAD.Name = ""
        · simp [TUModuleCache.addElement, ExprStmtOrDecl.dyn_cast_Decl,
            Decl.dyn_cast_TypeAliasDecl, Decl.dyn_cast_ValueDecl, Identifier.empty, h]
        · simp [TUModuleCache.addElement, ExprStmtOrDecl.dyn_cast_Decl,
            Decl.dyn_cast_TypeAliasDecl, Decl.dyn_cast_ValueDecl, Identifier.empty, h,
            DenseMap.find_set]
      · by_cases h : VD.Name = "" <;>
          simp [TUModuleCache.addElement, ExprStmtOrDecl.dyn_cast_Decl,
            Decl.dyn_cast_TypeAliasDecl, Decl.dyn_cast_ValueDecl, Identifier.empty, h]
      · simp [TUModuleCache.addElement, ExprStmtOrDecl.dyn_cast_Decl,
          Decl.dyn_cast_TypeAliasDecl, Decl.dyn_cast_ValueDecl, Identifier.empty]
      · simp [TUModuleCache.addElement, ExprStmtOrDecl.dyn_cast_Decl,
          Decl.dyn_cast_TypeAliasDecl, Decl.dyn_cast_ValueDecl, Identifier.empty]
  · rcases Elt with a | a | D
    · simp [TUModuleCache.addElement, ExprStmtOrDecl.dyn_cast_Decl, typesNamedIn,
        Identifier.empty, hn]
    · simp [TUModuleCache.addElement, ExprStmtOrDecl.dyn_cast_Decl, typesNamedIn,
        Identifier.empty, hn]
    · rcases D with TAD | VD | ⟨a, T, Ms⟩ | a
      · by_cases h : TAD.Name = ""
        · have hne : ¬ "" = n := fun h2 => hn h2.symm
          simp [TUModuleCache.addElement, ExprStmtOrDecl.dyn_cast_Decl,
            Decl.dyn_cast_TypeAliasDecl, Decl.dyn_cast_ValueDecl, Identifier.empty, h,
            typesNamedIn, hne, hn]
        · by_cases ht : TAD.Name = n
          · subst ht
            simp [TUModuleCache.addElement, ExprStmtOrDecl.dyn_cast_Decl,
              Decl.dyn_cast_TypeAliasDecl, Decl.dyn_cast_ValueDecl, Identifier.empty, h,
              typesNamedIn, DenseMap.find_set]
          · simp [TUModuleCache.addElement, ExprStmtOrDecl.dyn_cast_Decl,
              Decl.dyn_cast_TypeAliasDecl, Decl.dyn_cast_ValueDecl, Identifier.empty, h,
              typesNamedIn, DenseMap.find_set, ht, hn]
      · by_cases h : VD.Name = "" <;>
          simp [TUModuleCache.addElement, ExprStmtOrDecl.dyn_cast_Decl,
            Decl.dyn_cast_TypeAliasDecl, Decl.dyn_cast_ValueDecl, Identifier.empty, h,
            typesNamedIn, hn]
      · simp [TUModuleCache.addElement, ExprStmtOrDecl.dyn_cast_Decl,
          Decl.dyn_cast_TypeAliasDecl, Decl.dyn_cast_ValueDecl, typesNamedIn,
          Identifier.empty, hn]
      · simp [TUModuleCache.addElement, ExprStmtOrDecl.dyn_cast_Decl,
          Decl.dyn_cast_TypeAliasDecl, Decl.dyn_cast_ValueDecl, typesNamedIn,
          Identifier.empty, hn]

theorem typesNamedIn_cons (Elt : ExprStmtOrDecl) (Body : List ExprStmtOrDecl)
    (n : Identifier) : typesNamedIn (Elt :: Body) n = typesNamedIn [Elt] n ++ typesNamedIn Body n := by
  have := List.filterMap_append [Elt] Body (fun Elt =>
    match Elt with
    | .ofDecl (.TypeAlias TAD) => if TAD.Name = n then some TAD else none
    | _ => none)
  simpa [typesNamedIn] using this

theorem TUModuleCache.foldl_types (Body : List ExprStmtOrDecl) (C : TUModuleCache)
    (n : Identifier) :
    (Body.foldl TUModuleCache.addElement C).TopLevelTypes.find n
      = if n.empty then C.TopLevelTypes.find n
        else (typesNamedIn Body n).getLast?.or (C.TopLevelTypes.find n) := by
  induction Body generalizing C with
  | nil => simp [typesNamedIn]
  | cons Elt Body ih =>
    rw [List.foldl_cons, ih, TUModuleCache.addElement_types, typesNamedIn_cons Elt Body,
      List.getLast?_append]
    by_cases hn : n.empty = true
    · simp [hn]
    · simp only [hn]
      cases (typesNamedIn Body n).getLast? <;> simp

/-- The type the constructed cache holds for a non-empty name is the last
top-level type declaration of that name. -/
theorem TUModuleCache.ctor_types (TU : TranslationUnit) (n : Identifier) :
    (TUModuleCache.ctor TU).TopLevelTypes.find n
      = if n.empty then none else (TU.typesNamed n).getLast? := by
  simp [TUModuleCache.ctor, TUModuleCache.foldl_types, DenseMap.find_empty,
    TranslationUnit.typesNamed]

theorem TUExtensionCache.addElement_find (C : TUExtensionCache) (Elt : ExprStmtOrDecl)
    (T : CanType) :
    ((C.addElement Elt).Extensions.find T).getD []
      = (C.Extensions.find T).getD [] ++ extensionsIn [Elt] T := by
  rcases Elt with a | a | D
  · simp [TUExtensionCache.addElement, ExprStmtOrDecl.dyn_cast_Decl, extensionsIn]
  · simp [TUExtensionCache.addElement, ExprStmtOrDecl.dyn_cast_Decl, extensionsIn]
  · rcases D with TAD | VD | ⟨a, Ty, Ms⟩ | a
    · simp [TUExtensionCache.addElement, ExprStmtOrDecl.dyn_cast_Decl,
        Decl.dyn_cast_ExtensionDecl, extensionsIn]
    · simp [TUExtensionCache.addElement, ExprStmtOrDecl.dyn_cast_Decl,
        Decl.dyn_cast_ExtensionDecl, extensionsIn]
    · by_cases he : Ty.isErrorType = true
      · simp [TUExtensionCache.addElement, ExprStmtOrDecl.dyn_cast_Decl,
          Decl.dyn_cast_ExtensionDecl, extensionsIn, ExtensionDecl.getExtendedType, he]
      · by_cases hc : Ty.CanonicalType = T
        · subst hc
          simp [TUExtensionCache.addElement, ExprStmtOrDecl.dyn_cast_Decl,
            Decl.dyn_cast_ExtensionDecl, extensionsIn, ExtensionDecl.getExtendedType, he,
            TypeBase.getCanonicalType, DenseMap.find_set, DenseMap.subscript_fst]
        · simp [TUExtensionCache.addElement, ExprStmtOrDecl.dyn_cast_Decl,
            Decl.dyn_cast_ExtensionDecl, extensionsIn, ExtensionDecl.getExtendedType, he,
            TypeBase.getCanonicalType, DenseMap.find_set, DenseMap.subscript_snd_find, hc]
    · simp [TUExtensionCache.addElement, ExprStmtOrDecl.dyn_cast_Decl,
        Decl.dyn_cast_ExtensionDecl, extensionsIn]

theorem extensionsIn_cons (Elt : ExprStmtOrDecl) (Body : List ExprStmtOrDecl) (T : CanType) :
    extensionsIn (Elt :: Body) T = extensionsIn [Elt] T ++ extensionsIn Body T := by
  have := List.filterMap_append [Elt] Body (fun Elt =>
    match Elt with
    | .ofDecl (.Extension a Ty Ms) =>
      if Ty.isErrorType = false ∧ Ty.CanonicalType = T then some (⟨a, Ty, Ms⟩ : ExtensionDecl)
      else none
    | _ => none)
  simpa [extensionsIn] using this

theorem TUExtensionCache.foldl_find (Body : List ExprStmtOrDecl) (C : TUExtensionCache)
    (T : CanType) :
    ((Body.foldl TUExtensionCache.addElement C).Extensions.find T).getD []
      = (C.Extensions.find T).getD [] ++ extensionsIn Body T := by
  induction Body generalizing C with
  | nil => simp [extensionsIn]
  | cons Elt Body ih =>
    rw [List.foldl_cons, ih, TUExtensionCache.addElement_find, extensionsIn_cons Elt Body]
    simp

/-- The extensions the constructed cache returns for a type are the top-level
extensions of that canonical type that are not error-typed, in source order. -/
theorem TUExtensionCache.ctor_getExtensions (TU : TranslationUnit) (T : TypeBase) :
    (TUExtensionCache.ctor TU).getExtensions T.getCanonicalType = TU.extensionsOf T := by
  have h := TUExtensionCache.foldl_find TU.Body ⟨DenseMap.empty⟩ T.CanonicalType
  simp only [DenseMap.find_empty, Option.getD_none, List.nil_append] at h
  unfold TUExtensionCache.getExtensions TUExtensionCache.ctor TranslationUnit.extensionsOf
    TypeBase.getCanonicalType
  rw [← h]
  cases (List.foldl TUExtensionCache.addElement ⟨DenseMap.empty⟩ TU.Body).Extensions.find
    T.CanonicalType <;> rfl

theorem Module.lookupGlobalExtensionMethods.collect_eq (Name : Identifier)
    (EDs : List ExtensionDecl) (Result : List ValueDecl) :
    Module.lookupGlobalExtensionMethods.collect Name EDs Result
      = Result ++ EDs.flatMap fun ED => ED.memberValuesNamed Name := by
  have inner : ∀ (Ms : List Decl) (R : List ValueDecl),
      Ms.foldl (fun Result Member =>
        match Member.dyn_cast_ValueDecl with
        | some VD => if VD.Name = Name then Result ++ [VD] else Result
        | none => Result) R
      = R ++ Ms.filterMap (fun Member =>
        match Member with
        | .Value VD => if VD.Name = Name then some VD else none
        | _ => none) := by
    intro Ms
    induction Ms with
    | nil => simp
    | cons M Ms ih =>
      intro R
      rw [List.foldl_cons, ih]
      rcases M with TAD | VD | ⟨a, T, Ms2⟩ | a
      · simp [Decl.dyn_cast_ValueDecl]
      · by_cases h : VD.Name = Name <;> simp [Decl.dyn_cast_ValueDecl, h]
      · simp [Decl.dyn_cast_ValueDecl]
      · simp [Decl.dyn_cast_ValueDecl]
  unfold Module.lookupGlobalExtensionMethods.collect
  induction EDs generalizing Result with
  | nil => simp
  | cons ED EDs ih =>
    rw [List.foldl_cons, ih, ExtensionDecl.getMembers, inner]
    simp [ExtensionDecl.memberValuesNamed, List.flatMap_cons]

/-! ### The builtin cache, seen through its entries -/

theorem BuiltinModuleCache.subscript_entry (C : BuiltinModuleCache) (n : Identifier) :
    (C.Cache.subscript n none).1 = C.entry n := by
  rw [DenseMap.subscript_fst]
  unfold BuiltinModuleCache.entry
  rcases hf : C.Cache.find n with _ | _ | D <;> simp

theorem BuiltinModuleCache.entry_subscript (C : BuiltinModuleCache) (n k : Identifier) :
    (BuiltinModuleCache.mk (C.Cache.subscript n none).2).entry k = C.entry k := by
  unfold BuiltinModuleCache.entry
  rw [DenseMap.subscript_snd_find]
  by_cases h : n = k
  · subst h
    rcases hf : C.Cache.find n with _ | _ | D <;> simp
  · simp [h]

theorem BuiltinModuleCache.entry_set (m : DenseMap Identifier (Option NamedDecl))
    (n k : Identifier) (v : Option NamedDecl) :
    (BuiltinModuleCache.mk (m.set n v)).entry k
      = if n = k then v else (BuiltinModuleCache.mk m).entry k := by
  unfold BuiltinModuleCache.entry
  rw [DenseMap.find_set]
  by_cases h : n = k
  · rcases v with _ | D <;> simp [h]
  · simp [h]

/-- The declaration a builtin `lookupType` returns, from the entry of the name. -/
theorem BuiltinModuleCache.lookupType_fst (C : BuiltinModuleCache) (Ctx : ASTContext)
    (n : Identifier) (k : NLKind) (top : Nat) :
    (C.lookupType Ctx n k top).1
      = if k ≠ NLKind.QualifiedLookup then none
        else match C.entry n with
          | some D => NamedDecl.dyn_cast_or_null_TypeAliasDecl (some D)
          | none => (Ctx.getBuiltinType n).map
              fun Ty => ⟨top, 0, n, Ty, Ctx.TheBuiltinModule, true⟩ := by
  unfold BuiltinModuleCache.lookupType
  by_cases hk : k = NLKind.QualifiedLookup
  · simp only [hk, ne_eq, not_true_eq_false, if_false]
    have h1 := C.subscript_entry n
    cases hs : C.Cache.subscript n none with
    | mk Entry Cache =>
      rw [hs] at h1
      simp only at h1
      subst h1
      cases hj : C.entry n with
      | none =>
        cases hb : Ctx.getBuiltinType n <;>
          simp [NamedDecl.dyn_cast_or_null_TypeAliasDecl]
      | some D => simp
  · simp [hk]

/-- The entries of the builtin cache after a `lookupType`. -/
theorem BuiltinModuleCache.lookupType_entry (C : BuiltinModuleCache) (Ctx : ASTContext)
    (n : Identifier) (k : NLKind) (top : Nat) (m : Identifier) :
    (C.lookupType Ctx n k top).2.1.entry m
      = if k = NLKind.QualifiedLookup ∧ C.entry n = none ∧ n = m then
          (Ctx.getBuiltinType n).map
            fun Ty => NamedDecl.TypeAlias ⟨top, 0, n, Ty, Ctx.TheBuiltinModule, true⟩
        else C.entry m := by
  unfold BuiltinModuleCache.lookupType
  by_cases hk : k = NLKind.QualifiedLookup
  · simp only [hk, ne_eq, not_true_eq_false, if_false, true_and]
    have h1 := C.subscript_entry n
    have h2 := C.entry_subscript n
    cases hs : C.Cache.subscript n none with
    | mk Entry Cache =>
      rw [hs] at h1 h2
      simp only at h1 h2
      subst h1
      cases hj : C.entry n with
      | none =>
        cases hb : Ctx.getBuiltinType n with
        | none =>
          by_cases hnm : n = m
          · subst hnm; simp [h2, hj]
          · simp [h2, hnm]
        | some Ty =>
          by_cases hnm : n = m
          · subst hnm; simp [BuiltinModuleCache.entry_set]
          · simp [BuiltinModuleCache.entry_set, hnm, h2]
      | some D => simp [h2]
  · simp [hk]

/-- The allocator after a builtin `lookupType`: one declaration is allocated
exactly when the name had no entry and the type synthesis yields a type. -/
theorem BuiltinModuleCache.lookupType_top (C : BuiltinModuleCache) (Ctx : ASTContext)
    (n : Identifier) (k : NLKind) (top : Nat) :
    (C.lookupType Ctx n k top).2.2
      = if k = NLKind.QualifiedLookup ∧ C.entry n = none ∧ (Ctx.getBuiltinType n).isSome
        then top + 1 else top := by
  unfold BuiltinModuleCache.lookupType
  by_cases hk : k = NLKind.QualifiedLookup
  · simp only [hk, ne_eq, not_true_eq_false, if_false, true_and]
    have h1 := C.subscript_entry n
    cases hs : C.Cache.subscript n none with
    | mk Entry Cache =>
      rw [hs] at h1
      simp only at h1
      subst h1
      cases hj : C.entry n with
      | none => cases hb : Ctx.getBuiltinType n <;> simp
      | some D => simp
  · simp [hk]

/-- What a builtin `lookupValue` appends, from the entry of the name. -/
theorem BuiltinModuleCache.lookupValue_fst (C : BuiltinModuleCache) (Ctx : ASTContext)
    (n : Identifier) (k : NLKind) (R : List ValueDecl) :
    (C.lookupValue Ctx n k R).1
      = R ++ if k ≠ NLKind.QualifiedLookup then []
        else match C.entry n with
          | some D => (NamedDecl.dyn_cast_or_null_ValueDecl (some D)).toList
          | none => (Ctx.getBuiltinValue n).toList := by
  unfold BuiltinModuleCache.lookupValue
  by_cases hk : k = NLKind.QualifiedLookup
  · simp only [hk, ne_eq, not_true_eq_false, if_false]
    have h1 := C.subscript_entry n
    cases hs : C.Cache.subscript n none with
    | mk Entry Cache =>
      rw [hs] at h1
      simp only at h1
      subst h1
      cases hj : C.entry n with
      | none =>
        cases hb : Ctx.getBuiltinValue n <;>
          simp [NamedDecl.dyn_cast_or_null_ValueDecl]
      | some D =>
        cases hd : NamedDecl.dyn_cast_or_null_ValueDecl (some D) <;> simp [hd]
  · simp [hk]

/-- The entries of the builtin cache after a `lookupValue`. -/
theorem BuiltinModuleCache.lookupValue_entry (C : BuiltinModuleCache) (Ctx : ASTContext)
    (n : Identifier) (k : NLKind) (R : List ValueDecl) (m : Identifier) :
    (C.lookupValue Ctx n k R).2.entry m
      = if k = NLKind.QualifiedLookup ∧ C.entry n = none ∧ n = m then
          (Ctx.getBuiltinValue n).map NamedDecl.Value
        else C.entry m := by
  unfold BuiltinModuleCache.lookupValue
  by_cases hk : k = NLKind.QualifiedLookup
  · simp only [hk, ne_eq, not_true_eq_false, if_false, true_and]
    have h1 := C.subscript_entry n
    have h2 := C.entry_subscript n
    cases hs : C.Cache.subscript n none with
    | mk Entry Cache =>
      rw [hs] at h1 h2
      simp only at h1 h2
      subst h1
      cases hj : C.entry n with
      | none =>
        cases hb : Ctx.getBuiltinValue n with
        | none =>
          by_cases hnm : n = m
          · subst hnm
            simp [NamedDecl.dyn_cast_or_null_ValueDecl, BuiltinModuleCache.entry_set]
          · simp [NamedDecl.dyn_cast_or_null_ValueDecl, BuiltinModuleCache.entry_set, hnm, h2]
        | some VD =>
          by_cases hnm : n = m
          · subst hnm
            simp [NamedDecl.dyn_cast_or_null_ValueDecl, BuiltinModuleCache.entry_set]
          · simp [NamedDecl.dyn_cast_or_null_ValueDecl, BuiltinModuleCache.entry_set, hnm, h2]
      | some D =>
        cases hd : NamedDecl.dyn_cast_or_null_ValueDecl (some D) <;> simp [hd, h2]
  · simp [hk]

/-! ### Heaps that answer alike -/

theorem Module.Similar.refl_module (M : Module) : M.Similar M := by
  cases M <;> simp [Module.Similar]

theorem Module.Similar.trans_module {M₁ M₂ M₃ : Module} (h₁ : M₁.Similar M₂) (h₂ : M₂.Similar M₃) :
    M₁.Similar M₃ := by
  cases M₁ <;> cases M₂ <;> cases M₃ <;> simp_all [Module.Similar]

theorem Module.Similar.isBuiltin {M₁ M₂ : Module} (h : M₁.Similar M₂) :
    M₂.isBuiltin = M₁.isBuiltin := by
  cases M₁ <;> cases M₂ <;> simp_all [Module.Similar, Module.isBuiltin]

theorem Module.Similar.stage {M₁ M₂ : Module} (h : M₁.Similar M₂) :
    M₂.ASTStage = M₁.ASTStage := by
  cases M₁ <;> cases M₂ <;> simp_all [Module.Similar, Module.ASTStage]

theorem Heap.Similar.refl_heap (H : Heap) : H.Similar H :=
  ⟨rfl, fun r => Module.Similar.refl_module (H.Modules r)⟩

theorem Heap.Similar.trans_heap {H₁ H₂ H₃ : Heap} (h₁ : H₁.Similar H₂) (h₂ : H₂.Similar H₃) :
    H₁.Similar H₃ :=
  ⟨h₁.1.trans h₂.1, fun r => (h₁.2 r).trans_module (h₂.2 r)⟩

theorem Heap.store_self (H : Heap) (r : ModuleRef) (M : Module) :
    (H.store r M).Modules r = M := by
  simp [Heap.store]

theorem Heap.similar_store (H : Heap) (r : ModuleRef) (M : Module)
    (h : (H.Modules r).Similar M) : H.Similar (H.store r M) := by
  refine ⟨rfl, fun r' => ?_⟩
  by_cases hr : r' = r
  · subst hr; simpa [Heap.store] using h
  · simpa [Heap.store, hr] using Module.Similar.refl_module (H.Modules r')

theorem Heap.Similar.importsOK {H H' : Heap} (h : H.Similar H')
    {Imports : List (AccessPathTy × ModuleRef)} (hI : H.ImportsOK Imports) :
    H'.ImportsOK Imports := by
  intro I hmem
  refine ⟨(hI I hmem).1, fun hb => (hI I hmem).2 ?_⟩
  rw [← (h.2 I.2).isBuiltin]; exact hb

theorem Heap.Similar.importsParsed {Ctx : ASTContext} {H H' : Heap} (h : H.Similar H')
    {Imports : List (AccessPathTy × ModuleRef)} (hI : H.ImportsParsed Ctx Imports) :
    H'.ImportsParsed Ctx Imports := by
  intro I hmem
  rw [(h.2 I.2).stage]; exact hI I hmem

/-! ### The local lookups -/

/-- The local `lookupType` of a translation unit: the access-path filter, then
the type the cache in use holds; the cache in use is kept. -/
theorem Module.lookupType_TU (Ctx : ASTContext) (H : Heap) (r : ModuleRef)
    (TU : TranslationUnit) (p : AccessPathTy) (n : Identifier) (k : NLKind)
    (hM : H.Modules r = .ofTU TU) (hp : p.length ≤ 1) :
    Module.lookupType Ctx H r p n k
      = .ok (if p.filtersOut n then none
             else (getTUCachePimpl TU.LookupCachePimpl TU).TopLevelTypes.find n,
          H.store r (.ofTU { TU with
            LookupCachePimpl := some (getTUCachePimpl TU.LookupCachePimpl TU) })) := by
  unfold Module.lookupType
  rw [hM]
  by_cases hf : p.filtersOut n = true <;> simp [TUModuleCache.lookupType, hp, hf]

/-- The local `lookupValue` of a translation unit: the access-path filter, then
the whole overload set the cache in use holds is appended. -/
theorem Module.lookupValue_TU (Ctx : ASTContext) (H : Heap) (r : ModuleRef)
    (TU : TranslationUnit) (p : AccessPathTy) (n : Identifier) (k : NLKind)
    (R : List ValueDecl) (hM : H.Modules r = .ofTU TU) (hp : p.length ≤ 1) :
    Module.lookupValue Ctx H r p n k R
      = .ok (R ++ (if p.filtersOut n then []
              else ((getTUCachePimpl TU.LookupCachePimpl TU).TopLevelValues.find n).getD []),
          H.store r (.ofTU { TU with
            LookupCachePimpl := some (getTUCachePimpl TU.LookupCachePimpl TU) })) := by
  unfold Module.lookupValue
  rw [hM]
  by_cases hf : p.filtersOut n = true
  · simp [TUModuleCache.lookupValue, hp, hf]
  · cases hv : (getTUCachePimpl TU.LookupCachePimpl TU).TopLevelValues.find n <;>
      simp [TUModuleCache.lookupValue, hp, hf, hv, foldl_push_back]

/-- The local `lookupType` of a builtin module with an empty access path. -/
theorem Module.lookupType_Builtin (Ctx : ASTContext) (H : Heap) (r : ModuleRef)
    (BM : BuiltinModule) (n : Identifier) (k : NLKind) (hM : H.Modules r = .ofBuiltin BM) :
    Module.lookupType Ctx H r [] n k
      = (let Out := (getBuiltinCachePimpl BM.LookupCachePimpl).lookupType Ctx n k H.ArenaTop
         .ok (Out.1,
          { H.store r (.ofBuiltin { BM with LookupCachePimpl := some Out.2.1 }) with
            ArenaTop := Out.2.2 })) := by
  unfold Module.lookupType
  rw [hM]
  simp

/-- The local `lookupValue` of a builtin module with an empty access path. -/
theorem Module.lookupValue_Builtin (Ctx : ASTContext) (H : Heap) (r : ModuleRef)
    (BM : BuiltinModule) (n : Identifier) (k : NLKind) (R : List ValueDecl)
    (hM : H.Modules r = .ofBuiltin BM) :
    Module.lookupValue Ctx H r [] n k R
      = (let Out := (getBuiltinCachePimpl BM.LookupCachePimpl).lookupValue Ctx n k R
         .ok (Out.1, H.store r (.ofBuiltin { BM with LookupCachePimpl := some Out.2 }))) := by
  unfold Module.lookupValue
  rw [hM]
  simp

theorem Module.localType_congr (Ctx : ASTContext) {H H' : Heap} (h : H.Similar H')
    (r : ModuleRef) (p : AccessPathTy) (n : Identifier) (k : NLKind) :
    Module.localType Ctx H' r p n k = Module.localType Ctx H r p n k := by
  have hs := h.2 r
  have ht := h.1
  unfold Module.localType Module.lookupType
  cases hM : H.Modules r with
  | ofBuiltin B =>
    cases hM' : H'.Modules r with
    | ofBuiltin B' =>
      rw [hM, hM'] at hs
      by_cases hp : p.isEmpty = true
      · simp only [hp, not_true_eq_false, if_false]
        rw [BuiltinModuleCache.lookupType_fst, BuiltinModuleCache.lookupType_fst, hs.2 n, ht]
      · simp [hp]
    | ofTU T' => rw [hM, hM'] at hs; exact absurd hs (by simp [Module.Similar])
  | ofTU T =>
    cases hM' : H'.Modules r with
    | ofBuiltin B' => rw [hM, hM'] at hs; exact absurd hs (by simp [Module.Similar])
    | ofTU T' =>
      rw [hM, hM'] at hs
      simp only [hs.2.2.2.1]
      cases TUModuleCache.lookupType (getTUCachePimpl T'.LookupCachePimpl T') p n k <;> rfl

theorem Module.localValues_congr (Ctx : ASTContext) {H H' : Heap} (h : H.Similar H')
    (r : ModuleRef) (p : AccessPathTy) (n : Identifier) (k : NLKind) :
    Module.localValues Ctx H' r p n k = Module.localValues Ctx H r p n k := by
  have hs := h.2 r
  unfold Module.localValues Module.lookupValue
  cases hM : H.Modules r with
  | ofBuiltin B =>
    cases hM' : H'.Modules r with
    | ofBuiltin B' =>
      rw [hM, hM'] at hs
      by_cases hp : p.isEmpty = true
      · simp only [hp, not_true_eq_false, if_false]
        rw [BuiltinModuleCache.lookupValue_fst, BuiltinModuleCache.lookupValue_fst, hs.2 n]
      · simp [hp]
    | ofTU T' => rw [hM, hM'] at hs; exact absurd hs (by simp [Module.Similar])
  | ofTU T =>
    cases hM' : H'.Modules r with
    | ofBuiltin B' => rw [hM, hM'] at hs; exact absurd hs (by simp [Module.Similar])
    | ofTU T' =>
      rw [hM, hM'] at hs
      simp only [hs.2.2.2.1]
      cases TUModuleCache.lookupValue (getTUCachePimpl T'.LookupCachePimpl T') p n k [] <;> rfl

theorem Module.localExtensions_congr (Ctx : ASTContext) {H H' : Heap} (h : H.Similar H')
    (r : ModuleRef) (T : TypeBase) :
    Module.localExtensions Ctx H' r T = Module.localExtensions Ctx H r T := by
  have hs := h.2 r
  have hst := hs.stage
  unfold Module.localExtensions Module.lookupExtensions
  rw [hst]
  by_cases hp : (H.Modules r).ASTStage ≥ Ctx.Parsed
  · simp only [hp, not_true_eq_false, if_false]
    cases hM : H.Modules r with
    | ofBuiltin B =>
      cases hM' : H'.Modules r with
      | ofBuiltin B' => rfl
      | ofTU T' => rw [hM, hM'] at hs; exact absurd hs (by simp [Module.Similar])
    | ofTU T =>
      cases hM' : H'.Modules r with
      | ofBuiltin B' => rw [hM, hM'] at hs; exact absurd hs (by simp [Module.Similar])
      | ofTU T' =>
        rw [hM, hM'] at hs
        simp only [hs.2.2.2.2]
  · simp [hp]

theorem Module.localExtensionMethods_congr (Ctx : ASTContext) {H H' : Heap}
    (h : H.Similar H') (r : ModuleRef) (T : TypeBase) (n : Identifier) :
    Module.localExtensionMethods Ctx H' r T n = Module.localExtensionMethods Ctx H r T n := by
  unfold Module.localExtensionMethods
  rw [Module.localExtensions_congr Ctx h]

theorem getBuiltinCachePimpl_some (C : BuiltinModuleCache) :
    getBuiltinCachePimpl (some C) = C := rfl

/-- Under the documented preconditions the local `lookupType` returns, and a
miss leaves a heap that answers every lookup as before. -/
theorem Module.lookupType_ok (Ctx : ASTContext) (H : Heap) (r : ModuleRef)
    (p : AccessPathTy) (n : Identifier) (k : NLKind) (hp : p.length ≤ 1)
    (hb : (H.Modules r).isBuiltin = true → p = []) :
    ∃ H₂, Module.lookupType Ctx H r p n k = .ok (Module.localType Ctx H r p n k, H₂) ∧
      (Module.localType Ctx H r p n k = none → H.Similar H₂) := by
  cases hM : H.Modules r with
  | ofBuiltin BM =>
    have hp0 : p = [] := hb (by simp [hM, Module.isBuiltin])
    subst hp0
    have e := Module.lookupType_Builtin Ctx H r BM n k hM
    refine ⟨_, by rw [Module.localType, e], ?_⟩
    rw [Module.localType, e]
    simp only
    intro hnone
    rw [BuiltinModuleCache.lookupType_fst] at hnone
    refine ⟨?_, fun r' => ?_⟩
    · simp only [Heap.store]
      rw [BuiltinModuleCache.lookupType_top]
      by_cases hk : k = NLKind.QualifiedLookup
      · by_cases he : (getBuiltinCachePimpl BM.LookupCachePimpl).entry n = none
        · simp [hk, he] at hnone
          simp [hk, he, hnone]
        · simp [hk, he]
      · simp [hk]
    · by_cases hr : r' = r
      · subst hr
        simp only [Heap.store, if_true, hM, Module.Similar, getBuiltinCachePimpl_some, true_and]
        intro m
        rw [BuiltinModuleCache.lookupType_entry]
        by_cases hk : k = NLKind.QualifiedLookup
        · by_cases he : (getBuiltinCachePimpl BM.LookupCachePimpl).entry n = none
          · simp [hk, he] at hnone
            by_cases hnm : n = m
            · subst hnm
              simp [hk, he, hnone]
            · simp [hnm]
          · simp [he]
        · simp [hk]
      · simpa [Heap.store, hr] using Module.Similar.refl_module (H.Modules r')
  | ofTU TU =>
    have e := Module.lookupType_TU Ctx H r TU p n k hM hp
    refine ⟨_, by rw [Module.localType, e], fun _ => ?_⟩
    apply Heap.similar_store
    rw [hM]
    simp [Module.Similar, getTUCachePimpl, getTUExtensionCachePimpl, TUExtensionCache.ctor]

/-- Under the documented preconditions the local `lookupValue` returns the
prior result followed by the local answer, and when nothing is found the heap
left answers every lookup as before. -/
theorem Module.lookupValue_ok (Ctx : ASTContext) (H : Heap) (r : ModuleRef)
    (p : AccessPathTy) (n : Identifier) (k : NLKind) (R : List ValueDecl)
    (hp : p.length ≤ 1) (hb : (H.Modules r).isBuiltin = true → p = []) :
    ∃ H₂, Module.lookupValue Ctx H r p n k R
        = .ok (R ++ Module.localValues Ctx H r p n k, H₂) ∧
      (Module.localValues Ctx H r p n k = [] → H.Similar H₂) := by
  cases hM : H.Modules r with
  | ofBuiltin BM =>
    have hp0 : p = [] := hb (by simp [hM, Module.isBuiltin])
    subst hp0
    have e := Module.lookupValue_Builtin Ctx H r BM n k R hM
    have e0 := Module.lookupValue_Builtin Ctx H r BM n k [] hM
    refine ⟨H.store r (.ofBuiltin ⟨BM.ASTStage,
      some ((getBuiltinCachePimpl BM.LookupCachePimpl).lookupValue Ctx n k R).2⟩), ?_, ?_⟩
    · rw [Module.localValues, e0, e]
      simp only [BuiltinModuleCache.lookupValue_fst, List.nil_append]
    · rw [Module.localValues, e0]
      simp only
      intro hnil
      rw [BuiltinModuleCache.lookupValue_fst] at hnil
      apply Heap.similar_store
      rw [hM]
      simp only [Module.Similar, getBuiltinCachePimpl_some, true_and]
      intro m
      rw [BuiltinModuleCache.lookupValue_entry]
      by_cases hk : k = NLKind.QualifiedLookup
      · by_cases he : (getBuiltinCachePimpl BM.LookupCachePimpl).entry n = none
        · simp [hk, he] at hnil
          have hv : Ctx.getBuiltinValue n = none := by
            cases hg : Ctx.getBuiltinValue n with
            | none => rfl
            | some VD => rw [hg] at hnil; exact absurd hnil (by simp)
          by_cases hnm : n = m
          · subst hnm
            simp [hk, he, hv]
          · simp [hnm]
        · simp [he]
      · simp [hk]
  | ofTU TU =>
    have e := Module.lookupValue_TU Ctx H r TU p n k R hM hp
    have e0 := Module.lookupValue_TU Ctx H r TU p n k [] hM hp
    refine ⟨H.store r (.ofTU ⟨TU.ASTStage, TU.Body, TU.ImportedModules,
      some (getTUCachePimpl TU.LookupCachePimpl TU), TU.ExtensionCachePimpl⟩),
      by rw [Module.localValues, e0, e]; simp, fun _ => ?_⟩
    apply Heap.similar_store
    rw [hM]
    simp [Module.Similar, getTUCachePimpl, getTUExtensionCachePimpl, TUExtensionCache.ctor]

/-- Past parsing, `lookupExtensions` returns and leaves a heap that answers
every lookup as before. -/
theorem Module.lookupExtensions_ok (Ctx : ASTContext) (H : Heap) (r : ModuleRef)
    (T : TypeBase) (hs : (H.Modules r).ASTStage ≥ Ctx.Parsed) :
    ∃ H₂, Module.lookupExtensions Ctx H r T = .ok (Module.localExtensions Ctx H r T, H₂) ∧
      H.Similar H₂ := by
  unfold Module.localExtensions Module.lookupExtensions
  simp only [hs, not_true_eq_false, if_false]
  cases hM : H.Modules r with
  | ofBuiltin BM => exact ⟨H, rfl, Heap.Similar.refl_heap H⟩
  | ofTU TU =>
    refine ⟨_, rfl, ?_⟩
    apply Heap.similar_store
    rw [hM]
    simp [Module.Similar, getTUCachePimpl, getTUExtensionCachePimpl, TUModuleCache.ctor]

/-! ### The import loops -/

theorem Module.lookupGlobalType.scrape_type_eq (Ctx : ASTContext) (n : Identifier) (k : NLKind)
    (Imports : List (AccessPathTy × ModuleRef)) (H₀ H : Heap) (hsim : H₀.Similar H)
    (hI : H₀.ImportsOK Imports) :
    ∃ H', Module.lookupGlobalType.scrape Ctx n k Imports H
      = .ok (firstHit (Imports.map fun I => Module.localType Ctx H₀ I.2 I.1 n k), H') := by
  induction Imports generalizing H with
  | nil => exact ⟨H, rfl⟩
  | cons I Rest ih =>
    have hI' : H.ImportsOK (I :: Rest) := hsim.importsOK hI
    have hIr : H₀.ImportsOK Rest := fun J hJ => hI J (List.mem_cons_of_mem _ hJ)
    obtain ⟨H₂, e, hs₂⟩ := Module.lookupType_ok Ctx H I.2 I.1 n k
      (hI' I (List.mem_cons_self _ _)).1 (hI' I (List.mem_cons_self _ _)).2
    rw [Module.localType_congr Ctx hsim] at e hs₂
    unfold Module.lookupGlobalType.scrape
    rw [e]
    cases ha : Module.localType Ctx H₀ I.2 I.1 n k with
    | some TAD => exact ⟨H₂, by simp [firstHit, ha]⟩
    | none =>
      obtain ⟨H', e'⟩ := ih H₂ (hsim.trans_heap (hs₂ ha)) hIr
      exact ⟨H', by simp [firstHit, ha, e']⟩

theorem Module.lookupGlobalValue.scrape_value_eq (Ctx : ASTContext) (n : Identifier) (k : NLKind)
    (Imports : List (AccessPathTy × ModuleRef)) (H₀ H : Heap) (hsim : H₀.Similar H)
    (hI : H₀.ImportsOK Imports) :
    ∃ H', Module.lookupGlobalValue.scrape Ctx n k Imports H []
      = .ok (firstNonEmpty (Imports.map fun I => Module.localValues Ctx H₀ I.2 I.1 n k), H') := by
  induction Imports generalizing H with
  | nil => exact ⟨H, rfl⟩
  | cons I Rest ih =>
    have hI' : H.ImportsOK (I :: Rest) := hsim.importsOK hI
    have hIr : H₀.ImportsOK Rest := fun J hJ => hI J (List.mem_cons_of_mem _ hJ)
    obtain ⟨H₂, e, hs₂⟩ := Module.lookupValue_ok Ctx H I.2 I.1 n k []
      (hI' I (List.mem_cons_self _ _)).1 (hI' I (List.mem_cons_self _ _)).2
    rw [Module.localValues_congr Ctx hsim, List.nil_append] at e
    rw [Module.localValues_congr Ctx hsim] at hs₂
    unfold Module.lookupGlobalValue.scrape
    rw [e]
    cases ha : Module.localValues Ctx H₀ I.2 I.1 n k with
    | nil =>
      obtain ⟨H', e'⟩ := ih H₂ (hsim.trans_heap (hs₂ ha)) hIr
      exact ⟨H', by simp [firstNonEmpty, ha, e']⟩
    | cons VD Vs => exact ⟨H₂, by simp [firstNonEmpty, ha]⟩

theorem Module.lookupGlobalExtensionMethods.scrape_ext_eq (Ctx : ASTContext) (T : TypeBase)
    (n : Identifier) (Imports : List (AccessPathTy × ModuleRef)) (H₀ H : Heap)
    (hsim : H₀.Similar H) (hI : H₀.ImportsParsed Ctx Imports) :
    ∃ H', Module.lookupGlobalExtensionMethods.scrape Ctx T n Imports H []
      = .ok (firstNonEmpty
          (Imports.map fun I => Module.localExtensionMethods Ctx H₀ I.2 T n), H') := by
  induction Imports generalizing H with
  | nil => exact ⟨H, rfl⟩
  | cons I Rest ih =>
    have hI' : H.ImportsParsed Ctx (I :: Rest) := hsim.importsParsed hI
    have hIr : H₀.ImportsParsed Ctx Rest := fun J hJ => hI J (List.mem_cons_of_mem _ hJ)
    obtain ⟨H₂, e, hs₂⟩ := Module.lookupExtensions_ok Ctx H I.2 T
      (hI' I (List.mem_cons_self _ _))
    rw [Module.localExtensions_congr Ctx hsim] at e
    unfold Module.lookupGlobalExtensionMethods.scrape
    rw [e]
    simp only [Module.lookupGlobalExtensionMethods.collect_eq, List.nil_append]
    have hdef : (Module.localExtensions Ctx H₀ I.2 T).flatMap
        (fun ED => ED.memberValuesNamed n) = Module.localExtensionMethods Ctx H₀ I.2 T n := rfl
    rw [hdef]
    cases ha : Module.localExtensionMethods Ctx H₀ I.2 T n with
    | nil =>
      obtain ⟨H', e'⟩ := ih H₂ (hsim.trans_heap hs₂) hIr
      exact ⟨H', by simp [firstNonEmpty, ha, e']⟩
    | cons VD Vs => exact ⟨H₂, by simp [firstNonEmpty, ha]⟩

/-- The global type lookup in terms of the local answers in the starting heap. -/
theorem Module.lookupGlobalType_eq (Ctx : ASTContext) (H : Heap) (this : ModuleRef)
    (n : Identifier) (k : NLKind) (hI : H.ImportsOK (H.Modules this).importedModules) :
    ∃ H', Module.lookupGlobalType Ctx H this n k
      = .ok (if (Module.localType Ctx H this [] n k).isSome || (H.Modules this).isBuiltin
             then Module.localType Ctx H this [] n k
             else firstHit ((H.Modules this).importedModules.map
               fun I => Module.localType Ctx H I.2 I.1 n k), H') := by
  obtain ⟨H₂, e, hs⟩ := Module.lookupType_ok Ctx H this [] n k (by simp) (fun _ => rfl)
  unfold Module.lookupGlobalType
  rw [e]
  cases ha : Module.localType Ctx H this [] n k with
  | some TAD => exact ⟨H₂, by simp⟩
  | none =>
    have hsim := hs ha
    have hm := hsim.2 this
    cases hM : H.Modules this with
    | ofBuiltin BM =>
      cases hM₂ : H₂.Modules this with
      | ofBuiltin BM₂ => exact ⟨H₂, by simp [Module.isBuiltin, hM₂]⟩
      | ofTU TU₂ => rw [hM, hM₂] at hm; exact absurd hm (by simp [Module.Similar])
    | ofTU TU =>
      cases hM₂ : H₂.Modules this with
      | ofBuiltin BM₂ => rw [hM, hM₂] at hm; exact absurd hm (by simp [Module.Similar])
      | ofTU TU₂ =>
        rw [hM, hM₂] at hm
        rw [hM] at hI
        obtain ⟨H', e'⟩ := Module.lookupGlobalType.scrape_type_eq Ctx n k
          TU.getImportedModules H H₂ hsim hI
        refine ⟨H', ?_⟩
        have himp : TU₂.getImportedModules = TU.getImportedModules := hm.2.2.1.symm
        simp [Module.isBuiltin, Module.importedModules, hM₂, himp, e']

/-- The global value lookup in terms of the local answers in the starting heap. -/
theorem Module.lookupGlobalValue_eq (Ctx : ASTContext) (H : Heap) (this : ModuleRef)
    (n : Identifier) (k : NLKind) (hI : H.ImportsOK (H.Modules this).importedModules) :
    ∃ H', Module.lookupGlobalValue Ctx H this n k []
      = .ok (if !(Module.localValues Ctx H this [] n k).isEmpty || (H.Modules this).isBuiltin
             then Module.localValues Ctx H this [] n k
             else firstNonEmpty ((H.Modules this).importedModules.map
               fun I => Module.localValues Ctx H I.2 I.1 n k), H') := by
  obtain ⟨H₂, e, hs⟩ := Module.lookupValue_ok Ctx H this [] n k [] (by simp) (fun _ => rfl)
  rw [List.nil_append] at e
  unfold Module.lookupGlobalValue
  rw [e]
  cases ha : Module.localValues Ctx H this [] n k with
  | cons VD Vs => exact ⟨H₂, by simp⟩
  | nil =>
    have hsim := hs ha
    have hm := hsim.2 this
    cases hM : H.Modules this with
    | ofBuiltin BM =>
      cases hM₂ : H₂.Modules this with
      | ofBuiltin BM₂ => exact ⟨H₂, by simp [Module.isBuiltin, hM₂]⟩
      | ofTU TU₂ => rw [hM, hM₂] at hm; exact absurd hm (by simp [Module.Similar])
    | ofTU TU =>
      cases hM₂ : H₂.Modules this with
      | ofBuiltin BM₂ => rw [hM, hM₂] at hm; exact absurd hm (by simp [Module.Similar])
      | ofTU TU₂ =>
        rw [hM, hM₂] at hm
        rw [hM] at hI
        obtain ⟨H', e'⟩ := Module.lookupGlobalValue.scrape_value_eq Ctx n k
          TU.getImportedModules H H₂ hsim hI
        refine ⟨H', ?_⟩
        have himp : TU₂.getImportedModules = TU.getImportedModules := hm.2.2.1.symm
        simp [Module.isBuiltin, Module.importedModules, hM₂, himp, e']

theorem getTUCachePimpl_current (TU : TranslationUnit) (h : TU.LookupCacheCurrent) :
    getTUCachePimpl TU.LookupCachePimpl TU = TUModuleCache.ctor TU := by
  unfold getTUCachePimpl
  cases hc : TU.LookupCachePimpl with
  | none => rfl
  | some C => exact h C hc

theorem getTUExtensionCachePimpl_current (TU : TranslationUnit)
    (h : TU.ExtensionCacheCurrent) :
    getTUExtensionCachePimpl TU.ExtensionCachePimpl TU = TUExtensionCache.ctor TU := by
  unfold getTUExtensionCachePimpl
  cases hc : TU.ExtensionCachePimpl with
  | none => rfl
  | some C => exact h C hc

/-- With a current cache, the local values of a translation unit are its
top-level values of that name, when the name is not empty and passes the
access-path filter. -/
theorem Module.localValues_TU (Ctx : ASTContext) (H : Heap) (r : ModuleRef)
    (TU : TranslationUnit) (p : AccessPathTy) (n : Identifier) (k : NLKind)
    (hM : H.Modules r = .ofTU TU) (hp : p.length ≤ 1) (hc : TU.LookupCacheCurrent) :
    Module.localValues Ctx H r p n k
      = if p.filtersOut n || n.empty then [] else TU.valuesNamed n := by
  rw [Module.localValues, Module.lookupValue_TU Ctx H r TU p n k [] hM hp,
    getTUCachePimpl_current TU hc, TUModuleCache.ctor_values]
  by_cases hf : p.filtersOut n = true <;> by_cases hn : n.empty = true <;> simp [hf, hn]

/-- With a current cache, the local type of a translation unit is its last
top-level type of that name, when the name is not empty and passes the
access-path filter. -/
theorem Module.localType_TU (Ctx : ASTContext) (H : Heap) (r : ModuleRef)
    (TU : TranslationUnit) (p : AccessPathTy) (n : Identifier) (k : NLKind)
    (hM : H.Modules r = .ofTU TU) (hp : p.length ≤ 1) (hc : TU.LookupCacheCurrent) :
    Module.localType Ctx H r p n k
      = if p.filtersOut n || n.empty then none else (TU.typesNamed n).getLast? := by
  rw [Module.localType, Module.lookupType_TU Ctx H r TU p n k hM hp,
    getTUCachePimpl_current TU hc, TUModuleCache.ctor_types]
  by_cases hf : p.filtersOut n = true <;> by_cases hn : n.empty = true <;> simp [hf, hn]

theorem TranslationUnit.lookupCacheCurrent_of_none (TU : TranslationUnit)
    (h : TU.LookupCachePimpl = none) : TU.LookupCacheCurrent := by
  intro C hC
  rw [h] at hC
  exact absurd hC (by simp)

theorem TranslationUnit.extensionCacheCurrent_of_none (TU : TranslationUnit)
    (h : TU.ExtensionCachePimpl = none) : TU.ExtensionCacheCurrent := by
  intro C hC
  rw [h] at hC
  exact absurd hC (by simp)

/-! ### Global value lookup -/

/-- C1. Local precedence in `lookupGlobalValue`: when a translation unit (with
a current or absent cache) has at least one top-level value declaration named
`x`, `x` not empty, the global value lookup started with an empty result
returns exactly the unit's own declarations named `x`, in declaration order,
whatever the heap holds for its imports. -/
theorem lookupGlobalValue_local_precedence (Ctx : ASTContext) (H : Heap) (this : ModuleRef)
    (TU : TranslationUnit) (x : Identifier) (kind : NLKind)
    (hM : H.Modules this = .ofTU TU) (hc : TU.LookupCacheCurrent) (hx : x ≠ "")
    (hne : TU.valuesNamed x ≠ []) :
    ∃ H', Module.lookupGlobalValue Ctx H this x kind [] = .ok (TU.valuesNamed x, H') := by
  have e := Module.lookupValue_TU Ctx H this TU [] x kind [] hM (by simp)
  rw [getTUCachePimpl_current TU hc, TUModuleCache.ctor_values] at e
  have hxe : x.empty = false := by simp [Identifier.empty, hx]
  simp only [AccessPathTy.filtersOut, hxe, List.nil_append, Bool.false_eq_true, if_false]
    at e
  unfold Module.lookupGlobalValue
  rw [e]
  have hemp : (TU.valuesNamed x).isEmpty = false := by
    cases hv : TU.valuesNamed x with
    | nil => exact absurd hv hne
    | cons a l => rfl
  simp [hemp]

/-- Witness of C1 on module M of the example heap, which declares two `f`. -/
theorem lookupGlobalValue_local_precedence_witness :
    exHeap.Modules 3 = .ofTU exM ∧ exM.LookupCacheCurrent ∧ ("f" : Identifier) ≠ "" ∧
      exM.valuesNamed "f" = [⟨30, "f"⟩, ⟨32, "f"⟩] ∧
      ∃ H', Module.lookupGlobalValue exCtx exHeap 3 "f" .UnqualifiedLookup []
        = .ok (exM.valuesNamed "f", H') :=
  ⟨rfl, exM.lookupCacheCurrent_of_none rfl, by decide, by decide,
    lookupGlobalValue_local_precedence exCtx exHeap 3 exM "f" .UnqualifiedLookup rfl
      (exM.lookupCacheCurrent_of_none rfl) (by decide) (by decide)⟩

/-- C2. First-import-wins for values: for a translation unit with no top-level
value named `x` (cache absent or current) whose imports meet the documented
preconditions, the global value lookup returns exactly the local `lookupValue`
answer of the first import, in import order, whose answer is not empty, and
the empty list when there is none; nothing of a later import is merged in. In
particular with the imports `[A, B]` (no access path), where the translation
unit `A` declares values named `x`, the result is the overload set of `A`
only, whatever `B` declares. -/
theorem lookupGlobalValue_first_import (Ctx : ASTContext) (H : Heap) (this : ModuleRef)
    (TU : TranslationUnit) (x : Identifier) (kind : NLKind)
    (hM : H.Modules this = .ofTU TU) (hc : TU.LookupCacheCurrent)
    (hloc : TU.valuesNamed x = []) (hI : H.ImportsOK TU.ImportedModules) :
    (∃ H', Module.lookupGlobalValue Ctx H this x kind []
      = .ok (firstNonEmpty
          (TU.ImportedModules.map fun I => Module.localValues Ctx H I.2 I.1 x kind), H')) ∧
    (∀ (A B : ModuleRef) (TA : TranslationUnit),
      TU.ImportedModules = [([], A), ([], B)] → H.Modules A = .ofTU TA →
      TA.LookupCacheCurrent → x ≠ "" → TA.valuesNamed x ≠ [] →
      ∃ H', Module.lookupGlobalValue Ctx H this x kind [] = .ok (TA.valuesNamed x, H')) := by
  have hloc' : Module.localValues Ctx H this [] x kind = [] := by
    rw [Module.localValues_TU Ctx H this TU [] x kind hM (by simp) hc, hloc]
    simp
  have main : ∃ H', Module.lookupGlobalValue Ctx H this x kind []
      = .ok (firstNonEmpty
          (TU.ImportedModules.map fun I => Module.localValues Ctx H I.2 I.1 x kind), H') := by
    have hI' : H.ImportsOK (H.Modules this).importedModules := by
      rw [hM]; exact hI
    obtain ⟨H', e⟩ := Module.lookupGlobalValue_eq Ctx H this x kind hI'
    refine ⟨H', ?_⟩
    rw [e, hloc', hM]
    simp [Module.isBuiltin, Module.importedModules, TranslationUnit.getImportedModules]
  refine ⟨main, ?_⟩
  intro A B TA himp hA hcA hx hneA
  obtain ⟨H', e⟩ := main
  refine ⟨H', ?_⟩
  rw [e, himp]
  have hxe : x.empty = false := by simp [Identifier.empty, hx]
  have hlA := Module.localValues_TU Ctx H A TA [] x kind hA (by simp) hcA
  rw [hxe] at hlA
  simp only [AccessPathTy.filtersOut, Bool.or_self, Bool.false_eq_true, if_false] at hlA
  cases hv : TA.valuesNamed x with
  | nil => exact absurd hv hneA
  | cons a l => simp [firstNonEmpty, hlA, hv]

/-- Witness of C2 on module Q of the example heap: it declares nothing and
imports A and B; A and B both declare `x`, the result is the two `x` of A. -/
theorem lookupGlobalValue_first_import_witness :
    (exQ.valuesNamed "x" = [] ∧ exA.valuesNamed "x" = [⟨12, "x"⟩, ⟨14, "x"⟩] ∧
      exB.valuesNamed "x" = [⟨20, "x"⟩]) ∧
    ∃ H', Module.lookupGlobalValue exCtx exHeap 4 "x" .QualifiedLookup []
      = .ok (exA.valuesNamed "x", H') :=
  ⟨by decide,
    (lookupGlobalValue_first_import exCtx exHeap 4 exQ "x" .QualifiedLookup rfl
      (exQ.lookupCacheCurrent_of_none rfl) (by decide)
      (by unfold Heap.ImportsOK; decide)).2 1 2 exA
      rfl rfl (exA.lookupCacheCurrent_of_none rfl) (by decide) (by decide)⟩

/-! ### Global type lookup -/

/-- C3. Layered type lookup: for every module whose imports meet the documented
preconditions, `lookupGlobalType` returns the local `lookupType` answer for
the empty access path when that is a hit or the module is the builtin module,
and otherwise the first hit of the imported modules' local `lookupType` with
the access path of the import, in import order, `none` when no import answers.
In particular a translation unit with no local type `nm` whose only import is
a translation unit `N` restricted to `[(nm, loc)]`, where `N` declares no type
`nm`, gets `none`. -/
theorem lookupGlobalType_layered (Ctx : ASTContext) (H : Heap) (this : ModuleRef)
    (n : Identifier) (k : NLKind) (hI : H.ImportsOK (H.Modules this).importedModules) :
    (∃ H', Module.lookupGlobalType Ctx H this n k
      = .ok (if (Module.localType Ctx H this [] n k).isSome || (H.Modules this).isBuiltin
             then Module.localType Ctx H this [] n k
             else firstHit ((H.Modules this).importedModules.map
               fun I => Module.localType Ctx H I.2 I.1 n k), H')) ∧
    (∀ (N : ModuleRef) (TM TN : TranslationUnit) (loc : SourceLoc),
      H.Modules this = .ofTU TM → TM.LookupCacheCurrent → TM.typesNamed n = [] →
      TM.ImportedModules = [([(n, loc)], N)] →
      H.Modules N = .ofTU TN → TN.LookupCacheCurrent → TN.typesNamed n = [] →
      ∃ H', Module.lookupGlobalType Ctx H this n k = .ok (none, H')) := by
  have main := Module.lookupGlobalType_eq Ctx H this n k hI
  refine ⟨main, ?_⟩
  intro N TM TN loc hM hcM hnM himp hN hcN hnN
  obtain ⟨H', e⟩ := main
  refine ⟨H', ?_⟩
  rw [e]
  have h1 := Module.localType_TU Ctx H this TM [] n k hM (by simp) hcM
  have h2 := Module.localType_TU Ctx H N TN [(n, loc)] n k hN (by simp) hcN
  rw [hnM] at h1
  rw [hnN] at h2
  simp only [List.getLast?_nil, ite_self] at h1 h2
  simp [h1, hM, Module.isBuiltin, Module.importedModules, TranslationUnit.getImportedModules,
    himp, firstHit, h2]

/-- Witness of C3 on module R of the example heap, which imports B restricted
to the symbol `N`; B declares no `N`. -/
theorem lookupGlobalType_layered_witness :
    exHeap.ImportsOK (exHeap.Modules 6).importedModules ∧
    (exR.typesNamed "N" = [] ∧ exR.ImportedModules = [([("N", 7)], 2)] ∧
      exB.typesNamed "N" = []) ∧
    ∃ H', Module.lookupGlobalType exCtx exHeap 6 "N" .UnqualifiedLookup = .ok (none, H') :=
  ⟨by unfold Heap.ImportsOK; decide, by decide,
    (lookupGlobalType_layered exCtx exHeap 6 "N" .UnqualifiedLookup
      (by unfold Heap.ImportsOK; decide)).2 2 exR exB 7 rfl
      (exR.lookupCacheCurrent_of_none rfl) (by decide) rfl rfl
      (exB.lookupCacheCurrent_of_none rfl) (by decide)⟩

/-! ### Global extension member lookup -/

/-- Past parsing and with a current extension cache, the extension members a
module exposes are those its declaration list holds. -/
theorem Module.localExtensionMethods_eq (Ctx : ASTContext) (H : Heap) (r : ModuleRef)
    (T : TypeBase) (n : Identifier) (hs : (H.Modules r).ASTStage ≥ Ctx.Parsed)
    (hc : ∀ TU, H.Modules r = .ofTU TU → TU.ExtensionCacheCurrent) :
    Module.localExtensionMethods Ctx H r T n = (H.Modules r).extensionMembersNamed T n := by
  unfold Module.localExtensionMethods Module.localExtensions Module.lookupExtensions
  simp only [hs, not_true_eq_false, if_false]
  cases hM : H.Modules r with
  | ofBuiltin BM => simp [Module.extensionMembersNamed]
  | ofTU TU =>
    simp only [Module.extensionMembersNamed, TranslationUnit.extensionMembersNamed]
    rw [getTUExtensionCachePimpl_current TU (hc TU hM), TUExtensionCache.ctor_getExtensions]

/-- C4. Extension shadowing: when a translation unit past parsing (extension
cache absent or current) has, among its own extensions of the canonical type
of `T` that are not error-typed, a member value named `m`, then
`lookupGlobalExtensionMethods` returns exactly the unit's own matches: every
member value named `m` of every such extension, extensions in source order and
members in member order, whatever its imports declare. -/
theorem lookupGlobalExtensionMethods_shadowing (Ctx : ASTContext) (H : Heap)
    (this : ModuleRef) (TU : TranslationUnit) (T : TypeBase) (m : Identifier)
    (hM : H.Modules this = .ofTU TU) (hs : TU.ASTStage ≥ Ctx.Parsed)
    (hc : TU.ExtensionCacheCurrent) (hne : TU.extensionMembersNamed T m ≠ []) :
    ∃ H', Module.lookupGlobalExtensionMethods Ctx H this T m []
      = .ok (TU.extensionMembersNamed T m, H') := by
  have hs' : (H.Modules this).ASTStage ≥ Ctx.Parsed := by rw [hM]; exact hs
  obtain ⟨H₂, e, _⟩ := Module.lookupExtensions_ok Ctx H this T hs'
  have hl := Module.localExtensionMethods_eq Ctx H this T m hs'
    (fun TU' h' => by rw [hM] at h'; cases h'; exact hc)
  rw [hM] at hl
  simp only [Module.extensionMembersNamed] at hl
  unfold Module.lookupGlobalExtensionMethods
  rw [e]
  simp only [Module.lookupGlobalExtensionMethods.collect_eq, List.nil_append]
  have hdef : (Module.localExtensions Ctx H this T).flatMap
      (fun ED => ED.memberValuesNamed m) = Module.localExtensionMethods Ctx H this T m := rfl
  rw [hdef, hl]
  have hemp : (TU.extensionMembersNamed T m).isEmpty = false := by
    cases hv : TU.extensionMembersNamed T m with
    | nil => exact absurd hv hne
    | cons a l => rfl
  simp [hemp]

/-- Witness of C4 on module M of the example heap: two extensions of `Int`
written differently hold a member value `m`, a third extension is error-typed,
and the imports A and B extend `Int` too. -/
theorem lookupGlobalExtensionMethods_shadowing_witness :
    exM.extensionMembersNamed exInt "m" = [⟨36, "m"⟩, ⟨40, "m"⟩] ∧
    ∃ H', Module.lookupGlobalExtensionMethods exCtx exHeap 3 exInt "m" []
      = .ok (exM.extensionMembersNamed exInt "m", H') :=
  ⟨by decide,
    lookupGlobalExtensionMethods_shadowing exCtx exHeap 3 exM exInt "m" rfl (by decide)
      (exM.extensionCacheCurrent_of_none rfl) (by decide)⟩

/-- C5. First-import-wins for extension members: for a translation unit past
parsing whose own extensions of `T` hold no member value named `n`, with
imports past parsing and caches absent or current, the global extension
member lookup returns the full match set (every member value named `n` of all
extensions of `T`) of the first import, in import order, whose match set is
not empty, nothing of a later import, and the empty list when no import has
a match. -/
theorem lookupGlobalExtensionMethods_first_import (Ctx : ASTContext) (H : Heap)
    (this : ModuleRef) (TU : TranslationUnit) (T : TypeBase) (n : Identifier)
    (hM : H.Modules this = .ofTU TU) (hs : TU.ASTStage ≥ Ctx.Parsed)
    (hc : H.CachesCurrent) (hP : H.ImportsParsed Ctx TU.ImportedModules)
    (hloc : TU.extensionMembersNamed T n = []) :
    ∃ H', Module.lookupGlobalExtensionMethods Ctx H this T n []
      = .ok (firstNonEmpty
          (TU.ImportedModules.map fun I => (H.Modules I.2).extensionMembersNamed T n), H') := by
  have hs' : (H.Modules this).ASTStage ≥ Ctx.Parsed := by rw [hM]; exact hs
  obtain ⟨H₂, e, hsim⟩ := Module.lookupExtensions_ok Ctx H this T hs'
  have hl := Module.localExtensionMethods_eq Ctx H this T n hs' (fun TU' h' => (hc this TU' h').2)
  rw [hM] at hl
  simp only [Module.extensionMembersNamed, hloc] at hl
  have hm := hsim.2 this
  cases hM₂ : H₂.Modules this with
  | ofBuiltin BM₂ => rw [hM, hM₂] at hm; exact absurd hm (by simp [Module.Similar])
  | ofTU TU₂ =>
    rw [hM, hM₂] at hm
    have himp : TU₂.getImportedModules = TU.ImportedModules := hm.2.2.1.symm
    obtain ⟨H', e'⟩ := Module.lookupGlobalExtensionMethods.scrape_ext_eq Ctx T n
      TU.ImportedModules H H₂ hsim hP
    have hmap : (TU.ImportedModules.map fun I => Module.localExtensionMethods Ctx H I.2 T n)
        = TU.ImportedModules.map fun I => (H.Modules I.2).extensionMembersNamed T n := by
      apply List.map_congr_left
      intro I hmem
      exact Module.localExtensionMethods_eq Ctx H I.2 T n (hP I hmem)
        (fun TU' h' => (hc I.2 TU' h').2)
    rw [hmap] at e'
    refine ⟨H', ?_⟩
    unfold Module.lookupGlobalExtensionMethods
    rw [e]
    simp only [Module.lookupGlobalExtensionMethods.collect_eq, List.nil_append]
    have hdef : (Module.localExtensions Ctx H this T).flatMap
        (fun ED => ED.memberValuesNamed n) = Module.localExtensionMethods Ctx H this T n := rfl
    rw [hdef, hl]
    simp [hM₂, Module.isBuiltin, himp, e']

theorem exHeap_cachesCurrent : exHeap.CachesCurrent := by
  intro r TU h
  have hn : TU.LookupCachePimpl = none ∧ TU.ExtensionCachePimpl = none := by
    unfold exHeap at h
    simp only at h
    split at h <;> first
      | (cases h; exact ⟨rfl, rfl⟩)
      | cases h
  exact ⟨TU.lookupCacheCurrent_of_none hn.1, TU.extensionCacheCurrent_of_none hn.2⟩

theorem exHeap_builtinCachesSound : exHeap.BuiltinCachesSound exCtx := by
  intro r BM h n D hD
  have hn : BM.LookupCachePimpl = none := by
    unfold exHeap at h
    simp only at h
    split at h <;> first
      | (cases h; rfl)
      | cases h
  rw [hn] at hD
  exact absurd hD (by simp [getBuiltinCachePimpl, BuiltinModuleCache.entry, DenseMap.find_empty])

/-- Witness of C5 on module Q of the example heap: Q has no extension, its
imports A and B both extend `Int` with a member `bar`; the result is the
`bar` of A. -/
theorem lookupGlobalExtensionMethods_first_import_witness :
    (exQ.extensionMembersNamed exInt "bar" = [] ∧
      exA.extensionMembersNamed exInt "bar" = [⟨16, "bar"⟩] ∧
      exB.extensionMembersNamed exInt "bar" = [⟨26, "bar"⟩]) ∧
    ∃ H', Module.lookupGlobalExtensionMethods exCtx exHeap 4 exInt "bar" []
      = .ok (firstNonEmpty (exQ.ImportedModules.map
          fun I => (exHeap.Modules I.2).extensionMembersNamed exInt "bar"), H') :=
  ⟨by decide,
    lookupGlobalExtensionMethods_first_import exCtx exHeap 4 exQ exInt "bar" rfl (by decide)
      exHeap_cachesCurrent (by unfold Heap.ImportsParsed; decide) (by decide)⟩

/-! ### Names that are not found -/

theorem Module.localType_absent (Ctx : ASTContext) (H : Heap) (r : ModuleRef)
    (p : AccessPathTy) (n : Identifier) (k : NLKind) (hp : p.length ≤ 1)
    (hc : H.CachesCurrent) (hb : H.BuiltinCachesSound Ctx)
    (ha : (H.Modules r).Absent Ctx n) : Module.localType Ctx H r p n k = none := by
  cases hM : H.Modules r with
  | ofTU TU =>
    rw [hM] at ha
    rw [Module.localType_TU Ctx H r TU p n k hM hp (hc r TU hM).1, ha.1]
    simp
  | ofBuiltin BM =>
    rw [hM] at ha
    unfold Module.localType Module.lookupType
    rw [hM]
    by_cases hpe : p.isEmpty = true
    · simp only [hpe, not_true_eq_false, if_false]
      rw [BuiltinModuleCache.lookupType_fst]
      cases he : (getBuiltinCachePimpl BM.LookupCachePimpl).entry n with
      | none => simp [ha.1]
      | some D =>
        rcases hb r BM hM n D he with h | h
        · exact absurd ha.1 h
        · exact absurd ha.2 h
    · simp [hpe]

theorem Module.localValues_absent (Ctx : ASTContext) (H : Heap) (r : ModuleRef)
    (p : AccessPathTy) (n : Identifier) (k : NLKind) (hp : p.length ≤ 1)
    (hc : H.CachesCurrent) (hb : H.BuiltinCachesSound Ctx)
    (ha : (H.Modules r).Absent Ctx n) : Module.localValues Ctx H r p n k = [] := by
  cases hM : H.Modules r with
  | ofTU TU =>
    rw [hM] at ha
    rw [Module.localValues_TU Ctx H r TU p n k hM hp (hc r TU hM).1, ha.2]
    simp
  | ofBuiltin BM =>
    rw [hM] at ha
    unfold Module.localValues Module.lookupValue
    rw [hM]
    by_cases hpe : p.isEmpty = true
    · simp only [hpe, not_true_eq_false, if_false]
      rw [BuiltinModuleCache.lookupValue_fst]
      cases he : (getBuiltinCachePimpl BM.LookupCachePimpl).entry n with
      | none => simp [ha.2]
      | some D =>
        rcases hb r BM hM n D he with h | h
        · exact absurd ha.1 h
        · exact absurd ha.2 h
    · simp [hpe]

theorem firstHit_none {α : Type} (l : List (Option α)) (h : ∀ a ∈ l, a = none) :
    firstHit l = none := by
  induction l with
  | nil => rfl
  | cons a l ih =>
    have ha : a = none := h a (List.mem_cons_self _ _)
    subst ha
    exact ih (fun b hb => h b (List.mem_cons_of_mem _ hb))

theorem firstNonEmpty_nil {α : Type} (l : List (List α)) (h : ∀ a ∈ l, a = []) :
    firstNonEmpty l = [] := by
  induction l with
  | nil => rfl
  | cons a l ih =>
    have ha : a = [] := h a (List.mem_cons_self _ _)
    subst ha
    exact ih (fun b hb => h b (List.mem_cons_of_mem _ hb))

/-- C6, as stated, fails when the module itself is the builtin module: it
declares nothing at top level and imports nothing, yet a qualified global
lookup of `Int64` returns the synthesized type alias and a qualified global
lookup of `trunc` returns the synthesized value. -/
theorem lookupGlobal_not_found_counterexample :
    (¬ (exHeap.Modules 0).DeclaresTopLevel "Int64" ∧
      ¬ (exHeap.Modules 0).DeclaresTopLevel "trunc" ∧
      (exHeap.Modules 0).importedModules = []) ∧
    (∃ H', Module.lookupGlobalType exCtx exHeap 0 "Int64" .QualifiedLookup
      = .ok (some ⟨1000, 0, "Int64", ⟨64, false, 64⟩, 0, true⟩, H')) ∧
    (¬ ∃ H', Module.lookupGlobalType exCtx exHeap 0 "Int64" .QualifiedLookup
      = .ok (none, H')) ∧
    (∃ H', Module.lookupGlobalValue exCtx exHeap 0 "trunc" .QualifiedLookup []
      = .ok ([⟨900, "trunc"⟩], H')) ∧
    (¬ ∃ H', Module.lookupGlobalValue exCtx exHeap 0 "trunc" .QualifiedLookup []
      = .ok ([], H')) := by
  have hT : ∃ H', Module.lookupGlobalType exCtx exHeap 0 "Int64" .QualifiedLookup
      = .ok (some ⟨1000, 0, "Int64", ⟨64, false, 64⟩, 0, true⟩, H') := ⟨_, rfl⟩
  have hV : ∃ H', Module.lookupGlobalValue exCtx exHeap 0 "trunc" .QualifiedLookup []
      = .ok ([⟨900, "trunc"⟩], H') := ⟨_, rfl⟩
  refine ⟨⟨fun h => h, fun h => h, rfl⟩, hT, ?_, hV, ?_⟩
  · rintro ⟨H', h⟩
    obtain ⟨H₁, h₁⟩ := hT
    rw [h₁] at h
    simp at h
  · rintro ⟨H', h⟩
    obtain ⟨H₁, h₁⟩ := hV
    rw [h₁] at h
    simp at h

/-- C6 (amended). Not-found is an empty answer, and imports are searched one
level deep: in a heap whose caches are absent or current and whose builtin
caches hold synthesized names only, for a module whose imports meet the
documented preconditions, if the name `n` is absent from the module and from
every module it directly imports (for a translation unit: no top-level type or
value named `n`; for the builtin module, be it the module itself or an import:
nothing can be synthesized for `n`), then `lookupGlobalType` returns `none`
and `lookupGlobalValue` returns the empty list; nothing is assumed of the
imports of the imports. -/
theorem lookupGlobal_not_found (Ctx : ASTContext) (H : Heap) (this : ModuleRef)
    (n : Identifier) (k : NLKind) (hc : H.CachesCurrent) (hb : H.BuiltinCachesSound Ctx)
    (hI : H.ImportsOK (H.Modules this).importedModules)
    (hM : (H.Modules this).Absent Ctx n)
    (hImp : ∀ I ∈ (H.Modules this).importedModules, (H.Modules I.2).Absent Ctx n) :
    (∃ H', Module.lookupGlobalType Ctx H this n k = .ok (none, H')) ∧
    (∃ H', Module.lookupGlobalValue Ctx H this n k [] = .ok ([], H')) := by
  constructor
  · obtain ⟨H', e⟩ := Module.lookupGlobalType_eq Ctx H this n k hI
    refine ⟨H', ?_⟩
    rw [e, Module.localType_absent Ctx H this [] n k (by simp) hc hb hM]
    have hall : firstHit ((H.Modules this).importedModules.map
        fun I => Module.localType Ctx H I.2 I.1 n k) = none := by
      apply firstHit_none
      intro a ha
      obtain ⟨I, hmem, rfl⟩ := List.mem_map.mp ha
      exact Module.localType_absent Ctx H I.2 I.1 n k (hI I hmem).1 hc hb (hImp I hmem)
    rw [hall]
    simp
  · obtain ⟨H', e⟩ := Module.lookupGlobalValue_eq Ctx H this n k hI
    refine ⟨H', ?_⟩
    rw [e, Module.localValues_absent Ctx H this [] n k (by simp) hc hb hM]
    have hall : firstNonEmpty ((H.Modules this).importedModules.map
        fun I => Module.localValues Ctx H I.2 I.1 n k) = [] := by
      apply firstNonEmpty_nil
      intro a ha
      obtain ⟨I, hmem, rfl⟩ := List.mem_map.mp ha
      exact Module.localValues_absent Ctx H I.2 I.1 n k (hI I hmem).1 hc hb (hImp I hmem)
    rw [hall]
    simp

/-- Witness of C6 on module M of the example heap and the name `deep`: M and
its imports A, B and the builtin module do not declare it, module P, which
only B imports, declares a type and a value of that name. -/
theorem lookupGlobal_not_found_witness :
    (exB.ImportedModules = [([], 5)] ∧ exP.valuesNamed "deep" = [⟨50, "deep"⟩] ∧
      (exP.typesNamed "deep").length = 1) ∧
    (∃ H', Module.lookupGlobalType exCtx exHeap 3 "deep" .QualifiedLookup = .ok (none, H')) ∧
    (∃ H', Module.lookupGlobalValue exCtx exHeap 3 "deep" .QualifiedLookup [] = .ok ([], H')) :=
  ⟨by decide,
    lookupGlobal_not_found exCtx exHeap 3 "deep" .QualifiedLookup exHeap_cachesCurrent
      exHeap_builtinCachesSound (by unfold Heap.ImportsOK; decide)
      (by show _ ∧ _; decide)
      (by
        intro I hI
        have h3 : I = ([], 1) ∨ I = ([], 2) ∨ I = ([], 0) := by
          simpa [exHeap, Module.importedModules, TranslationUnit.getImportedModules, exM]
            using hI
        rcases h3 with rfl | rfl | rfl <;> (show _ ∧ _; decide))⟩

/-! ### The access-path filter and the builtin gate -/

/-- C7. AccessPath filtering: on a translation unit, with the one-element
access path `[(Foo, loc)]`, the local `lookupType` of any other name `Bar`
returns `none` and the local `lookupValue` of `Bar` leaves the result as it
was, whatever the unit declares; and for the name `Foo` itself both lookups
do exactly what they do with the empty access path. -/
theorem accessPath_filtering (Ctx : ASTContext) (H : Heap) (N : ModuleRef)
    (TU : TranslationUnit) (Foo Bar : Identifier) (loc : SourceLoc) (k : NLKind)
    (R : List ValueDecl) (hM : H.Modules N = .ofTU TU) :
    (Bar ≠ Foo →
      (∃ H', Module.lookupType Ctx H N [(Foo, loc)] Bar k = .ok (none, H')) ∧
      (∃ H', Module.lookupValue Ctx H N [(Foo, loc)] Bar k R = .ok (R, H'))) ∧
    Module.lookupType Ctx H N [(Foo, loc)] Foo k = Module.lookupType Ctx H N [] Foo k ∧
    Module.lookupValue Ctx H N [(Foo, loc)] Foo k R = Module.lookupValue Ctx H N [] Foo k R := by
  have hlen : ([(Foo, loc)] : AccessPathTy).length ≤ 1 := by simp
  refine ⟨fun hne => ?_, ?_, ?_⟩
  · have hf : AccessPathTy.filtersOut [(Foo, loc)] Bar = true := by
      simp [AccessPathTy.filtersOut, Ne.symm hne]
    constructor
    · rw [Module.lookupType_TU Ctx H N TU _ Bar k hM hlen, hf]
      exact ⟨_, rfl⟩
    · rw [Module.lookupValue_TU Ctx H N TU _ Bar k R hM hlen, hf]
      simp
  · rw [Module.lookupType_TU Ctx H N TU _ Foo k hM hlen,
      Module.lookupType_TU Ctx H N TU [] Foo k hM (by simp)]
    simp [AccessPathTy.filtersOut]
  · rw [Module.lookupValue_TU Ctx H N TU _ Foo k R hM hlen,
      Module.lookupValue_TU Ctx H N TU [] Foo k R hM (by simp)]
    simp [AccessPathTy.filtersOut]

/-- Witness of C7 on module B of the example heap, which declares a type and a
value named `Bar`: through the access path `[(Foo, 7)]` neither is found. -/
theorem accessPath_filtering_witness :
    (exB.valuesNamed "Bar" = [⟨22, "Bar"⟩] ∧ (exB.typesNamed "Bar").length = 1) ∧
    (∃ H', Module.lookupType exCtx exHeap 2 [("Foo", 7)] "Bar" .QualifiedLookup
      = .ok (none, H')) ∧
    (∃ H', Module.lookupValue exCtx exHeap 2 [("Foo", 7)] "Bar" .QualifiedLookup []
      = .ok ([], H')) :=
  ⟨by decide,
    (accessPath_filtering exCtx exHeap 2 exB "Foo" "Bar" 7 .QualifiedLookup [] rfl).1
      (by decide)⟩

/-- C8. Builtin gating: with `LookupKind = Unqualified` the builtin cache, in
any state and for any name and any synthesis functions, returns no type and
appends no value, and is left as it was; so the local `lookupType` and
`lookupValue` of a builtin module return `none` and the unchanged result. -/
theorem builtin_gating (Ctx : ASTContext) (C : BuiltinModuleCache) (n : Identifier)
    (top : Nat) (R : List ValueDecl) :
    C.lookupType Ctx n .UnqualifiedLookup top = (none, C, top) ∧
    C.lookupValue Ctx n .UnqualifiedLookup R = (R, C) ∧
    ∀ (H : Heap) (r : ModuleRef) (BM : BuiltinModule), H.Modules r = .ofBuiltin BM →
      (∃ H', Module.lookupType Ctx H r [] n .UnqualifiedLookup = .ok (none, H')) ∧
      (∃ H', Module.lookupValue Ctx H r [] n .UnqualifiedLookup R = .ok (R, H')) := by
  have h1 : C.lookupType Ctx n .UnqualifiedLookup top = (none, C, top) := by
    simp [BuiltinModuleCache.lookupType]
  have h2 : ∀ C' : BuiltinModuleCache, C'.lookupValue Ctx n .UnqualifiedLookup R = (R, C') := by
    intro C'
    simp [BuiltinModuleCache.lookupValue]
  refine ⟨h1, h2 C, ?_⟩
  intro H r BM hM
  constructor
  · rw [Module.lookupType_Builtin Ctx H r BM n _ hM]
    simp [BuiltinModuleCache.lookupType]
  · rw [Module.lookupValue_Builtin Ctx H r BM n _ R hM]
    simp [h2]

/-- Witness of C8 on the builtin module of the example heap: `Int64` and
`trunc` can be synthesized, an unqualified lookup finds neither. -/
theorem builtin_gating_witness :
    ((exCtx.getBuiltinType "Int64").isSome = true ∧
      (exCtx.getBuiltinValue "trunc").isSome = true) ∧
    (∃ H', Module.lookupType exCtx exHeap 0 [] "Int64" .UnqualifiedLookup = .ok (none, H')) ∧
    (∃ H', Module.lookupValue exCtx exHeap 0 [] "trunc" .UnqualifiedLookup []
      = .ok ([], H')) :=
  ⟨by decide,
    ((builtin_gating exCtx ⟨DenseMap.empty⟩ "Int64" 0 []).2.2 exHeap 0 ⟨3, none⟩ rfl).1,
    ((builtin_gating exCtx ⟨DenseMap.empty⟩ "trunc" 0 []).2.2 exHeap 0 ⟨3, none⟩ rfl).2⟩

/-! ### The top-level index -/

/-- C9. Overload ordering: for a translation unit (cache absent or current) and
a non-empty name `f`, the local `lookupValue` with an empty access path and
an empty starting result returns exactly the unit's top-level value
declarations named `f`, each occurrence once, in declaration order; a unit
whose body is two values named `f` yields the two in that order. -/
theorem lookupValue_overload_order (Ctx : ASTContext) (H : Heap) (r : ModuleRef)
    (TU : TranslationUnit) (f : Identifier) (k : NLKind)
    (hM : H.Modules r = .ofTU TU) (hc : TU.LookupCacheCurrent) (hf : f ≠ "") :
    (∃ H', Module.lookupValue Ctx H r [] f k [] = .ok (TU.valuesNamed f, H')) ∧
    (∀ d₁ d₂ : ValueDecl, TU.Body = [.ofDecl (.Value d₁), .ofDecl (.Value d₂)] →
      d₁.Name = f → d₂.Name = f →
      ∃ H', Module.lookupValue Ctx H r [] f k [] = .ok ([d₁, d₂], H')) := by
  have hfe : f.empty = false := by simp [Identifier.empty, hf]
  have e := Module.lookupValue_TU Ctx H r TU [] f k [] hM (by simp)
  rw [getTUCachePimpl_current TU hc, TUModuleCache.ctor_values, hfe] at e
  simp only [AccessPathTy.filtersOut, List.nil_append, Bool.false_eq_true, if_false] at e
  refine ⟨⟨_, e⟩, ?_⟩
  intro d₁ d₂ hbody h₁ h₂
  rw [e]
  simp [TranslationUnit.valuesNamed, valuesNamedIn, hbody, h₁, h₂]

/-- Witness of C9 on the example heap: module M declares `f` twice with an
expression in between, the body of module F is two functions `f`. -/
theorem lookupValue_overload_order_witness :
    exM.valuesNamed "f" = [⟨30, "f"⟩, ⟨32, "f"⟩] ∧
    (∃ H', Module.lookupValue exCtx exHeap 3 [] "f" .QualifiedLookup []
      = .ok (exM.valuesNamed "f", H')) ∧
    (∃ H', Module.lookupValue exCtx exHeap 7 [] "f" .QualifiedLookup []
      = .ok ([⟨70, "f"⟩, ⟨71, "f"⟩], H')) :=
  ⟨by decide,
    (lookupValue_overload_order exCtx exHeap 3 exM "f" .QualifiedLookup rfl
      (exM.lookupCacheCurrent_of_none rfl) (by decide)).1,
    (lookupValue_overload_order exCtx exHeap 7 exF "f" .QualifiedLookup rfl
      (exF.lookupCacheCurrent_of_none rfl) (by decide)).2 ⟨70, "f"⟩ ⟨71, "f"⟩ rfl rfl rfl⟩

/-- C10. Type lookup is last-wins: for a translation unit (cache absent or
current) and a non-empty name `n`, the local `lookupType` with an empty access
path returns the last top-level type declaration named `n` of the declaration
list, and `none` when there is none. -/
theorem lookupType_last_wins (Ctx : ASTContext) (H : Heap) (r : ModuleRef)
    (TU : TranslationUnit) (n : Identifier) (k : NLKind)
    (hM : H.Modules r = .ofTU TU) (hc : TU.LookupCacheCurrent) (hn : n ≠ "") :
    ∃ H', Module.lookupType Ctx H r [] n k = .ok ((TU.typesNamed n).getLast?, H') := by
  have hne : n.empty = false := by simp [Identifier.empty, hn]
  have e := Module.lookupType_TU Ctx H r TU [] n k hM (by simp)
  rw [getTUCachePimpl_current TU hc, TUModuleCache.ctor_types, hne] at e
  simp only [AccessPathTy.filtersOut, Bool.false_eq_true, if_false] at e
  exact ⟨_, e⟩

/-- Witness of C10 on the example heap: module A declares `type Meters = Int`
once and the lookup returns it; module M declares the type `Local` twice and
the lookup returns the second. -/
theorem lookupType_last_wins_witness :
    ((exA.typesNamed "Meters").getLast? = some ⟨10, 1, "Meters", exInt, 1, true⟩ ∧
      exM.typesNamed "Local" = [⟨33, 3, "Local", exInt, 3, true⟩,
        ⟨34, 3, "Local", exIntAlias, 3, true⟩]) ∧
    (∃ H', Module.lookupType exCtx exHeap 1 [] "Meters" .QualifiedLookup
      = .ok ((exA.typesNamed "Meters").getLast?, H')) ∧
    (∃ H', Module.lookupType exCtx exHeap 3 [] "Local" .QualifiedLookup
      = .ok ((exM.typesNamed "Local").getLast?, H')) :=
  ⟨by decide,
    lookupType_last_wins exCtx exHeap 1 exA "Meters" .QualifiedLookup rfl
      (exA.lookupCacheCurrent_of_none rfl) (by decide),
    lookupType_last_wins exCtx exHeap 3 exM "Local" .QualifiedLookup rfl
      (exM.lookupCacheCurrent_of_none rfl) (by decide)⟩

/-! ### Lookups keep the caches current and the builtin caches sound -/

theorem Heap.cachesCurrent_store (H : Heap) (r : ModuleRef) (M : Module) (top : Nat)
    (hc : H.CachesCurrent)
    (hM : ∀ TU, M = .ofTU TU → TU.LookupCacheCurrent ∧ TU.ExtensionCacheCurrent) :
    Heap.CachesCurrent { H.store r M with ArenaTop := top } := by
  intro r' TU' h'
  by_cases hr : r' = r
  · subst hr
    simp only [Heap.store, if_true] at h'
    exact hM TU' h'
  · simp only [Heap.store, hr, if_false] at h'
    exact hc r' TU' h'

theorem Heap.builtinCachesSound_store (Ctx : ASTContext) (H : Heap) (r : ModuleRef)
    (M : Module) (top : Nat) (hb : H.BuiltinCachesSound Ctx)
    (hM : ∀ BM, M = .ofBuiltin BM → ∀ n D,
      (getBuiltinCachePimpl BM.LookupCachePimpl).entry n = some D →
        Ctx.getBuiltinType n ≠ none ∨ Ctx.getBuiltinValue n ≠ none) :
    Heap.BuiltinCachesSound Ctx { H.store r M with ArenaTop := top } := by
  intro r' BM' h'
  by_cases hr : r' = r
  · subst hr
    simp only [Heap.store, if_true] at h'
    exact hM BM' h'
  · simp only [Heap.store, hr, if_false] at h'
    exact hb r' BM' h'

theorem TranslationUnit.current_after_lookup (TU : TranslationUnit)
    (hc : TU.LookupCacheCurrent ∧ TU.ExtensionCacheCurrent) :
    TranslationUnit.LookupCacheCurrent { TU with
        LookupCachePimpl := some (getTUCachePimpl TU.LookupCachePimpl TU) } ∧
      TranslationUnit.ExtensionCacheCurrent { TU with
        LookupCachePimpl := some (getTUCachePimpl TU.LookupCachePimpl TU) } := by
  constructor
  · intro C hC
    simp only [Option.some.injEq] at hC
    rw [← hC]
    exact getTUCachePimpl_current TU hc.1
  · intro C hC
    exact hc.2 C hC

theorem TranslationUnit.current_after_lookupExtensions (TU : TranslationUnit)
    (hc : TU.LookupCacheCurrent ∧ TU.ExtensionCacheCurrent) :
    TranslationUnit.LookupCacheCurrent { TU with
        ExtensionCachePimpl := some (getTUExtensionCachePimpl TU.ExtensionCachePimpl TU) } ∧
      TranslationUnit.ExtensionCacheCurrent { TU with
        ExtensionCachePimpl := some (getTUExtensionCachePimpl TU.ExtensionCachePimpl TU) } := by
  constructor
  · intro C hC
    exact hc.1 C hC
  · intro C hC
    simp only [Option.some.injEq] at hC
    rw [← hC]
    exact getTUExtensionCachePimpl_current TU hc.2

/-- A local `lookupType` that returns leaves every translation-unit cache
absent or current and every builtin cache sound. -/
theorem Module.lookupType_invariant (Ctx : ASTContext) (H H' : Heap) (r : ModuleRef)
    (p : AccessPathTy) (n : Identifier) (k : NLKind) (a : Option TypeAliasDecl)
    (hc : H.CachesCurrent) (hb : H.BuiltinCachesSound Ctx)
    (e : Module.lookupType Ctx H r p n k = .ok (a, H')) :
    H'.CachesCurrent ∧ H'.BuiltinCachesSound Ctx := by
  cases hM : H.Modules r with
  | ofBuiltin BM =>
    unfold Module.lookupType at e
    rw [hM] at e
    by_cases hp : p.isEmpty = true
    · simp only [hp, not_true_eq_false, if_false, Except.ok.injEq, Prod.mk.injEq] at e
      rw [← e.2]
      refine ⟨Heap.cachesCurrent_store H r _ _ hc (fun TU h => by cases h),
        Heap.builtinCachesSound_store Ctx H r _ _ hb ?_⟩
      intro BM' hBM' m D hD
      cases hBM'
      rw [getBuiltinCachePimpl_some, BuiltinModuleCache.lookupType_entry] at hD
      by_cases hcond : k = NLKind.QualifiedLookup ∧
          (getBuiltinCachePimpl BM.LookupCachePimpl).entry n = none ∧ n = m
      · rw [if_pos hcond] at hD
        obtain ⟨_, _, rfl⟩ := hcond
        left
        intro hnone
        rw [hnone] at hD
        exact absurd hD (by simp)
      · rw [if_neg hcond] at hD
        exact hb r BM hM m D hD
    · simp [hp] at e
  | ofTU TU =>
    by_cases hp : p.length ≤ 1
    · rw [Module.lookupType_TU Ctx H r TU p n k hM hp] at e
      simp only [Except.ok.injEq, Prod.mk.injEq] at e
      rw [← e.2]
      exact ⟨Heap.cachesCurrent_store H r _ H.ArenaTop hc
          (fun TU' h => by cases h; exact TU.current_after_lookup (hc r TU hM)),
        Heap.builtinCachesSound_store Ctx H r _ H.ArenaTop hb (fun BM h => by cases h)⟩
    · unfold Module.lookupType at e
      rw [hM] at e
      simp [TUModuleCache.lookupType, hp] at e

/-- A local `lookupValue` that returns leaves every translation-unit cache
absent or current and every builtin cache sound. -/
theorem Module.lookupValue_invariant (Ctx : ASTContext) (H H' : Heap) (r : ModuleRef)
    (p : AccessPathTy) (n : Identifier) (k : NLKind) (R R' : List ValueDecl)
    (hc : H.CachesCurrent) (hb : H.BuiltinCachesSound Ctx)
    (e : Module.lookupValue Ctx H r p n k R = .ok (R', H')) :
    H'.CachesCurrent ∧ H'.BuiltinCachesSound Ctx := by
  cases hM : H.Modules r with
  | ofBuiltin BM =>
    unfold Module.lookupValue at e
    rw [hM] at e
    by_cases hp : p.isEmpty = true
    · simp only [hp, not_true_eq_false, if_false, Except.ok.injEq, Prod.mk.injEq] at e
      rw [← e.2]
      refine ⟨Heap.cachesCurrent_store H r _ H.ArenaTop hc (fun TU h => by cases h),
        Heap.builtinCachesSound_store Ctx H r _ H.ArenaTop hb ?_⟩
      intro BM' hBM' m D hD
      cases hBM'
      rw [getBuiltinCachePimpl_some, BuiltinModuleCache.lookupValue_entry] at hD
      by_cases hcond : k = NLKind.QualifiedLookup ∧
          (getBuiltinCachePimpl BM.LookupCachePimpl).entry n = none ∧ n = m
      · rw [if_pos hcond] at hD
        obtain ⟨_, _, rfl⟩ := hcond
        right
        intro hnone
        rw [hnone] at hD
        exact absurd hD (by simp)
      · rw [if_neg hcond] at hD
        exact hb r BM hM m D hD
    · simp [hp] at e
  | ofTU TU =>
    by_cases hp : p.length ≤ 1
    · rw [Module.lookupValue_TU Ctx H r TU p n k R hM hp] at e
      simp only [Except.ok.injEq, Prod.mk.injEq] at e
      rw [← e.2]
      exact ⟨Heap.cachesCurrent_store H r _ H.ArenaTop hc
          (fun TU' h => by cases h; exact TU.current_after_lookup (hc r TU hM)),
        Heap.builtinCachesSound_store Ctx H r _ H.ArenaTop hb (fun BM h => by cases h)⟩
    · unfold Module.lookupValue at e
      rw [hM] at e
      simp [TUModuleCache.lookupValue, hp] at e

/-- A `lookupExtensions` that returns leaves every translation-unit cache
absent or current and every builtin cache sound. -/
theorem Module.lookupExtensions_invariant (Ctx : ASTContext) (H H' : Heap) (r : ModuleRef)
    (T : TypeBase) (EDs : List ExtensionDecl)
    (hc : H.CachesCurrent) (hb : H.BuiltinCachesSound Ctx)
    (e : Module.lookupExtensions Ctx H r T = .ok (EDs, H')) :
    H'.CachesCurrent ∧ H'.BuiltinCachesSound Ctx := by
  unfold Module.lookupExtensions at e
  by_cases hs : (H.Modules r).ASTStage ≥ Ctx.Parsed
  · simp only [hs, not_true_eq_false, if_false] at e
    cases hM : H.Modules r with
    | ofBuiltin BM =>
      rw [hM] at e
      simp only [Except.ok.injEq, Prod.mk.injEq] at e
      rw [← e.2]
      exact ⟨hc, hb⟩
    | ofTU TU =>
      rw [hM] at e
      simp only [Except.ok.injEq, Prod.mk.injEq] at e
      rw [← e.2]
      exact ⟨Heap.cachesCurrent_store H r _ H.ArenaTop hc
          (fun TU' h => by cases h; exact TU.current_after_lookupExtensions (hc r TU hM)),
        Heap.builtinCachesSound_store Ctx H r _ H.ArenaTop hb (fun BM h => by cases h)⟩
  · simp [hs] at e

theorem Module.lookupGlobalType.scrape_type_invariant (Ctx : ASTContext) (n : Identifier)
    (k : NLKind) (Imports : List (AccessPathTy × ModuleRef)) (H H' : Heap)
    (a : Option TypeAliasDecl) (hc : H.CachesCurrent) (hb : H.BuiltinCachesSound Ctx)
    (e : Module.lookupGlobalType.scrape Ctx n k Imports H = .ok (a, H')) :
    H'.CachesCurrent ∧ H'.BuiltinCachesSound Ctx := by
  induction Imports generalizing H with
  | nil =>
    simp only [Module.lookupGlobalType.scrape, Except.ok.injEq, Prod.mk.injEq] at e
    rw [← e.2]
    exact ⟨hc, hb⟩
  | cons I Rest ih =>
    unfold Module.lookupGlobalType.scrape at e
    cases h1 : Module.lookupType Ctx H I.2 I.1 n k with
    | error msg => rw [h1] at e; exact absurd e (by simp)
    | ok out =>
      obtain ⟨b, H₂⟩ := out
      have hinv := Module.lookupType_invariant Ctx H H₂ I.2 I.1 n k b hc hb h1
      rw [h1] at e
      cases b with
      | some TAD =>
        simp only [Except.ok.injEq, Prod.mk.injEq] at e
        rw [← e.2]
        exact hinv
      | none => exact ih H₂ hinv.1 hinv.2 e

/-- A `lookupGlobalType` that returns leaves every translation-unit cache
absent or current and every builtin cache sound. -/
theorem Module.lookupGlobalType_invariant (Ctx : ASTContext) (H H' : Heap) (this : ModuleRef)
    (n : Identifier) (k : NLKind) (a : Option TypeAliasDecl)
    (hc : H.CachesCurrent) (hb : H.BuiltinCachesSound Ctx)
    (e : Module.lookupGlobalType Ctx H this n k = .ok (a, H')) :
    H'.CachesCurrent ∧ H'.BuiltinCachesSound Ctx := by
  unfold Module.lookupGlobalType at e
  cases h1 : Module.lookupType Ctx H this [] n k with
  | error msg => rw [h1] at e; exact absurd e (by simp)
  | ok out =>
    obtain ⟨b, H₂⟩ := out
    have hinv := Module.lookupType_invariant Ctx H H₂ this [] n k b hc hb h1
    rw [h1] at e
    cases b with
    | some TAD =>
      simp only [Except.ok.injEq, Prod.mk.injEq] at e
      rw [← e.2]
      exact hinv
    | none =>
      cases hM₂ : H₂.Modules this with
      | ofBuiltin BM =>
        simp only [hM₂, Except.ok.injEq, Prod.mk.injEq] at e
        rw [← e.2]
        exact hinv
      | ofTU TU =>
        simp only [hM₂] at e
        exact Module.lookupGlobalType.scrape_type_invariant Ctx n k _ H₂ H' a hinv.1 hinv.2 e

theorem Module.lookupGlobalValue.scrape_value_invariant (Ctx : ASTContext) (n : Identifier)
    (k : NLKind) (Imports : List (AccessPathTy × ModuleRef)) (H H' : Heap)
    (R R' : List ValueDecl) (hc : H.CachesCurrent) (hb : H.BuiltinCachesSound Ctx)
    (e : Module.lookupGlobalValue.scrape Ctx n k Imports H R = .ok (R', H')) :
    H'.CachesCurrent ∧ H'.BuiltinCachesSound Ctx := by
  induction Imports generalizing H R with
  | nil =>
    simp only [Module.lookupGlobalValue.scrape, Except.ok.injEq, Prod.mk.injEq] at e
    rw [← e.2]
    exact ⟨hc, hb⟩
  | cons I Rest ih =>
    unfold Module.lookupGlobalValue.scrape at e
    cases h1 : Module.lookupValue Ctx H I.2 I.1 n k R with
    | error msg => rw [h1] at e; exact absurd e (by simp)
    | ok out =>
      obtain ⟨R₂, H₂⟩ := out
      have hinv := Module.lookupValue_invariant Ctx H H₂ I.2 I.1 n k R R₂ hc hb h1
      rw [h1] at e
      by_cases hemp : R₂.isEmpty = true
      · simp only [hemp, Bool.not_true, Bool.false_eq_true, if_false] at e
        exact ih H₂ R₂ hinv.1 hinv.2 e
      · simp only [hemp, Bool.not_false, if_true, Except.ok.injEq, Prod.mk.injEq] at e
        rw [← e.2]
        exact hinv

/-- A `lookupGlobalValue` that returns leaves every translation-unit cache
absent or current and every builtin cache sound. -/
theorem Module.lookupGlobalValue_invariant (Ctx : ASTContext) (H H' : Heap) (this : ModuleRef)
    (n : Identifier) (k : NLKind) (R R' : List ValueDecl)
    (hc : H.CachesCurrent) (hb : H.BuiltinCachesSound Ctx)
    (e : Module.lookupGlobalValue Ctx H this n k R = .ok (R', H')) :
    H'.CachesCurrent ∧ H'.BuiltinCachesSound Ctx := by
  unfold Module.lookupGlobalValue at e
  by_cases hR : R.isEmpty = true
  · simp only [hR, not_true_eq_false, if_false] at e
    cases h1 : Module.lookupValue Ctx H this [] n k R with
    | error msg => rw [h1] at e; exact absurd e (by simp)
    | ok out =>
      obtain ⟨R₂, H₂⟩ := out
      have hinv := Module.lookupValue_invariant Ctx H H₂ this [] n k R R₂ hc hb h1
      rw [h1] at e
      simp only at e
      by_cases hdone : (!R₂.isEmpty || (H₂.Modules this).isBuiltin) = true
      · rw [if_pos hdone] at e
        simp only [Except.ok.injEq, Prod.mk.injEq] at e
        rw [← e.2]
        exact hinv
      · rw [if_neg hdone] at e
        cases hM₂ : H₂.Modules this with
        | ofBuiltin BM =>
          rw [hM₂] at e
          simp only [Except.ok.injEq, Prod.mk.injEq] at e
          rw [← e.2]
          exact hinv
        | ofTU TU =>
          rw [hM₂] at e
          exact Module.lookupGlobalValue.scrape_value_invariant Ctx n k _ H₂ H' R₂ R' hinv.1 hinv.2 e
  · simp [hR] at e

/-! ### The extension index -/

theorem mem_extensionsIn (Body : List ExprStmtOrDecl) (T : CanType) (ED : ExtensionDecl) :
    ED ∈ extensionsIn Body T ↔
      ExprStmtOrDecl.ofDecl (.Extension ED.addr ED.ExtendedType ED.Members) ∈ Body ∧
        ED.ExtendedType.isErrorType = false ∧ ED.ExtendedType.CanonicalType = T := by
  unfold extensionsIn
  rw [List.mem_filterMap]
  constructor
  · rintro ⟨Elt, hmem, h⟩
    rcases Elt with a | a | D
    · simp at h
    · simp at h
    · rcases D with TAD | VD | ⟨a, Ty, Ms⟩ | a
      · simp at h
      · simp at h
      · by_cases hc : Ty.isErrorType = false ∧ Ty.CanonicalType = T
        · simp only [hc, and_self, if_true, Option.some.injEq] at h
          subst h
          exact ⟨hmem, hc⟩
        · simp [hc] at h
      · simp at h
  · rintro ⟨hmem, hc⟩
    exact ⟨_, hmem, by simp [hc]⟩

/-- C11. The extension index groups by canonical type: for a translation unit
past parsing (extension cache absent or current) and a type `T`,
`lookupExtensions` returns, in source order, the top-level extensions whose
extended type is not error-typed and has the canonical form of `T`; a type
`T'` written differently with the same canonical form gets the same list; and
an extension is in the list exactly when it is a top-level extension of the
unit, not error-typed, with that canonical form, so an error-typed extension
is never returned. -/
theorem lookupExtensions_by_canonical_type (Ctx : ASTContext) (H : Heap) (r : ModuleRef)
    (TU : TranslationUnit) (T : TypeBase) (hM : H.Modules r = .ofTU TU)
    (hs : TU.ASTStage ≥ Ctx.Parsed) (hc : TU.ExtensionCacheCurrent) :
    (∃ H', Module.lookupExtensions Ctx H r T = .ok (TU.extensionsOf T, H')) ∧
    (∀ T' : TypeBase, T'.getCanonicalType = T.getCanonicalType →
      ∃ H', Module.lookupExtensions Ctx H r T' = .ok (TU.extensionsOf T, H')) ∧
    (∀ ED : ExtensionDecl, ED ∈ TU.extensionsOf T ↔
      ExprStmtOrDecl.ofDecl (.Extension ED.addr ED.ExtendedType ED.Members) ∈ TU.Body ∧
        ED.ExtendedType.isErrorType = false ∧
        ED.ExtendedType.getCanonicalType = T.getCanonicalType) := by
  have key : ∀ T' : TypeBase, T'.getCanonicalType = T.getCanonicalType →
      ∃ H', Module.lookupExtensions Ctx H r T' = .ok (TU.extensionsOf T, H') := by
    intro T' hT'
    have hs' : (Module.ofTU TU).ASTStage ≥ Ctx.Parsed := hs
    unfold Module.lookupExtensions
    rw [hM]
    simp only [hs', not_true_eq_false, if_false]
    rw [getTUExtensionCachePimpl_current TU hc, TUExtensionCache.ctor_getExtensions]
    have he : TU.extensionsOf T' = TU.extensionsOf T := by
      unfold TranslationUnit.extensionsOf
      unfold TypeBase.getCanonicalType at hT'
      rw [hT']
    rw [he]
    simp
  refine ⟨key T rfl, key, ?_⟩
  intro ED
  exact mem_extensionsIn TU.Body T.CanonicalType ED

/-- Witness of C11 on module M of the example heap: of its three extensions of
`Int`, the two that are not error-typed are returned, in source order, for
`Int` as written and for its alias alike. -/
theorem lookupExtensions_by_canonical_type_witness :
    (exM.extensionsOf exInt).map (fun ED => ED.addr) = [35, 38] ∧
    (∃ H', Module.lookupExtensions exCtx exHeap 3 exInt = .ok (exM.extensionsOf exInt, H')) ∧
    (∃ H', Module.lookupExtensions exCtx exHeap 3 exIntAlias
      = .ok (exM.extensionsOf exInt, H')) :=
  ⟨by decide,
    (lookupExtensions_by_canonical_type exCtx exHeap 3 exM exInt rfl (by decide)
      (exM.extensionCacheCurrent_of_none rfl)).1,
    (lookupExtensions_by_canonical_type exCtx exHeap 3 exM exInt rfl (by decide)
      (exM.extensionCacheCurrent_of_none rfl)).2.1 exIntAlias rfl⟩

/-! ### Invalidation -/

theorem Heap.clearLookupCache_TU (H : Heap) (r : ModuleRef) (TU : TranslationUnit)
    (hM : H.Modules r = .ofTU TU) :
    (H.clearLookupCache r).Modules r = .ofTU TU.clearLookupCache := by
  unfold Heap.clearLookupCache
  rw [hM]
  exact Heap.store_self H r _

theorem TUModuleCache.ctor_congr (TU TU' : TranslationUnit) (h : TU'.Body = TU.Body) :
    TUModuleCache.ctor TU' = TUModuleCache.ctor TU := by
  unfold TUModuleCache.ctor
  rw [h]

theorem TUExtensionCache.ctor_congr_body (TU TU' : TranslationUnit) (h : TU'.Body = TU.Body) :
    TUExtensionCache.ctor TU' = TUExtensionCache.ctor TU := by
  unfold TUExtensionCache.ctor
  rw [h]

/-- C12. Cache coherence: for a translation unit whose caches are absent or
current, every local query that meets its precondition (`lookupType` and
`lookupValue` with an access path of at most one element, `lookupExtensions`
past parsing) returns, and after `clearLookupCache` the same query, the
declaration list being unchanged, returns the identical result. -/
theorem cache_coherence (Ctx : ASTContext) (H : Heap) (r : ModuleRef)
    (TU : TranslationUnit) (hM : H.Modules r = .ofTU TU)
    (hc : TU.LookupCacheCurrent) (he : TU.ExtensionCacheCurrent) :
    (∀ (p : AccessPathTy) (n : Identifier) (k : NLKind), p.length ≤ 1 →
      ∃ a H₁ H₂, Module.lookupType Ctx H r p n k = .ok (a, H₁) ∧
        Module.lookupType Ctx (H₁.clearLookupCache r) r p n k = .ok (a, H₂)) ∧
    (∀ (p : AccessPathTy) (n : Identifier) (k : NLKind) (R : List ValueDecl), p.length ≤ 1 →
      ∃ R' H₁ H₂, Module.lookupValue Ctx H r p n k R = .ok (R', H₁) ∧
        Module.lookupValue Ctx (H₁.clearLookupCache r) r p n k R = .ok (R', H₂)) ∧
    (TU.ASTStage ≥ Ctx.Parsed → ∀ T : TypeBase,
      ∃ EDs H₁ H₂, Module.lookupExtensions Ctx H r T = .ok (EDs, H₁) ∧
        Module.lookupExtensions Ctx (H₁.clearLookupCache r) r T = .ok (EDs, H₂)) := by
  refine ⟨?_, ?_, ?_⟩
  · intro p n k hp
    have e₁ := Module.lookupType_TU Ctx H r TU p n k hM hp
    have hM₂ := Heap.clearLookupCache_TU _ r _ (Heap.store_self H r (.ofTU { TU with
      LookupCachePimpl := some (getTUCachePimpl TU.LookupCachePimpl TU) }))
    have e₂ := Module.lookupType_TU Ctx _ r _ p n k hM₂ hp
    rw [getTUCachePimpl_current TU hc] at e₁ e₂
    exact ⟨_, _, _, e₁, e₂⟩
  · intro p n k R hp
    have e₁ := Module.lookupValue_TU Ctx H r TU p n k R hM hp
    have hM₂ := Heap.clearLookupCache_TU _ r _ (Heap.store_self H r (.ofTU { TU with
      LookupCachePimpl := some (getTUCachePimpl TU.LookupCachePimpl TU) }))
    have e₂ := Module.lookupValue_TU Ctx _ r _ p n k R hM₂ hp
    rw [getTUCachePimpl_current TU hc] at e₁ e₂
    exact ⟨_, _, _, e₁, e₂⟩
  · intro hs T
    have hs' : (Module.ofTU TU).ASTStage ≥ Ctx.Parsed := hs
    have e₁ : Module.lookupExtensions Ctx H r T
        = .ok ((TUExtensionCache.ctor TU).getExtensions T.getCanonicalType,
            H.store r (.ofTU { TU with
              ExtensionCachePimpl := some (TUExtensionCache.ctor TU) })) := by
      unfold Module.lookupExtensions
      rw [hM]
      simp only [hs', not_true_eq_false, if_false]
      rw [getTUExtensionCachePimpl_current TU he]
    have hM₂ := Heap.clearLookupCache_TU _ r _ (Heap.store_self H r (.ofTU { TU with
      ExtensionCachePimpl := some (TUExtensionCache.ctor TU) }))
    have hs₂ : (Module.ofTU (TranslationUnit.clearLookupCache { TU with
        ExtensionCachePimpl := some (TUExtensionCache.ctor TU) })).ASTStage ≥ Ctx.Parsed := hs
    have e₂ : Module.lookupExtensions Ctx ((H.store r (.ofTU { TU with
          ExtensionCachePimpl := some (TUExtensionCache.ctor TU) })).clearLookupCache r) r T
        = .ok ((TUExtensionCache.ctor TU).getExtensions T.getCanonicalType,
            ((H.store r (.ofTU { TU with
              ExtensionCachePimpl := some (TUExtensionCache.ctor TU) })).clearLookupCache r).store
              r (.ofTU { TU with
                LookupCachePimpl := none
                ExtensionCachePimpl := some (TUExtensionCache.ctor TU) })) := by
      unfold Module.lookupExtensions
      rw [hM₂]
      simp only [hs₂, not_true_eq_false, if_false]
      rfl
    exact ⟨_, _, _, e₁, e₂⟩

/-- Witness of C12 on module A of the example heap: the type `Meters`, the
overloads of `x` and the extensions of `Int` are found again after
`clearLookupCache`. -/
theorem cache_coherence_witness :
    (∃ a H₁ H₂, Module.lookupType exCtx exHeap 1 [] "Meters" .QualifiedLookup = .ok (a, H₁) ∧
      Module.lookupType exCtx (H₁.clearLookupCache 1) 1 [] "Meters" .QualifiedLookup
        = .ok (a, H₂)) ∧
    (∃ R' H₁ H₂, Module.lookupValue exCtx exHeap 1 [("x", 9)] "x" .UnqualifiedLookup []
        = .ok (R', H₁) ∧
      Module.lookupValue exCtx (H₁.clearLookupCache 1) 1 [("x", 9)] "x" .UnqualifiedLookup []
        = .ok (R', H₂)) ∧
    (∃ EDs H₁ H₂, Module.lookupExtensions exCtx exHeap 1 exInt = .ok (EDs, H₁) ∧
      Module.lookupExtensions exCtx (H₁.clearLookupCache 1) 1 exInt = .ok (EDs, H₂)) :=
  ⟨(cache_coherence exCtx exHeap 1 exA rfl (exA.lookupCacheCurrent_of_none rfl)
      (exA.extensionCacheCurrent_of_none rfl)).1 [] "Meters" .QualifiedLookup (by decide),
    (cache_coherence exCtx exHeap 1 exA rfl (exA.lookupCacheCurrent_of_none rfl)
      (exA.extensionCacheCurrent_of_none rfl)).2.1 [("x", 9)] "x" .UnqualifiedLookup []
      (by decide),
    (cache_coherence exCtx exHeap 1 exA rfl (exA.lookupCacheCurrent_of_none rfl)
      (exA.extensionCacheCurrent_of_none rfl)).2.2 (by decide) exInt⟩

/-! ### What every call preserves -/

theorem Module.lookupGlobalType.scrape_preserves (Ctx : ASTContext) (P : Heap → Prop)
    (hT : ∀ H r p n k a H', P H → Module.lookupType Ctx H r p n k = .ok (a, H') → P H')
    (n : Identifier) (k : NLKind) (Imports : List (AccessPathTy × ModuleRef)) (H H' : Heap)
    (a : Option TypeAliasDecl) (hP : P H)
    (e : Module.lookupGlobalType.scrape Ctx n k Imports H = .ok (a, H')) : P H' := by
  induction Imports generalizing H with
  | nil =>
    simp only [Module.lookupGlobalType.scrape, Except.ok.injEq, Prod.mk.injEq] at e
    rw [← e.2]
    exact hP
  | cons I Rest ih =>
    unfold Module.lookupGlobalType.scrape at e
    cases h1 : Module.lookupType Ctx H I.2 I.1 n k with
    | error msg => rw [h1] at e; exact absurd e (by simp)
    | ok out =>
      obtain ⟨b, H₂⟩ := out
      have hP₂ := hT H I.2 I.1 n k b H₂ hP h1
      rw [h1] at e
      cases b with
      | some TAD =>
        simp only [Except.ok.injEq, Prod.mk.injEq] at e
        rw [← e.2]
        exact hP₂
      | none => exact ih H₂ hP₂ e

/-- A property of heaps that every local `lookupType` keeps is kept by
`lookupGlobalType`. -/
theorem Module.lookupGlobalType_preserves (Ctx : ASTContext) (P : Heap → Prop)
    (hT : ∀ H r p n k a H', P H → Module.lookupType Ctx H r p n k = .ok (a, H') → P H')
    (H H' : Heap) (this : ModuleRef) (n : Identifier) (k : NLKind) (a : Option TypeAliasDecl)
    (hP : P H) (e : Module.lookupGlobalType Ctx H this n k = .ok (a, H')) : P H' := by
  unfold Module.lookupGlobalType at e
  cases h1 : Module.lookupType Ctx H this [] n k with
  | error msg => rw [h1] at e; exact absurd e (by simp)
  | ok out =>
    obtain ⟨b, H₂⟩ := out
    have hP₂ := hT H this [] n k b H₂ hP h1
    rw [h1] at e
    cases b with
    | some TAD =>
      simp only [Except.ok.injEq, Prod.mk.injEq] at e
      rw [← e.2]
      exact hP₂
    | none =>
      cases hM₂ : H₂.Modules this with
      | ofBuiltin BM =>
        simp only [hM₂, Except.ok.injEq, Prod.mk.injEq] at e
        rw [← e.2]
        exact hP₂
      | ofTU TU =>
        simp only [hM₂] at e
        exact Module.lookupGlobalType.scrape_preserves Ctx P hT n k _ H₂ H' a hP₂ e

theorem Module.lookupGlobalValue.scrape_value_preserves (Ctx : ASTContext) (P : Heap → Prop)
    (hV : ∀ H r p n k R R' H', P H → Module.lookupValue Ctx H r p n k R = .ok (R', H') → P H')
    (n : Identifier) (k : NLKind) (Imports : List (AccessPathTy × ModuleRef)) (H H' : Heap)
    (R R' : List ValueDecl) (hP : P H)
    (e : Module.lookupGlobalValue.scrape Ctx n k Imports H R = .ok (R', H')) : P H' := by
  induction Imports generalizing H R with
  | nil =>
    simp only [Module.lookupGlobalValue.scrape, Except.ok.injEq, Prod.mk.injEq] at e
    rw [← e.2]
    exact hP
  | cons I Rest ih =>
    unfold Module.lookupGlobalValue.scrape at e
    cases h1 : Module.lookupValue Ctx H I.2 I.1 n k R with
    | error msg => rw [h1] at e; exact absurd e (by simp)
    | ok out =>
      obtain ⟨R₂, H₂⟩ := out
      have hP₂ := hV H I.2 I.1 n k R R₂ H₂ hP h1
      rw [h1] at e
      by_cases hemp : R₂.isEmpty = true
      · simp only [hemp, Bool.not_true, Bool.false_eq_true, if_false] at e
        exact ih H₂ R₂ hP₂ e
      · simp only [hemp, Bool.not_false, if_true, Except.ok.injEq, Prod.mk.injEq] at e
        rw [← e.2]
        exact hP₂

/-- A property of heaps that every local `lookupValue` keeps is kept by
`lookupGlobalValue`. -/
theorem Module.lookupGlobalValue_preserves (Ctx : ASTContext) (P : Heap → Prop)
    (hV : ∀ H r p n k R R' H', P H → Module.lookupValue Ctx H r p n k R = .ok (R', H') → P H')
    (H H' : Heap) (this : ModuleRef) (n : Identifier) (k : NLKind) (R R' : List ValueDecl)
    (hP : P H) (e : Module.lookupGlobalValue Ctx H this n k R = .ok (R', H')) : P H' := by
  unfold Module.lookupGlobalValue at e
  by_cases hR : R.isEmpty = true
  · simp only [hR, not_true_eq_false, if_false] at e
    cases h1 : Module.lookupValue Ctx H this [] n k R with
    | error msg => rw [h1] at e; exact absurd e (by simp)
    | ok out =>
      obtain ⟨R₂, H₂⟩ := out
      have hP₂ := hV H this [] n k R R₂ H₂ hP h1
      rw [h1] at e
      simp only at e
      by_cases hdone : (!R₂.isEmpty || (H₂.Modules this).isBuiltin) = true
      · rw [if_pos hdone] at e
        simp only [Except.ok.injEq, Prod.mk.injEq] at e
        rw [← e.2]
        exact hP₂
      · rw [if_neg hdone] at e
        cases hM₂ : H₂.Modules this with
        | ofBuiltin BM =>
          rw [hM₂] at e
          simp only [Except.ok.injEq, Prod.mk.injEq] at e
          rw [← e.2]
          exact hP₂
        | ofTU TU =>
          rw [hM₂] at e
          exact Module.lookupGlobalValue.scrape_value_preserves Ctx P hV n k _ H₂ H' R₂ R' hP₂ e
  · simp [hR] at e

theorem Module.lookupGlobalExtensionMethods.scrape_ext_preserves (Ctx : ASTContext)
    (P : Heap → Prop)
    (hE : ∀ H r T EDs H', P H → Module.lookupExtensions Ctx H r T = .ok (EDs, H') → P H')
    (T : TypeBase) (n : Identifier) (Imports : List (AccessPathTy × ModuleRef)) (H H' : Heap)
    (R R' : List ValueDecl) (hP : P H)
    (e : Module.lookupGlobalExtensionMethods.scrape Ctx T n Imports H R = .ok (R', H')) :
    P H' := by
  induction Imports generalizing H R with
  | nil =>
    simp only [Module.lookupGlobalExtensionMethods.scrape, Except.ok.injEq, Prod.mk.injEq] at e
    rw [← e.2]
    exact hP
  | cons I Rest ih =>
    unfold Module.lookupGlobalExtensionMethods.scrape at e
    cases h1 : Module.lookupExtensions Ctx H I.2 T with
    | error msg => rw [h1] at e; exact absurd e (by simp)
    | ok out =>
      obtain ⟨EDs, H₂⟩ := out
      have hP₂ := hE H I.2 T EDs H₂ hP h1
      rw [h1] at e
      simp only at e
      by_cases hemp : (Module.lookupGlobalExtensionMethods.collect n EDs R).isEmpty = true
      · simp only [hemp, Bool.not_true, Bool.false_eq_true, if_false] at e
        exact ih H₂ _ hP₂ e
      · simp only [hemp, Bool.not_false, if_true, Except.ok.injEq, Prod.mk.injEq] at e
        rw [← e.2]
        exact hP₂

/-- A property of heaps that every `lookupExtensions` keeps is kept by
`lookupGlobalExtensionMethods`. -/
theorem Module.lookupGlobalExtensionMethods_preserves (Ctx : ASTContext) (P : Heap → Prop)
    (hE : ∀ H r T EDs H', P H → Module.lookupExtensions Ctx H r T = .ok (EDs, H') → P H')
    (H H' : Heap) (this : ModuleRef) (T : TypeBase) (n : Identifier) (R R' : List ValueDecl)
    (hP : P H) (e : Module.lookupGlobalExtensionMethods Ctx H this T n R = .ok (R', H')) :
    P H' := by
  unfold Module.lookupGlobalExtensionMethods at e
  by_cases hR : R.isEmpty = true
  · simp only [hR, not_true_eq_false, if_false] at e
    cases h1 : Module.lookupExtensions Ctx H this T with
    | error msg => rw [h1] at e; exact absurd e (by simp)
    | ok out =>
      obtain ⟨EDs, H₂⟩ := out
      have hP₂ := hE H this T EDs H₂ hP h1
      rw [h1] at e
      simp only at e
      by_cases hdone : (!(Module.lookupGlobalExtensionMethods.collect n EDs R).isEmpty
          || (H₂.Modules this).isBuiltin) = true
      · rw [if_pos hdone] at e
        simp only [Except.ok.injEq, Prod.mk.injEq] at e
        rw [← e.2]
        exact hP₂
      · rw [if_neg hdone] at e
        cases hM₂ : H₂.Modules this with
        | ofBuiltin BM =>
          rw [hM₂] at e
          simp only [Except.ok.injEq, Prod.mk.injEq] at e
          rw [← e.2]
          exact hP₂
        | ofTU TU =>
          rw [hM₂] at e
          exact Module.lookupGlobalExtensionMethods.scrape_ext_preserves Ctx P hE T n _ H₂ H'
            _ R' hP₂ e
  · simp [hR] at e

/-! ### Entries of the builtin cache are never replaced -/

theorem Heap.builtinEntry_store_ne (H : Heap) (r r' : ModuleRef) (M : Module) (top : Nat)
    (n : Identifier) (h : r ≠ r') :
    Heap.builtinEntry { H.store r' M with ArenaTop := top } r n = H.builtinEntry r n := by
  simp [Heap.builtinEntry, Heap.store, h]

theorem Heap.builtinEntry_ne_of_TU (H : Heap) (r r' : ModuleRef) (TU : TranslationUnit)
    (n : Identifier) (D : NamedDecl) (hD : H.builtinEntry r n = some D)
    (hM : H.Modules r' = .ofTU TU) : r ≠ r' := by
  intro h
  subst h
  simp [Heap.builtinEntry, hM] at hD

theorem Heap.builtinEntry_lookupType (Ctx : ASTContext) (r : ModuleRef) (n : Identifier)
    (D : NamedDecl) (H : Heap) (r' : ModuleRef) (p : AccessPathTy) (n' : Identifier)
    (k : NLKind) (a : Option TypeAliasDecl) (H' : Heap) (hD : H.builtinEntry r n = some D)
    (e : Module.lookupType Ctx H r' p n' k = .ok (a, H')) : H'.builtinEntry r n = some D := by
  cases hM : H.Modules r' with
  | ofBuiltin BM =>
    unfold Module.lookupType at e
    rw [hM] at e
    by_cases hp : p.isEmpty = true
    · simp only [hp, not_true_eq_false, if_false, Except.ok.injEq, Prod.mk.injEq] at e
      rw [← e.2]
      by_cases hr : r = r'
      · subst hr
        simp only [Heap.builtinEntry, hM] at hD
        simp only [Heap.builtinEntry, Heap.store, if_true, getBuiltinCachePimpl_some]
        rw [BuiltinModuleCache.lookupType_entry]
        by_cases hnn : n' = n
        · subst hnn
          simp [hD]
        · simp [hnn, hD]
      · rw [Heap.builtinEntry_store_ne H r r' _ _ n hr]
        exact hD
    · simp [hp] at e
  | ofTU TU =>
    have hr := Heap.builtinEntry_ne_of_TU H r r' TU n D hD hM
    by_cases hp : p.length ≤ 1
    · rw [Module.lookupType_TU Ctx H r' TU p n' k hM hp] at e
      simp only [Except.ok.injEq, Prod.mk.injEq] at e
      rw [← e.2]
      have := Heap.builtinEntry_store_ne H r r' (.ofTU { TU with
        LookupCachePimpl := some (getTUCachePimpl TU.LookupCachePimpl TU) }) H.ArenaTop n hr
      exact this.trans hD
    · unfold Module.lookupType at e
      rw [hM] at e
      simp [TUModuleCache.lookupType, hp] at e

theorem Heap.builtinEntry_lookupValue (Ctx : ASTContext) (r : ModuleRef) (n : Identifier)
    (D : NamedDecl) (H : Heap) (r' : ModuleRef) (p : AccessPathTy) (n' : Identifier)
    (k : NLKind) (R R' : List ValueDecl) (H' : Heap) (hD : H.builtinEntry r n = some D)
    (e : Module.lookupValue Ctx H r' p n' k R = .ok (R', H')) :
    H'.builtinEntry r n = some D := by
  cases hM : H.Modules r' with
  | ofBuiltin BM =>
    unfold Module.lookupValue at e
    rw [hM] at e
    by_cases hp : p.isEmpty = true
    · simp only [hp, not_true_eq_false, if_false, Except.ok.injEq, Prod.mk.injEq] at e
      rw [← e.2]
      by_cases hr : r = r'
      · subst hr
        simp only [Heap.builtinEntry, hM] at hD
        simp only [Heap.builtinEntry, Heap.store, if_true, getBuiltinCachePimpl_some]
        rw [BuiltinModuleCache.lookupValue_entry]
        by_cases hnn : n' = n
        · subst hnn
          simp [hD]
        · simp [hnn, hD]
      · have := Heap.builtinEntry_store_ne H r r' (.ofBuiltin { BM with
          LookupCachePimpl := some
            ((getBuiltinCachePimpl BM.LookupCachePimpl).lookupValue Ctx n' k R).2 })
          H.ArenaTop n hr
        exact this.trans hD
    · simp [hp] at e
  | ofTU TU =>
    have hr := Heap.builtinEntry_ne_of_TU H r r' TU n D hD hM
    by_cases hp : p.length ≤ 1
    · rw [Module.lookupValue_TU Ctx H r' TU p n' k R hM hp] at e
      simp only [Except.ok.injEq, Prod.mk.injEq] at e
      rw [← e.2]
      have := Heap.builtinEntry_store_ne H r r' (.ofTU { TU with
        LookupCachePimpl := some (getTUCachePimpl TU.LookupCachePimpl TU) }) H.ArenaTop n hr
      exact this.trans hD
    · unfold Module.lookupValue at e
      rw [hM] at e
      simp [TUModuleCache.lookupValue, hp] at e

theorem Heap.builtinEntry_lookupExtensions (Ctx : ASTContext) (r : ModuleRef)
    (n : Identifier) (D : NamedDecl) (H : Heap) (r' : ModuleRef) (T : TypeBase)
    (EDs : List ExtensionDecl) (H' : Heap) (hD : H.builtinEntry r n = some D)
    (e : Module.lookupExtensions Ctx H r' T = .ok (EDs, H')) :
    H'.builtinEntry r n = some D := by
  unfold Module.lookupExtensions at e
  by_cases hs : (H.Modules r').ASTStage ≥ Ctx.Parsed
  · simp only [hs, not_true_eq_false, if_false] at e
    cases hM : H.Modules r' with
    | ofBuiltin BM =>
      rw [hM] at e
      simp only [Except.ok.injEq, Prod.mk.injEq] at e
      rw [← e.2]
      exact hD
    | ofTU TU =>
      have hr := Heap.builtinEntry_ne_of_TU H r r' TU n D hD hM
      rw [hM] at e
      simp only [Except.ok.injEq, Prod.mk.injEq] at e
      rw [← e.2]
      have := Heap.builtinEntry_store_ne H r r' (.ofTU { TU with
        ExtensionCachePimpl := some (getTUExtensionCachePimpl TU.ExtensionCachePimpl TU) })
        H.ArenaTop n hr
      exact this.trans hD
  · simp [hs] at e

theorem Heap.builtinEntry_clearLookupCache (r : ModuleRef) (n : Identifier) (D : NamedDecl)
    (H : Heap) (r' : ModuleRef) (hD : H.builtinEntry r n = some D) :
    (H.clearLookupCache r').builtinEntry r n = some D := by
  unfold Heap.clearLookupCache
  cases hM : H.Modules r' with
  | ofBuiltin BM => exact hD
  | ofTU TU =>
    have hr := Heap.builtinEntry_ne_of_TU H r r' TU n D hD hM
    have := Heap.builtinEntry_store_ne H r r' (.ofTU TU.clearLookupCache) H.ArenaTop n hr
    exact this.trans hD

/-- A declaration the builtin cache at `r` holds for a name stays there through
any call. -/
theorem Heap.builtinEntry_after (Ctx : ASTContext) (r : ModuleRef) (n : Identifier)
    (D : NamedDecl) (H H' : Heap) (q : Query) (hD : H.builtinEntry r n = some D)
    (e : H.after Ctx q = .ok H') : H'.builtinEntry r n = some D := by
  cases q with
  | lookupType this p n' k =>
    simp only [Heap.after] at e
    cases h : Module.lookupType Ctx H this p n' k with
    | error msg => rw [h] at e; exact absurd e (by simp)
    | ok out =>
      rw [h] at e
      simp only [Except.ok.injEq] at e
      subst e
      exact Heap.builtinEntry_lookupType Ctx r n D H this p n' k out.1 out.2 hD h
  | lookupValue this p n' k R =>
    simp only [Heap.after] at e
    cases h : Module.lookupValue Ctx H this p n' k R with
    | error msg => rw [h] at e; exact absurd e (by simp)
    | ok out =>
      rw [h] at e
      simp only [Except.ok.injEq] at e
      subst e
      exact Heap.builtinEntry_lookupValue Ctx r n D H this p n' k R out.1 out.2 hD h
  | lookupExtensions this T =>
    simp only [Heap.after] at e
    cases h : Module.lookupExtensions Ctx H this T with
    | error msg => rw [h] at e; exact absurd e (by simp)
    | ok out =>
      rw [h] at e
      simp only [Except.ok.injEq] at e
      subst e
      exact Heap.builtinEntry_lookupExtensions Ctx r n D H this T out.1 out.2 hD h
  | lookupGlobalType this n' k =>
    simp only [Heap.after] at e
    cases h : Module.lookupGlobalType Ctx H this n' k with
    | error msg => rw [h] at e; exact absurd e (by simp)
    | ok out =>
      rw [h] at e
      simp only [Except.ok.injEq] at e
      subst e
      exact Module.lookupGlobalType_preserves Ctx (fun H => H.builtinEntry r n = some D)
        (fun H r' p n' k a H' hP e' =>
          Heap.builtinEntry_lookupType Ctx r n D H r' p n' k a H' hP e')
        H out.2 this n' k out.1 hD h
  | lookupGlobalValue this n' k R =>
    simp only [Heap.after] at e
    cases h : Module.lookupGlobalValue Ctx H this n' k R with
    | error msg => rw [h] at e; exact absurd e (by simp)
    | ok out =>
      rw [h] at e
      simp only [Except.ok.injEq] at e
      subst e
      exact Module.lookupGlobalValue_preserves Ctx (fun H => H.builtinEntry r n = some D)
        (fun H r' p n' k R R' H' hP e' =>
          Heap.builtinEntry_lookupValue Ctx r n D H r' p n' k R R' H' hP e')
        H out.2 this n' k R out.1 hD h
  | lookupGlobalExtensionMethods this T n' R =>
    simp only [Heap.after] at e
    cases h : Module.lookupGlobalExtensionMethods Ctx H this T n' R with
    | error msg => rw [h] at e; exact absurd e (by simp)
    | ok out =>
      rw [h] at e
      simp only [Except.ok.injEq] at e
      subst e
      exact Module.lookupGlobalExtensionMethods_preserves Ctx
        (fun H => H.builtinEntry r n = some D)
        (fun H r' T EDs H' hP e' =>
          Heap.builtinEntry_lookupExtensions Ctx r n D H r' T EDs H' hP e')
        H out.2 this T n' R out.1 hD h
  | clearLookupCache this =>
    simp only [Heap.after, Except.ok.injEq] at e
    subst e
    exact Heap.builtinEntry_clearLookupCache r n D H this hD

/-- A declaration the builtin cache at `r` holds for a name stays there through
any sequence of calls. -/
theorem Heap.builtinEntry_afterAll (Ctx : ASTContext) (r : ModuleRef) (n : Identifier)
    (D : NamedDecl) (qs : List Query) (H H' : Heap) (hD : H.builtinEntry r n = some D)
    (e : Heap.afterAll Ctx H qs = .ok H') : H'.builtinEntry r n = some D := by
  induction qs generalizing H with
  | nil =>
    simp only [Heap.afterAll, Except.ok.injEq] at e
    subst e
    exact hD
  | cons q qs ih =>
    unfold Heap.afterAll at e
    cases h : H.after Ctx q with
    | error msg => rw [h] at e; exact absurd e (by simp)
    | ok H₁ =>
      rw [h] at e
      exact ih H₁ (Heap.builtinEntry_after Ctx r n D H H₁ q hD h) e

theorem BuiltinModuleCache.lookupType_some_entry (C : BuiltinModuleCache) (Ctx : ASTContext)
    (n : Identifier) (top : Nat) (TAD : TypeAliasDecl)
    (h : (C.lookupType Ctx n .QualifiedLookup top).1 = some TAD) :
    (C.lookupType Ctx n .QualifiedLookup top).2.1.entry n = some (.TypeAlias TAD) := by
  rw [BuiltinModuleCache.lookupType_fst] at h
  rw [BuiltinModuleCache.lookupType_entry]
  cases he : C.entry n with
  | none =>
    rw [he] at h
    simp only [ne_eq, not_true_eq_false, if_false] at h
    cases hb : Ctx.getBuiltinType n with
    | none => rw [hb] at h; exact absurd h (by simp)
    | some Ty =>
      rw [hb] at h
      simp only [Option.map_some', Option.some.injEq] at h
      simp [h]
  | some D =>
    rw [he] at h
    simp only [ne_eq, not_true_eq_false, if_false] at h
    rcases D with T | V
    · simp only [NamedDecl.dyn_cast_or_null_TypeAliasDecl, Option.some.injEq] at h
      simp [h]
    · simp [NamedDecl.dyn_cast_or_null_TypeAliasDecl] at h

theorem BuiltinModuleCache.lookupValue_found_entry (C : BuiltinModuleCache) (Ctx : ASTContext)
    (n : Identifier) (k : NLKind) (R : List ValueDecl)
    (h : (C.lookupValue Ctx n k R).1 ≠ R) :
    ∃ VD, (C.lookupValue Ctx n k R).2.entry n = some (.Value VD) := by
  rw [BuiltinModuleCache.lookupValue_fst] at h
  rw [BuiltinModuleCache.lookupValue_entry]
  by_cases hk : k = NLKind.QualifiedLookup
  · cases he : C.entry n with
    | none =>
      rw [he] at h
      cases hb : Ctx.getBuiltinValue n with
      | none => rw [hb] at h; simp [hk] at h
      | some VD => exact ⟨VD, by simp [hk]⟩
    | some D =>
      rw [he] at h
      rcases D with T | V
      · simp [hk, NamedDecl.dyn_cast_or_null_ValueDecl] at h
      · exact ⟨V, by simp⟩
  · simp [hk] at h

theorem Module.lookupType_Builtin_ex (Ctx : ASTContext) (H : Heap) (r : ModuleRef)
    (BM : BuiltinModule) (n : Identifier) (k : NLKind) (hM : H.Modules r = .ofBuiltin BM) :
    ∃ H', Module.lookupType Ctx H r [] n k
        = .ok (((getBuiltinCachePimpl BM.LookupCachePimpl).lookupType Ctx n k H.ArenaTop).1, H') ∧
      H'.ArenaTop
        = ((getBuiltinCachePimpl BM.LookupCachePimpl).lookupType Ctx n k H.ArenaTop).2.2 := by
  rw [Module.lookupType_Builtin Ctx H r BM n k hM]
  exact ⟨_, rfl, rfl⟩

theorem Module.lookupValue_Builtin_ex (Ctx : ASTContext) (H : Heap) (r : ModuleRef)
    (BM : BuiltinModule) (n : Identifier) (k : NLKind) (R : List ValueDecl)
    (hM : H.Modules r = .ofBuiltin BM) :
    ∃ H', Module.lookupValue Ctx H r [] n k R
        = .ok (((getBuiltinCachePimpl BM.LookupCachePimpl).lookupValue Ctx n k R).1, H') := by
  rw [Module.lookupValue_Builtin Ctx H r BM n k R hM]
  exact ⟨_, rfl⟩

/-- A qualified `lookupType` of a name the builtin cache at `r` holds a type
for returns that type and allocates nothing. -/
theorem Module.lookupType_of_builtinEntry (Ctx : ASTContext) (H : Heap) (r : ModuleRef)
    (n : Identifier) (TAD : TypeAliasDecl)
    (hD : H.builtinEntry r n = some (.TypeAlias TAD)) :
    ∃ H', Module.lookupType Ctx H r [] n .QualifiedLookup = .ok (some TAD, H') ∧
      H'.ArenaTop = H.ArenaTop := by
  cases hM : H.Modules r with
  | ofTU TU => simp [Heap.builtinEntry, hM] at hD
  | ofBuiltin BM =>
    simp only [Heap.builtinEntry, hM] at hD
    obtain ⟨H', e, ht⟩ := Module.lookupType_Builtin_ex Ctx H r BM n .QualifiedLookup hM
    have h1 : ((getBuiltinCachePimpl BM.LookupCachePimpl).lookupType Ctx n
        .QualifiedLookup H.ArenaTop).1 = some TAD := by
      simp only [BuiltinModuleCache.lookupType_fst, hD]
      rfl
    have h2 : ((getBuiltinCachePimpl BM.LookupCachePimpl).lookupType Ctx n
        .QualifiedLookup H.ArenaTop).2.2 = H.ArenaTop := by
      simp only [BuiltinModuleCache.lookupType_top, hD]
      simp
    rw [h1] at e
    exact ⟨H', e, ht.trans h2⟩

/-- A `lookupValue` of a name the builtin cache at `r` holds a type for
appends nothing. -/
theorem Module.lookupValue_of_builtinEntry_type (Ctx : ASTContext) (H : Heap) (r : ModuleRef)
    (n : Identifier) (k : NLKind) (R : List ValueDecl) (TAD : TypeAliasDecl)
    (hD : H.builtinEntry r n = some (.TypeAlias TAD)) :
    ∃ H', Module.lookupValue Ctx H r [] n k R = .ok (R, H') := by
  cases hM : H.Modules r with
  | ofTU TU => simp [Heap.builtinEntry, hM] at hD
  | ofBuiltin BM =>
    simp only [Heap.builtinEntry, hM] at hD
    obtain ⟨H', e⟩ := Module.lookupValue_Builtin_ex Ctx H r BM n k R hM
    have h1 : ((getBuiltinCachePimpl BM.LookupCachePimpl).lookupValue Ctx n k R).1 = R := by
      simp only [BuiltinModuleCache.lookupValue_fst, hD]
      by_cases hk : k = NLKind.QualifiedLookup <;>
        simp [hk, NamedDecl.dyn_cast_or_null_ValueDecl]
    rw [h1] at e
    exact ⟨H', e⟩

/-- A `lookupType` of a name the builtin cache at `r` holds a value for
returns no type. -/
theorem Module.lookupType_of_builtinEntry_value (Ctx : ASTContext) (H : Heap) (r : ModuleRef)
    (n : Identifier) (k : NLKind) (VD : ValueDecl)
    (hD : H.builtinEntry r n = some (.Value VD)) :
    ∃ H', Module.lookupType Ctx H r [] n k = .ok (none, H') := by
  cases hM : H.Modules r with
  | ofTU TU => simp [Heap.builtinEntry, hM] at hD
  | ofBuiltin BM =>
    simp only [Heap.builtinEntry, hM] at hD
    obtain ⟨H', e, _⟩ := Module.lookupType_Builtin_ex Ctx H r BM n k hM
    have h1 : ((getBuiltinCachePimpl BM.LookupCachePimpl).lookupType Ctx n k
        H.ArenaTop).1 = none := by
      simp only [BuiltinModuleCache.lookupType_fst, hD]
      by_cases hk : k = NLKind.QualifiedLookup <;>
        simp [hk, NamedDecl.dyn_cast_or_null_TypeAliasDecl]
    rw [h1] at e
    exact ⟨H', e⟩

/-! ### Builtin caching -/

/-- C13. Builtin caching is idempotent: once a qualified `lookupType` on the
builtin module at `r` has returned a declaration for a name, then after any
sequence of calls (local and global lookups on any module, invalidations)
that returns, a qualified `lookupType` for the same name returns the same
declaration, address included, and leaves the allocator where it was: no new
declaration is allocated. -/
theorem builtin_caching_idempotent (Ctx : ASTContext) (H H₁ H₂ : Heap) (r : ModuleRef)
    (BM : BuiltinModule) (n : Identifier) (TAD : TypeAliasDecl) (qs : List Query)
    (hM : H.Modules r = .ofBuiltin BM)
    (h₁ : Module.lookupType Ctx H r [] n .QualifiedLookup = .ok (some TAD, H₁))
    (h₂ : Heap.afterAll Ctx H₁ qs = .ok H₂) :
    ∃ H₃, Module.lookupType Ctx H₂ r [] n .QualifiedLookup = .ok (some TAD, H₃) ∧
      H₃.ArenaTop = H₂.ArenaTop := by
  rw [Module.lookupType_Builtin Ctx H r BM n _ hM] at h₁
  simp only [Except.ok.injEq, Prod.mk.injEq] at h₁
  have hE : H₁.builtinEntry r n = some (.TypeAlias TAD) := by
    rw [← h₁.2]
    simp only [Heap.builtinEntry, Heap.store, if_true, getBuiltinCachePimpl_some]
    exact BuiltinModuleCache.lookupType_some_entry _ Ctx n H.ArenaTop TAD h₁.1
  have hE₂ := Heap.builtinEntry_afterAll Ctx r n _ qs H₁ H₂ hE h₂
  exact Module.lookupType_of_builtinEntry Ctx H₂ r n TAD hE₂

/-- Witness of C13 on the builtin module of the example heap: `Int64` is
synthesized at address 1000 by the first lookup, and found again at that
address after the calls `exQueries`. -/
theorem builtin_caching_idempotent_witness :
    exHeap.ArenaTop = 1000 ∧ exHeapInt64.ArenaTop = 1001 ∧
    ∃ H₃, Module.lookupType exCtx exHeapInt64Later 0 [] "Int64" .QualifiedLookup
        = .ok (some ⟨1000, 0, "Int64", ⟨64, false, 64⟩, 0, true⟩, H₃) ∧
      H₃.ArenaTop = exHeapInt64Later.ArenaTop :=
  ⟨rfl, rfl,
    builtin_caching_idempotent exCtx exHeap exHeapInt64 exHeapInt64Later 0 ⟨3, none⟩ "Int64"
      ⟨1000, 0, "Int64", ⟨64, false, 64⟩, 0, true⟩ exQueries rfl rfl rfl⟩

/-- C14. Builtin type/value exclusivity: on the builtin module at `r`, in any
cache state and whatever the two synthesis functions yield, once a qualified
`lookupType` has returned a declaration for a name, every `lookupValue` for
that name made after any sequence of calls appends nothing; and once a
`lookupValue` has appended a declaration for a name, every `lookupType` for
that name made after any sequence of calls returns `none`. Whichever of the
two resolves first for a name is the only one that ever resolves for it. -/
theorem builtin_type_value_exclusive (Ctx : ASTContext) (H : Heap) (r : ModuleRef)
    (BM : BuiltinModule) (n : Identifier) (qs : List Query)
    (hM : H.Modules r = .ofBuiltin BM) :
    (∀ (TAD : TypeAliasDecl) (H₁ H₂ : Heap) (k : NLKind) (R : List ValueDecl),
      Module.lookupType Ctx H r [] n .QualifiedLookup = .ok (some TAD, H₁) →
      Heap.afterAll Ctx H₁ qs = .ok H₂ →
      ∃ H₃, Module.lookupValue Ctx H₂ r [] n k R = .ok (R, H₃)) ∧
    (∀ (R R' : List ValueDecl) (H₁ H₂ : Heap) (k : NLKind),
      Module.lookupValue Ctx H r [] n .QualifiedLookup R = .ok (R', H₁) → R' ≠ R →
      Heap.afterAll Ctx H₁ qs = .ok H₂ →
      ∃ H₃, Module.lookupType Ctx H₂ r [] n k = .ok (none, H₃)) := by
  constructor
  · intro TAD H₁ H₂ k R h₁ h₂
    rw [Module.lookupType_Builtin Ctx H r BM n _ hM] at h₁
    simp only [Except.ok.injEq, Prod.mk.injEq] at h₁
    have hE : H₁.builtinEntry r n = some (.TypeAlias TAD) := by
      rw [← h₁.2]
      simp only [Heap.builtinEntry, Heap.store, if_true, getBuiltinCachePimpl_some]
      exact BuiltinModuleCache.lookupType_some_entry _ Ctx n H.ArenaTop TAD h₁.1
    have hE₂ := Heap.builtinEntry_afterAll Ctx r n _ qs H₁ H₂ hE h₂
    exact Module.lookupValue_of_builtinEntry_type Ctx H₂ r n k R TAD hE₂
  · intro R R' H₁ H₂ k h₁ hne h₂
    rw [Module.lookupValue_Builtin Ctx H r BM n _ R hM] at h₁
    simp only [Except.ok.injEq, Prod.mk.injEq] at h₁
    have hne' : ((getBuiltinCachePimpl BM.LookupCachePimpl).lookupValue Ctx n
        .QualifiedLookup R).1 ≠ R := by
      rw [h₁.1]; exact hne
    obtain ⟨VD, hVD⟩ := BuiltinModuleCache.lookupValue_found_entry _ Ctx n _ R hne'
    have hE : H₁.builtinEntry r n = some (.Value VD) := by
      rw [← h₁.2]
      simp only [Heap.builtinEntry, Heap.store, if_true, getBuiltinCachePimpl_some]
      exact hVD
    have hE₂ := Heap.builtinEntry_afterAll Ctx r n _ qs H₁ H₂ hE h₂
    exact Module.lookupType_of_builtinEntry_value Ctx H₂ r n k VD hE₂

/-- Witness of C14 on the builtin module of the example heap, in a context
where both synthesis functions yield something for `both`: after the type has
been looked up the value is not found, and after the value has been looked up
the type is not found. -/
theorem builtin_type_value_exclusive_witness :
    ((exCtxBoth.getBuiltinType "both").isSome = true ∧
      (exCtxBoth.getBuiltinValue "both").isSome = true) ∧
    (∃ H₃, Module.lookupValue exCtxBoth exHeapBothType 0 [] "both" .QualifiedLookup []
      = .ok ([], H₃)) ∧
    (∃ H₃, Module.lookupType exCtxBoth exHeapBothValue 0 [] "both" .QualifiedLookup
      = .ok (none, H₃)) :=
  ⟨by decide,
    (builtin_type_value_exclusive exCtxBoth exHeap 0 ⟨3, none⟩ "both" [] rfl).1
      ⟨1000, 0, "both", ⟨7, false, 7⟩, 0, true⟩ exHeapBothType exHeapBothType
      .QualifiedLookup [] rfl rfl,
    (builtin_type_value_exclusive exCtxBoth exHeap 0 ⟨3, none⟩ "both" [] rfl).2
      [] [⟨901, "both"⟩] exHeapBothValue exHeapBothValue .QualifiedLookup rfl (by decide) rfl⟩

/-! ### Assertions -/

/-- C15. Assertions: when every import's access path has at most one element,
every import of a builtin module has an empty access path and the result
buffer starts empty, `lookupGlobalType` and `lookupGlobalValue` on any module
return without failing an assertion. Conversely a local `lookupType` or
`lookupValue` on a translation unit with an access path of more than one
element, a local lookup on a builtin module with a non-empty access path, and
a `lookupGlobalValue` or `lookupGlobalExtensionMethods` call with a non-empty
result buffer each fail their assertion. -/
theorem assertions_fire_exactly (Ctx : ASTContext) (H : Heap) :
    (∀ (this : ModuleRef) (n : Identifier) (k : NLKind),
      H.ImportsOK (H.Modules this).importedModules →
      (∃ a H', Module.lookupGlobalType Ctx H this n k = .ok (a, H')) ∧
      (∃ R H', Module.lookupGlobalValue Ctx H this n k [] = .ok (R, H'))) ∧
    (∀ (r : ModuleRef) (TU : TranslationUnit) (p : AccessPathTy) (n : Identifier) (k : NLKind)
      (R : List ValueDecl), H.Modules r = .ofTU TU → 1 < p.length →
      Module.lookupType Ctx H r p n k = .error "Don't handle this yet" ∧
      Module.lookupValue Ctx H r p n k R = .error "Don't handle this yet") ∧
    (∀ (r : ModuleRef) (BM : BuiltinModule) (p : AccessPathTy) (n : Identifier) (k : NLKind)
      (R : List ValueDecl), H.Modules r = .ofBuiltin BM → p ≠ [] →
      Module.lookupType Ctx H r p n k = .error "builtin module's access path always empty!" ∧
      Module.lookupValue Ctx H r p n k R
        = .error "builtin module's access path always empty!") ∧
    (∀ (this : ModuleRef) (T : TypeBase) (n : Identifier) (k : NLKind) (R : List ValueDecl),
      R ≠ [] →
      Module.lookupGlobalValue Ctx H this n k R
        = .error "This expects that the input list is empty, could be generalized" ∧
      Module.lookupGlobalExtensionMethods Ctx H this T n R
        = .error "This expects that the input list is empty, could be generalized") := by
  refine ⟨?_, ?_, ?_, ?_⟩
  · intro this n k hI
    obtain ⟨H₁, e₁⟩ := Module.lookupGlobalType_eq Ctx H this n k hI
    obtain ⟨H₂, e₂⟩ := Module.lookupGlobalValue_eq Ctx H this n k hI
    exact ⟨⟨_, H₁, e₁⟩, ⟨_, H₂, e₂⟩⟩
  · intro r TU p n k R hM hp
    have hp' : ¬ p.length ≤ 1 := by omega
    constructor
    · unfold Module.lookupType
      rw [hM]
      simp [TUModuleCache.lookupType, hp']
    · unfold Module.lookupValue
      rw [hM]
      simp [TUModuleCache.lookupValue, hp']
  · intro r BM p n k R hM hp
    have hp' : ¬ p.isEmpty = true := by
      cases p with
      | nil => exact absurd rfl hp
      | cons a l => simp
    constructor
    · unfold Module.lookupType
      rw [hM]
      simp [hp']
    · unfold Module.lookupValue
      rw [hM]
      simp [hp']
  · intro this T n k R hR
    have hR' : ¬ R.isEmpty = true := by
      cases R with
      | nil => exact absurd rfl hR
      | cons a l => simp
    constructor
    · unfold Module.lookupGlobalValue
      simp [hR']
    · unfold Module.lookupGlobalExtensionMethods
      simp [hR']

/-- Witness of C15 on the example heap: the global lookups of `x` from module M
return; a two-element access path on module B, a one-element access path on
the builtin module and a non-empty result buffer on module M fail. -/
theorem assertions_fire_exactly_witness :
    ((∃ a H', Module.lookupGlobalType exCtx exHeap 3 "x" .UnqualifiedLookup = .ok (a, H')) ∧
      (∃ R H', Module.lookupGlobalValue exCtx exHeap 3 "x" .UnqualifiedLookup []
        = .ok (R, H'))) ∧
    Module.lookupType exCtx exHeap 2 [("Foo", 1), ("Bar", 2)] "Foo" .UnqualifiedLookup
      = .error "Don't handle this yet" ∧
    Module.lookupValue exCtx exHeap 0 [("trunc", 1)] "trunc" .QualifiedLookup []
      = .error "builtin module's access path always empty!" ∧
    Module.lookupGlobalExtensionMethods exCtx exHeap 3 exInt "m" [⟨1, "z"⟩]
      = .error "This expects that the input list is empty, could be generalized" :=
  ⟨(assertions_fire_exactly exCtx exHeap).1 3 "x" .UnqualifiedLookup
      (by unfold Heap.ImportsOK; decide),
    ((assertions_fire_exactly exCtx exHeap).2.1 2 exB [("Foo", 1), ("Bar", 2)] "Foo"
      .UnqualifiedLookup [] rfl (by decide)).1,
    ((assertions_fire_exactly exCtx exHeap).2.2.1 0 ⟨3, none⟩ [("trunc", 1)] "trunc"
      .QualifiedLookup [] rfl (by decide)).2,
    ((assertions_fire_exactly exCtx exHeap).2.2.2 3 exInt "m" .UnqualifiedLookup [⟨1, "z"⟩]
      (by decide)).2⟩

/-! ### Local lookups do not read the list of imports -/

theorem Module.SameButImports.refl_imports (M : Module) : M.SameButImports M := by
  cases M <;> simp [Module.SameButImports]

theorem Module.SameButImports.withImports_right (M : Module)
    (Imports : List (AccessPathTy × ModuleRef)) : M.SameButImports (M.withImports Imports) := by
  cases M <;> simp [Module.SameButImports, Module.withImports]

theorem Module.SameButImports.isBuiltin_eq {M M' : Module} (h : M.SameButImports M') :
    M'.isBuiltin = M.isBuiltin := by
  cases M <;> cases M' <;> simp_all [Module.SameButImports, Module.isBuiltin]

theorem Heap.sameButImports_setImports (H : Heap) (this : ModuleRef)
    (Imports : List (AccessPathTy × ModuleRef)) :
    H.SameButImports (H.setImports this Imports) := by
  refine ⟨rfl, fun r => ?_⟩
  by_cases hr : r = this
  · subst hr
    simpa [Heap.setImports, Heap.store] using
      Module.SameButImports.withImports_right (H.Modules r) Imports
  · simpa [Heap.setImports, Heap.store, hr] using
      Module.SameButImports.refl_imports (H.Modules r)

theorem Module.localType_sameButImports (Ctx : ASTContext) {H H' : Heap}
    (h : H.SameButImports H') (r : ModuleRef) (p : AccessPathTy) (n : Identifier)
    (k : NLKind) : Module.localType Ctx H' r p n k = Module.localType Ctx H r p n k := by
  have hs := h.2 r
  have ht := h.1
  unfold Module.localType Module.lookupType
  cases hM : H.Modules r with
  | ofBuiltin B =>
    cases hM' : H'.Modules r with
    | ofBuiltin B' =>
      rw [hM, hM'] at hs
      simp only [Module.SameButImports] at hs
      subst hs
      rw [ht]
      by_cases hp : p.isEmpty = true <;> simp [hp]
    | ofTU T' => rw [hM, hM'] at hs; exact absurd hs (by simp [Module.SameButImports])
  | ofTU T =>
    cases hM' : H'.Modules r with
    | ofBuiltin B' => rw [hM, hM'] at hs; exact absurd hs (by simp [Module.SameButImports])
    | ofTU T' =>
      rw [hM, hM'] at hs
      have hc : getTUCachePimpl T'.LookupCachePimpl T' = getTUCachePimpl T.LookupCachePimpl T := by
        rw [← hs.2.2.1]
        cases T.LookupCachePimpl with
        | none => exact TUModuleCache.ctor_congr T T' hs.2.1.symm
        | some C => rfl
      simp only [hc]
      cases TUModuleCache.lookupType (getTUCachePimpl T.LookupCachePimpl T) p n k <;> rfl

theorem Module.localValues_sameButImports (Ctx : ASTContext) {H H' : Heap}
    (h : H.SameButImports H') (r : ModuleRef) (p : AccessPathTy) (n : Identifier)
    (k : NLKind) : Module.localValues Ctx H' r p n k = Module.localValues Ctx H r p n k := by
  have hs := h.2 r
  unfold Module.localValues Module.lookupValue
  cases hM : H.Modules r with
  | ofBuiltin B =>
    cases hM' : H'.Modules r with
    | ofBuiltin B' =>
      rw [hM, hM'] at hs
      simp only [Module.SameButImports] at hs
      subst hs
      by_cases hp : p.isEmpty = true <;> simp [hp]
    | ofTU T' => rw [hM, hM'] at hs; exact absurd hs (by simp [Module.SameButImports])
  | ofTU T =>
    cases hM' : H'.Modules r with
    | ofBuiltin B' => rw [hM, hM'] at hs; exact absurd hs (by simp [Module.SameButImports])
    | ofTU T' =>
      rw [hM, hM'] at hs
      have hc : getTUCachePimpl T'.LookupCachePimpl T' = getTUCachePimpl T.LookupCachePimpl T := by
        rw [← hs.2.2.1]
        cases T.LookupCachePimpl with
        | none => exact TUModuleCache.ctor_congr T T' hs.2.1.symm
        | some C => rfl
      simp only [hc]
      cases TUModuleCache.lookupValue (getTUCachePimpl T.LookupCachePimpl T) p n k [] <;> rfl

theorem firstHit_map_filter {α β : Type} (f : α → Option β) (keep : α → Bool) (l : List α)
    (h : ∀ a ∈ l, keep a = false → f a = none) :
    firstHit (l.map f) = firstHit ((l.filter keep).map f) := by
  induction l with
  | nil => rfl
  | cons a l ih =>
    have ih' := ih (fun b hb => h b (List.mem_cons_of_mem _ hb))
    by_cases hk : keep a = true
    · simp only [List.map_cons, List.filter_cons, hk, if_true]
      cases hfa : f a with
      | none => simpa [firstHit] using ih'
      | some b => simp [firstHit]
    · have hk' : keep a = false := by simpa using hk
      have hfa := h a (List.mem_cons_self _ _) hk'
      simp only [List.map_cons, List.filter_cons, hk', hfa]
      simpa [firstHit] using ih'

theorem firstNonEmpty_map_filter {α β : Type} (f : α → List β) (keep : α → Bool) (l : List α)
    (h : ∀ a ∈ l, keep a = false → f a = []) :
    firstNonEmpty (l.map f) = firstNonEmpty ((l.filter keep).map f) := by
  induction l with
  | nil => rfl
  | cons a l ih =>
    have ih' := ih (fun b hb => h b (List.mem_cons_of_mem _ hb))
    by_cases hk : keep a = true
    · simp only [List.map_cons, List.filter_cons, hk, if_true]
      cases hfa : f a with
      | nil => simpa [firstNonEmpty] using ih'
      | cons b bs => simp [firstNonEmpty]
    · have hk' : keep a = false := by simpa using hk
      have hfa := h a (List.mem_cons_self _ _) hk'
      simp only [List.map_cons, List.filter_cons, hk', hfa]
      simpa [firstNonEmpty] using ih'

/-- The builtin module answers no unqualified local lookup. -/
theorem Module.local_unqualified_builtin (Ctx : ASTContext) (H : Heap) (r : ModuleRef)
    (p : AccessPathTy) (n : Identifier) (hB : (H.Modules r).isBuiltin = true) :
    Module.localType Ctx H r p n .UnqualifiedLookup = none ∧
      Module.localValues Ctx H r p n .UnqualifiedLookup = [] := by
  cases hM : H.Modules r with
  | ofTU TU => simp [hM, Module.isBuiltin] at hB
  | ofBuiltin BM =>
    unfold Module.localType Module.localValues Module.lookupType Module.lookupValue
    rw [hM]
    by_cases hp : p.isEmpty = true
    · simp [hp, BuiltinModuleCache.lookupType, BuiltinModuleCache.lookupValue]
    · simp [hp]

theorem Heap.setImports_TU (H : Heap) (this : ModuleRef) (TU : TranslationUnit)
    (Imports : List (AccessPathTy × ModuleRef)) (hM : H.Modules this = .ofTU TU) :
    (H.setImports this Imports).Modules this = .ofTU { TU with ImportedModules := Imports } := by
  simp [Heap.setImports, Heap.store, hM, Module.withImports]

theorem Heap.SameButImports.importsOK_of {H H' : Heap} (h : H.SameButImports H')
    {Imports : List (AccessPathTy × ModuleRef)} (hI : H.ImportsOK Imports) :
    H'.ImportsOK Imports := by
  intro I hmem
  refine ⟨(hI I hmem).1, fun hb => (hI I hmem).2 ?_⟩
  rw [← (h.2 I.2).isBuiltin_eq]; exact hb

/-! ### Unqualified lookups and the builtin module -/

/-- C16. Unqualified lookups never see built-ins through imports: for a
translation unit whose imports meet the documented preconditions, the
unqualified `lookupGlobalType` and `lookupGlobalValue` return the unit's own
local answer when there is one and otherwise the first answer among the
imports that are not builtin modules; and the same call in the heap where all
builtin modules are removed from the unit's list of imports returns the same
result. -/
theorem unqualified_never_sees_builtins (Ctx : ASTContext) (H : Heap) (this : ModuleRef)
    (TU : TranslationUnit) (n : Identifier) (hM : H.Modules this = .ofTU TU)
    (hI : H.ImportsOK TU.ImportedModules) :
    (∃ H₁ H₂,
      Module.lookupGlobalType Ctx H this n .UnqualifiedLookup
        = .ok (if (Module.localType Ctx H this [] n .UnqualifiedLookup).isSome
               then Module.localType Ctx H this [] n .UnqualifiedLookup
               else firstHit ((H.nonBuiltinImports TU.ImportedModules).map
                 fun I => Module.localType Ctx H I.2 I.1 n .UnqualifiedLookup), H₁) ∧
      Module.lookupGlobalType Ctx
          (H.setImports this (H.nonBuiltinImports TU.ImportedModules)) this n .UnqualifiedLookup
        = .ok (if (Module.localType Ctx H this [] n .UnqualifiedLookup).isSome
               then Module.localType Ctx H this [] n .UnqualifiedLookup
               else firstHit ((H.nonBuiltinImports TU.ImportedModules).map
                 fun I => Module.localType Ctx H I.2 I.1 n .UnqualifiedLookup), H₂)) ∧
    (∃ H₁ H₂,
      Module.lookupGlobalValue Ctx H this n .UnqualifiedLookup []
        = .ok (if !(Module.localValues Ctx H this [] n .UnqualifiedLookup).isEmpty
               then Module.localValues Ctx H this [] n .UnqualifiedLookup
               else firstNonEmpty ((H.nonBuiltinImports TU.ImportedModules).map
                 fun I => Module.localValues Ctx H I.2 I.1 n .UnqualifiedLookup), H₁) ∧
      Module.lookupGlobalValue Ctx
          (H.setImports this (H.nonBuiltinImports TU.ImportedModules)) this n
          .UnqualifiedLookup []
        = .ok (if !(Module.localValues Ctx H this [] n .UnqualifiedLookup).isEmpty
               then Module.localValues Ctx H this [] n .UnqualifiedLookup
               else firstNonEmpty ((H.nonBuiltinImports TU.ImportedModules).map
                 fun I => Module.localValues Ctx H I.2 I.1 n .UnqualifiedLookup), H₂)) := by
  have hsame := Heap.sameButImports_setImports H this (H.nonBuiltinImports TU.ImportedModules)
  have hM' := Heap.setImports_TU H this TU (H.nonBuiltinImports TU.ImportedModules) hM
  have hI₀ : H.ImportsOK (H.Modules this).importedModules := by rw [hM]; exact hI
  have hI' : (H.setImports this (H.nonBuiltinImports TU.ImportedModules)).ImportsOK
      ((H.setImports this (H.nonBuiltinImports TU.ImportedModules)).Modules
        this).importedModules := by
    rw [hM']
    apply hsame.importsOK_of
    intro I hmem
    exact hI I (List.mem_of_mem_filter hmem)
  have hkeep : ∀ I ∈ TU.ImportedModules, (!(H.Modules I.2).isBuiltin) = false →
      Module.localType Ctx H I.2 I.1 n .UnqualifiedLookup = none ∧
        Module.localValues Ctx H I.2 I.1 n .UnqualifiedLookup = [] := by
    intro I _ hk
    exact Module.local_unqualified_builtin Ctx H I.2 I.1 n (by simpa using hk)
  constructor
  · obtain ⟨H₁, e₁⟩ := Module.lookupGlobalType_eq Ctx H this n .UnqualifiedLookup hI₀
    obtain ⟨H₂, e₂⟩ := Module.lookupGlobalType_eq Ctx _ this n .UnqualifiedLookup hI'
    refine ⟨H₁, H₂, ?_, ?_⟩
    · rw [e₁, hM]
      have hf := firstHit_map_filter
        (fun I : AccessPathTy × ModuleRef => Module.localType Ctx H I.2 I.1 n .UnqualifiedLookup)
        (fun I => !(H.Modules I.2).isBuiltin) TU.ImportedModules
        (fun I hmem hk => (hkeep I hmem hk).1)
      simp only [Module.isBuiltin, Bool.or_false, Module.importedModules,
        TranslationUnit.getImportedModules, hf, Heap.nonBuiltinImports]
    · rw [e₂, hM']
      simp only [Module.isBuiltin, Bool.or_false, Module.importedModules,
        TranslationUnit.getImportedModules, Module.localType_sameButImports Ctx hsame]
  · obtain ⟨H₁, e₁⟩ := Module.lookupGlobalValue_eq Ctx H this n .UnqualifiedLookup hI₀
    obtain ⟨H₂, e₂⟩ := Module.lookupGlobalValue_eq Ctx _ this n .UnqualifiedLookup hI'
    refine ⟨H₁, H₂, ?_, ?_⟩
    · rw [e₁, hM]
      have hf := firstNonEmpty_map_filter
        (fun I : AccessPathTy × ModuleRef =>
          Module.localValues Ctx H I.2 I.1 n .UnqualifiedLookup)
        (fun I => !(H.Modules I.2).isBuiltin) TU.ImportedModules
        (fun I hmem hk => (hkeep I hmem hk).2)
      simp only [Module.isBuiltin, Bool.or_false, Module.importedModules,
        TranslationUnit.getImportedModules, hf, Heap.nonBuiltinImports]
    · rw [e₂, hM']
      simp only [Module.isBuiltin, Bool.or_false, Module.importedModules,
        TranslationUnit.getImportedModules, Module.localValues_sameButImports Ctx hsame]

/-- Witness of C16 on module M of the example heap, which imports A, B and the
builtin module: the unqualified lookups of `Int64` and `trunc`, which the
builtin module can synthesize, find nothing, with the builtin import or
without it. -/
theorem unqualified_never_sees_builtins_witness :
    exHeap.nonBuiltinImports exM.ImportedModules = [([], 1), ([], 2)] ∧
    (∃ H₁, Module.lookupGlobalType exCtx exHeap 3 "Int64" .UnqualifiedLookup = .ok (none, H₁)) ∧
    (∃ H₂, Module.lookupGlobalType exCtx
        (exHeap.setImports 3 (exHeap.nonBuiltinImports exM.ImportedModules)) 3 "Int64"
        .UnqualifiedLookup = .ok (none, H₂)) ∧
    (∃ H₁, Module.lookupGlobalValue exCtx exHeap 3 "trunc" .UnqualifiedLookup []
      = .ok ([], H₁)) := by
  obtain ⟨⟨H₁, H₂, e₁, e₂⟩, _⟩ := unqualified_never_sees_builtins exCtx exHeap 3 exM "Int64"
    rfl (by unfold Heap.ImportsOK; decide)
  obtain ⟨_, ⟨H₃, _, e₃, _⟩⟩ := unqualified_never_sees_builtins exCtx exHeap 3 exM "trunc"
    rfl (by unfold Heap.ImportsOK; decide)
  exact ⟨by decide, ⟨H₁, e₁⟩, ⟨H₂, e₂⟩, ⟨H₃, e₃⟩⟩

/-! ### The indexes are rebuilt only after an invalidation -/

theorem TUModuleCache.ofBody_types (B : List ExprStmtOrDecl) (n : Identifier) :
    (TUModuleCache.ofBody B).TopLevelTypes.find n
      = if n.empty then none else (typesNamedIn B n).getLast? := by
  simp [TUModuleCache.ofBody, TUModuleCache.foldl_types, DenseMap.find_empty]

theorem TUModuleCache.ofBody_values (B : List ExprStmtOrDecl) (n : Identifier) :
    ((TUModuleCache.ofBody B).TopLevelValues.find n).getD []
      = if n.empty then [] else valuesNamedIn B n := by
  simp [TUModuleCache.ofBody, TUModuleCache.foldl_values, DenseMap.find_empty]

theorem TUExtensionCache.ofBody_getExtensions (B : List ExprStmtOrDecl) (T : CanType) :
    (TUExtensionCache.ofBody B).getExtensions T = extensionsIn B T := by
  have h := TUExtensionCache.foldl_find B ⟨DenseMap.empty⟩ T
  simp only [DenseMap.find_empty, Option.getD_none, List.nil_append] at h
  unfold TUExtensionCache.getExtensions TUExtensionCache.ofBody
  rw [← h]
  cases (List.foldl TUExtensionCache.addElement ⟨DenseMap.empty⟩ B).Extensions.find T <;> rfl

theorem getTUCachePimpl_ofBody (TU : TranslationUnit) (o : Option (List ExprStmtOrDecl))
    (h : TU.LookupCachePimpl = o.map TUModuleCache.ofBody) :
    getTUCachePimpl TU.LookupCachePimpl TU = TUModuleCache.ofBody (o.getD TU.Body) := by
  rw [h]
  cases o <;> rfl

theorem getTUExtensionCachePimpl_ofBody (TU : TranslationUnit)
    (o : Option (List ExprStmtOrDecl))
    (h : TU.ExtensionCachePimpl = o.map TUExtensionCache.ofBody) :
    getTUExtensionCachePimpl TU.ExtensionCachePimpl TU
      = TUExtensionCache.ofBody (o.getD TU.Body) := by
  rw [h]
  cases o <;> rfl

theorem AccessPathTy.filtersOut_toList (p : Option (Identifier × SourceLoc)) (n : Identifier) :
    AccessPathTy.filtersOut p.toList n = IndexSpec.scopedToOther p n := by
  cases p <;> rfl

theorem Option.toList_length_le_one {α : Type} (p : Option α) : p.toList.length ≤ 1 := by
  cases p <;> simp

/-- One event: the code answers as the specification's index machine does, and
leaves the translation unit in the state the machine describes. -/
theorem Heap.perform_refines (Ctx : ASTContext) (H : Heap) (r : ModuleRef) (s : IndexSpec)
    (ev : Event) (hR : H.Refines Ctx r s) :
    ∃ H', H.perform Ctx r ev = .ok ((s.step ev).1, H') ∧ H'.Refines Ctx r (s.step ev).2 := by
  obtain ⟨TU, hM, hs, hB, hL, hE⟩ := hR
  obtain ⟨decls, tl, ex⟩ := s
  simp only at hB hL hE
  subst hB
  cases ev with
  | lookupType p n k =>
    have e := Module.lookupType_TU Ctx H r TU p.toList n k hM (Option.toList_length_le_one p)
    rw [getTUCachePimpl_ofBody TU tl hL, TUModuleCache.ofBody_types,
      AccessPathTy.filtersOut_toList] at e
    refine ⟨H.store r (.ofTU ⟨TU.ASTStage, TU.Body, TU.ImportedModules,
      some (TUModuleCache.ofBody (tl.getD TU.Body)),
      TU.ExtensionCachePimpl⟩), ?_, ?_⟩
    · simp only [Heap.perform, e, IndexSpec.step]
      by_cases h1 : IndexSpec.scopedToOther p n = true <;>
        by_cases h2 : n.empty = true <;> simp [h1, h2]
    · exact ⟨_, Heap.store_self H r _, hs, rfl, rfl, hE⟩
  | lookupValue p n k R =>
    have e := Module.lookupValue_TU Ctx H r TU p.toList n k R hM
      (Option.toList_length_le_one p)
    rw [getTUCachePimpl_ofBody TU tl hL, TUModuleCache.ofBody_values,
      AccessPathTy.filtersOut_toList] at e
    refine ⟨H.store r (.ofTU ⟨TU.ASTStage, TU.Body, TU.ImportedModules,
      some (TUModuleCache.ofBody (tl.getD TU.Body)),
      TU.ExtensionCachePimpl⟩), ?_, ?_⟩
    · simp only [Heap.perform, e, IndexSpec.step]
      by_cases h1 : IndexSpec.scopedToOther p n = true <;>
        by_cases h2 : n.empty = true <;> simp [h1, h2]
    · exact ⟨_, Heap.store_self H r _, hs, rfl, rfl, hE⟩
  | lookupExtensions T =>
    have hs' : (Module.ofTU TU).ASTStage ≥ Ctx.Parsed := hs
    have e : Module.lookupExtensions Ctx H r T
        = .ok (extensionsIn (ex.getD TU.Body) T.getCanonicalType,
            H.store r (.ofTU ⟨TU.ASTStage, TU.Body, TU.ImportedModules, TU.LookupCachePimpl,
              some (TUExtensionCache.ofBody (ex.getD TU.Body))⟩)) := by
      unfold Module.lookupExtensions
      rw [hM]
      simp only [hs', not_true_eq_false, if_false]
      rw [getTUExtensionCachePimpl_ofBody TU ex hE, TUExtensionCache.ofBody_getExtensions]
    refine ⟨H.store r (.ofTU ⟨TU.ASTStage, TU.Body, TU.ImportedModules, TU.LookupCachePimpl,
      some (TUExtensionCache.ofBody (ex.getD TU.Body))⟩), ?_, ?_⟩
    · simp only [Heap.perform, e, IndexSpec.step]
    · exact ⟨_, Heap.store_self H r _, hs, rfl, hL, rfl⟩
  | setBody Body =>
    refine ⟨H.setBody r Body, rfl, ?_⟩
    refine ⟨⟨TU.ASTStage, Body, TU.ImportedModules, TU.LookupCachePimpl,
      TU.ExtensionCachePimpl⟩, ?_, hs, rfl, hL, hE⟩
    unfold Heap.setBody
    rw [hM]
    exact Heap.store_self H r _
  | clearLookupCache =>
    refine ⟨H.clearLookupCache r, rfl, ?_⟩
    exact ⟨TU.clearLookupCache, Heap.clearLookupCache_TU H r TU hM, hs, rfl, rfl, rfl⟩

/-- C17. A rebuild requires full invalidation: on a translation unit, any
sequence of local lookups, changes of the declaration list and invalidations
is answered by the code exactly as by the specification's index machine
`IndexSpec`: each lookup answers from the declaration list as it stood when
the index it uses was built (at the first lookup after creation or after the
last `clearLookupCache`); a change of the declaration list is not reflected
while the index stays built; after `clearLookupCache` the next lookup builds
the index from the current declaration list. -/
theorem rebuild_requires_invalidation (Ctx : ASTContext) (r : ModuleRef) (evs : List Event)
    (H : Heap) (s : IndexSpec) (hR : H.Refines Ctx r s) :
    ∃ H', Heap.performAll Ctx r H evs = .ok ((s.run evs).1, H') ∧
      H'.Refines Ctx r (s.run evs).2 := by
  induction evs generalizing H s with
  | nil => exact ⟨H, rfl, hR⟩
  | cons ev evs ih =>
    obtain ⟨H₁, e₁, hR₁⟩ := Heap.perform_refines Ctx H r s ev hR
    obtain ⟨H₂, e₂, hR₂⟩ := ih H₁ (s.step ev).2 hR₁
    refine ⟨H₂, ?_, hR₂⟩
    simp only [Heap.performAll, e₁, e₂, IndexSpec.run]

/-- Witness of C17 on module A of the example heap: its declaration list is
replaced after a first lookup; the lookups made before `clearLookupCache`
still answer from the old list, those made after it answer from the new
list. -/
theorem rebuild_requires_invalidation_witness :
    (IndexSpec.run ⟨exA.Body, none, none⟩ exEvents).1 = exAnswers ∧
    ∃ H', Heap.performAll exCtx 1 exHeap exEvents = .ok (exAnswers, H') := by
  obtain ⟨H', e, _⟩ := rebuild_requires_invalidation exCtx 1 exEvents exHeap
    ⟨exA.Body, none, none⟩ ⟨exA, rfl, by decide, rfl, rfl, rfl⟩
  exact ⟨rfl, H', e⟩

/-! ### The result buffer of the local value lookup -/

/-- C18. Local `lookupValue` only appends: for every module, access path, name,
kind and initial result `R`, a call that meets the documented preconditions
returns `R` followed by the declarations found, and whenever the call returns
its result is `R` followed by the declarations found. For a translation unit
with a current cache the declarations found are the unit's whole overload set
for the name, in order, and nothing when the access-path filter rejects the
name or the name is empty; for a builtin module they are at most one
declaration. So `R` is kept as a prefix, and the result is `R` itself when
nothing is found. -/
theorem lookupValue_only_appends (Ctx : ASTContext) (H : Heap) (r : ModuleRef)
    (p : AccessPathTy) (n : Identifier) (k : NLKind) (R : List ValueDecl) :
    (p.length ≤ 1 → ((H.Modules r).isBuiltin = true → p = []) →
      ∃ H', Module.lookupValue Ctx H r p n k R
        = .ok (R ++ Module.localValues Ctx H r p n k, H')) ∧
    (∀ R' H', Module.lookupValue Ctx H r p n k R = .ok (R', H') →
      R' = R ++ Module.localValues Ctx H r p n k) ∧
    (∀ TU, H.Modules r = .ofTU TU → TU.LookupCacheCurrent → p.length ≤ 1 →
      Module.localValues Ctx H r p n k
        = if p.filtersOut n || n.empty then [] else TU.valuesNamed n) ∧
    ((H.Modules r).isBuiltin = true → (Module.localValues Ctx H r p n k).length ≤ 1) := by
  have ok : p.length ≤ 1 → ((H.Modules r).isBuiltin = true → p = []) →
      ∃ H', Module.lookupValue Ctx H r p n k R
        = .ok (R ++ Module.localValues Ctx H r p n k, H') := by
    intro hp hb
    obtain ⟨H₂, e, _⟩ := Module.lookupValue_ok Ctx H r p n k R hp hb
    exact ⟨H₂, e⟩
  refine ⟨ok, ?_, ?_, ?_⟩
  · intro R' H' e
    cases hM : H.Modules r with
    | ofTU TU =>
      by_cases hp : p.length ≤ 1
      · obtain ⟨H₂, e₂⟩ := ok hp (by simp [hM, Module.isBuiltin])
        rw [e₂] at e
        simp only [Except.ok.injEq, Prod.mk.injEq] at e
        exact e.1.symm
      · unfold Module.lookupValue at e
        rw [hM] at e
        simp [TUModuleCache.lookupValue, hp] at e
    | ofBuiltin BM =>
      by_cases hp : p.isEmpty = true
      · have hp0 : p = [] := by simpa using hp
        obtain ⟨H₂, e₂⟩ := ok (by simp [hp0]) (fun _ => hp0)
        rw [e₂] at e
        simp only [Except.ok.injEq, Prod.mk.injEq] at e
        exact e.1.symm
      · unfold Module.lookupValue at e
        rw [hM] at e
        simp [hp] at e
  · intro TU hM hc hp
    exact Module.localValues_TU Ctx H r TU p n k hM hp hc
  · intro hB
    cases hM : H.Modules r with
    | ofTU TU => simp [hM, Module.isBuiltin] at hB
    | ofBuiltin BM =>
      unfold Module.localValues Module.lookupValue
      rw [hM]
      by_cases hp : p.isEmpty = true
      · simp only [hp, not_true_eq_false, if_false]
        rw [BuiltinModuleCache.lookupValue_fst]
        by_cases hk : k = NLKind.QualifiedLookup
        · cases he : (getBuiltinCachePimpl BM.LookupCachePimpl).entry n with
          | none => cases hv : Ctx.getBuiltinValue n <;> simp [hk, hv]
          | some D =>
            cases hd : NamedDecl.dyn_cast_or_null_ValueDecl (some D) <;> simp [hk, hd]
        · simp [hk]
      · simp [hp]

/-- Witness of C18 on the example heap: with the buffer `[z]`, the lookup of `f`
in module M returns `z` followed by the two `f`, the lookup of `trunc` in the
builtin module returns `z` followed by `trunc`, and a lookup rejected by the
access-path filter returns `[z]`. -/
theorem lookupValue_only_appends_witness :
    (∃ H', Module.lookupValue exCtx exHeap 3 [] "f" .QualifiedLookup [⟨1, "z"⟩]
      = .ok ([⟨1, "z"⟩, ⟨30, "f"⟩, ⟨32, "f"⟩], H')) ∧
    (∃ H', Module.lookupValue exCtx exHeap 0 [] "trunc" .QualifiedLookup [⟨1, "z"⟩]
      = .ok ([⟨1, "z"⟩, ⟨900, "trunc"⟩], H')) ∧
    (∃ H', Module.lookupValue exCtx exHeap 3 [("g", 1)] "f" .QualifiedLookup [⟨1, "z"⟩]
      = .ok ([⟨1, "z"⟩], H')) :=
  ⟨(lookupValue_only_appends exCtx exHeap 3 [] "f" .QualifiedLookup [⟨1, "z"⟩]).1
      (by decide) (by decide),
    (lookupValue_only_appends exCtx exHeap 0 [] "trunc" .QualifiedLookup [⟨1, "z"⟩]).1
      (by decide) (by decide),
    (lookupValue_only_appends exCtx exHeap 3 [("g", 1)] "f" .QualifiedLookup [⟨1, "z"⟩]).1
      (by decide) (by decide)⟩

/-! ### Extension lookups do not read access paths -/

theorem Heap.sameButImports_store {H H' : Heap} (h : H.SameButImports H') (r : ModuleRef)
    {M M' : Module} (hM : M.SameButImports M') :
    (H.store r M).SameButImports (H'.store r M') := by
  refine ⟨h.1, fun r' => ?_⟩
  by_cases hr : r' = r
  · simpa [Heap.store, hr] using hM
  · simpa [Heap.store, hr] using h.2 r'

theorem Module.SameButImports.stage_eq {M M' : Module} (h : M.SameButImports M') :
    M'.ASTStage = M.ASTStage := by
  cases M <;> cases M' <;> simp_all [Module.SameButImports, Module.ASTStage]

/-- In heaps that are the same but for lists of imports, `lookupExtensions`
has the same outcome. -/
theorem Module.lookupExtensions_agree (Ctx : ASTContext) {H H' : Heap}
    (h : H.SameButImports H') (r : ModuleRef) (T : TypeBase) :
    Outcome.Agree (Module.lookupExtensions Ctx H r T) (Module.lookupExtensions Ctx H' r T) := by
  have hs := h.2 r
  have hst := hs.stage_eq
  unfold Module.lookupExtensions
  rw [hst]
  by_cases hp : (H.Modules r).ASTStage ≥ Ctx.Parsed
  · simp only [hp, not_true_eq_false, if_false]
    cases hM : H.Modules r with
    | ofBuiltin B =>
      cases hM' : H'.Modules r with
      | ofBuiltin B' => exact ⟨rfl, h⟩
      | ofTU T' => rw [hM, hM'] at hs; exact absurd hs (by simp [Module.SameButImports])
    | ofTU TU =>
      cases hM' : H'.Modules r with
      | ofBuiltin B' => rw [hM, hM'] at hs; exact absurd hs (by simp [Module.SameButImports])
      | ofTU TU' =>
        rw [hM, hM'] at hs
        have hc : getTUExtensionCachePimpl TU'.ExtensionCachePimpl TU'
            = getTUExtensionCachePimpl TU.ExtensionCachePimpl TU := by
          rw [← hs.2.2.2]
          cases TU.ExtensionCachePimpl with
          | none => exact TUExtensionCache.ctor_congr_body TU TU' hs.2.1.symm
          | some C => rfl
        simp only [hc]
        refine ⟨rfl, Heap.sameButImports_store h r ?_⟩
        exact ⟨hs.1, hs.2.1, hs.2.2.1, rfl⟩
  · simp only [hp, not_false_eq_true, if_true]
    rfl

/-- The import loop of `lookupGlobalExtensionMethods` has the same outcome on
two lists of imports that name the same modules in the same order, whatever
the access paths. -/
theorem Module.lookupGlobalExtensionMethods.scrape_agree (Ctx : ASTContext) (T : TypeBase)
    (n : Identifier) (Is Is' : List (AccessPathTy × ModuleRef))
    (hIs : List.Forall₂ (fun I I' => I.2 = I'.2) Is Is') (H H' : Heap)
    (h : H.SameButImports H') (R : List ValueDecl) :
    Outcome.Agree (Module.lookupGlobalExtensionMethods.scrape Ctx T n Is H R)
      (Module.lookupGlobalExtensionMethods.scrape Ctx T n Is' H' R) := by
  induction hIs generalizing H H' R with
  | nil => exact ⟨rfl, h⟩
  | @cons I I' Rest Rest' hI _ ih =>
    unfold Module.lookupGlobalExtensionMethods.scrape
    have ha := Module.lookupExtensions_agree Ctx h I.2 T
    rw [← hI]
    cases h₁ : Module.lookupExtensions Ctx H I.2 T with
    | error e =>
      cases h₂ : Module.lookupExtensions Ctx H' I.2 T with
      | error e' =>
        rw [h₁, h₂] at ha
        exact ha
      | ok out' => rw [h₁, h₂] at ha; exact absurd ha (by simp [Outcome.Agree])
    | ok out =>
      cases h₂ : Module.lookupExtensions Ctx H' I.2 T with
      | error e' => rw [h₁, h₂] at ha; exact absurd ha (by simp [Outcome.Agree])
      | ok out' =>
        obtain ⟨EDs, H₁⟩ := out
        obtain ⟨EDs', H₁'⟩ := out'
        rw [h₁, h₂] at ha
        obtain ⟨hEDs, hH⟩ := ha
        subst hEDs
        simp only
        by_cases hemp : (Module.lookupGlobalExtensionMethods.collect n EDs R).isEmpty = true
        · simp only [hemp, Bool.not_true, Bool.false_eq_true, if_false]
          exact ih H₁ H₁' hH _
        · simp only [hemp, Bool.not_false, if_true]
          exact ⟨rfl, hH⟩

theorem Module.Similar.importedModules_eq {M M' : Module} (h : M.Similar M') :
    M'.importedModules = M.importedModules := by
  cases M <;> cases M' <;>
    simp_all [Module.Similar, Module.importedModules, TranslationUnit.getImportedModules]

/-- A `lookupExtensions` that returns leaves a heap that answers every lookup
as before. -/
theorem Module.lookupExtensions_similar (Ctx : ASTContext) (H H₁ : Heap) (r : ModuleRef)
    (T : TypeBase) (EDs : List ExtensionDecl)
    (e : Module.lookupExtensions Ctx H r T = .ok (EDs, H₁)) :
    H.Similar H₁ ∧ EDs = Module.localExtensions Ctx H r T := by
  by_cases hs : (H.Modules r).ASTStage ≥ Ctx.Parsed
  · obtain ⟨H₂, e₂, hsim⟩ := Module.lookupExtensions_ok Ctx H r T hs
    rw [e₂] at e
    simp only [Except.ok.injEq, Prod.mk.injEq] at e
    rw [← e.2, ← e.1]
    exact ⟨hsim, rfl⟩
  · unfold Module.lookupExtensions at e
    simp [hs] at e

/-- The global extension member lookup in terms of the local answers in the
starting heap. -/
theorem Module.lookupGlobalExtensionMethods_eq (Ctx : ASTContext) (H : Heap)
    (this : ModuleRef) (TU : TranslationUnit) (T : TypeBase) (n : Identifier)
    (hM : H.Modules this = .ofTU TU) (hs : TU.ASTStage ≥ Ctx.Parsed)
    (hP : H.ImportsParsed Ctx TU.ImportedModules) :
    ∃ H', Module.lookupGlobalExtensionMethods Ctx H this T n []
      = .ok (if !(Module.localExtensionMethods Ctx H this T n).isEmpty
             then Module.localExtensionMethods Ctx H this T n
             else firstNonEmpty (TU.ImportedModules.map
               fun I => Module.localExtensionMethods Ctx H I.2 T n), H') := by
  have hs' : (H.Modules this).ASTStage ≥ Ctx.Parsed := by rw [hM]; exact hs
  obtain ⟨H₂, e, hsim⟩ := Module.lookupExtensions_ok Ctx H this T hs'
  have hm := hsim.2 this
  have hdef : (Module.localExtensions Ctx H this T).flatMap
      (fun ED => ED.memberValuesNamed n) = Module.localExtensionMethods Ctx H this T n := rfl
  cases hM₂ : H₂.Modules this with
  | ofBuiltin BM₂ => rw [hM, hM₂] at hm; exact absurd hm (by simp [Module.Similar])
  | ofTU TU₂ =>
    rw [hM, hM₂] at hm
    have himp : TU₂.getImportedModules = TU.ImportedModules := hm.2.2.1.symm
    obtain ⟨H', e'⟩ := Module.lookupGlobalExtensionMethods.scrape_ext_eq Ctx T n
      TU.ImportedModules H H₂ hsim hP
    cases hl : Module.localExtensionMethods Ctx H this T n with
    | nil =>
      refine ⟨H', ?_⟩
      unfold Module.lookupGlobalExtensionMethods
      rw [e]
      simp only [Module.lookupGlobalExtensionMethods.collect_eq, List.nil_append]
      rw [hdef, hl]
      simp [hM₂, Module.isBuiltin, himp, e']
    | cons VD Vs =>
      refine ⟨H₂, ?_⟩
      unfold Module.lookupGlobalExtensionMethods
      rw [e]
      simp only [Module.lookupGlobalExtensionMethods.collect_eq, List.nil_append]
      rw [hdef, hl]
      simp

/-- C19. Extension-member lookup through imports ignores the access path of the
import: for a translation unit, replacing its list of imports by any list
that names the same modules in the same order, with any access paths, leaves
the outcome of `lookupGlobalExtensionMethods` unchanged (same result, or same
failed assertion). In particular, when the unit has no matching member of its
own and its only import is a translation unit `N` restricted to a symbol
`Foo`, the members named `n` of the extensions of `N` are still returned,
whatever `Foo` is. -/
theorem extension_lookup_ignores_access_path (Ctx : ASTContext) (H : Heap)
    (this : ModuleRef) (TU : TranslationUnit) (T : TypeBase) (n : Identifier)
    (hM : H.Modules this = .ofTU TU) :
    (∀ (Is' : List (AccessPathTy × ModuleRef)) (R : List ValueDecl),
      List.Forall₂ (fun I I' => I.2 = I'.2) TU.ImportedModules Is' →
      (∀ R' H₁, Module.lookupGlobalExtensionMethods Ctx H this T n R = .ok (R', H₁) →
        ∃ H₂, Module.lookupGlobalExtensionMethods Ctx (H.setImports this Is') this T n R
          = .ok (R', H₂)) ∧
      (∀ e, Module.lookupGlobalExtensionMethods Ctx H this T n R = .error e →
        Module.lookupGlobalExtensionMethods Ctx (H.setImports this Is') this T n R
          = .error e)) ∧
    (∀ (N : ModuleRef) (TN : TranslationUnit) (Foo : Identifier) (loc : SourceLoc),
      TU.ImportedModules = [([(Foo, loc)], N)] → H.Modules N = .ofTU TN →
      TU.ASTStage ≥ Ctx.Parsed → TN.ASTStage ≥ Ctx.Parsed →
      TU.ExtensionCacheCurrent → TN.ExtensionCacheCurrent →
      TU.extensionMembersNamed T n = [] →
      ∃ H', Module.lookupGlobalExtensionMethods Ctx H this T n []
        = .ok (TN.extensionMembersNamed T n, H')) := by
  constructor
  · intro Is' R hIs
    have hsame := Heap.sameButImports_setImports H this Is'
    have hM' := Heap.setImports_TU H this TU Is' hM
    have key : Outcome.Agree (Module.lookupGlobalExtensionMethods Ctx H this T n R)
        (Module.lookupGlobalExtensionMethods Ctx (H.setImports this Is') this T n R) := by
      unfold Module.lookupGlobalExtensionMethods
      by_cases hR : R.isEmpty = true
      · simp only [hR, not_true_eq_false, if_false]
        have ha := Module.lookupExtensions_agree Ctx hsame this T
        cases h₁ : Module.lookupExtensions Ctx H this T with
        | error e =>
          cases h₂ : Module.lookupExtensions Ctx (H.setImports this Is') this T with
          | error e' => rw [h₁, h₂] at ha; exact ha
          | ok out' => rw [h₁, h₂] at ha; exact absurd ha (by simp [Outcome.Agree])
        | ok out =>
          cases h₂ : Module.lookupExtensions Ctx (H.setImports this Is') this T with
          | error e' => rw [h₁, h₂] at ha; exact absurd ha (by simp [Outcome.Agree])
          | ok out' =>
            obtain ⟨EDs, H₁⟩ := out
            obtain ⟨EDs', H₁'⟩ := out'
            rw [h₁, h₂] at ha
            obtain ⟨hEDs, hH⟩ := ha
            subst hEDs
            have hi₁ := (Module.lookupExtensions_similar Ctx H H₁ this T EDs h₁).1.2 this
            have hi₂ := (Module.lookupExtensions_similar Ctx _ H₁' this T EDs h₂).1.2 this
            have hb := (hH.2 this).isBuiltin_eq
            simp only
            rw [hb]
            by_cases hdone : (!(Module.lookupGlobalExtensionMethods.collect n EDs R).isEmpty
                || (H₁.Modules this).isBuiltin) = true
            · rw [if_pos hdone, if_pos hdone]
              exact ⟨rfl, hH⟩
            · rw [if_neg hdone, if_neg hdone]
              rw [hM] at hi₁
              rw [hM'] at hi₂
              cases hM₁ : H₁.Modules this with
              | ofBuiltin B => rw [hM₁] at hi₁; exact absurd hi₁ (by simp [Module.Similar])
              | ofTU TU₁ =>
                cases hM₁' : H₁'.Modules this with
                | ofBuiltin B => rw [hM₁'] at hi₂; exact absurd hi₂ (by simp [Module.Similar])
                | ofTU TU₁' =>
                  rw [hM₁] at hi₁
                  rw [hM₁'] at hi₂
                  have e₁ : TU₁.getImportedModules = TU.ImportedModules := hi₁.2.2.1.symm
                  have e₂ : TU₁'.getImportedModules = Is' := hi₂.2.2.1.symm
                  simp only [e₁, e₂]
                  exact Module.lookupGlobalExtensionMethods.scrape_agree Ctx T n _ _ hIs
                    H₁ H₁' hH _
      · simp only [hR, not_false_eq_true, if_true]
        rfl
    constructor
    · intro R' H₁ e
      rw [e] at key
      cases h₂ : Module.lookupGlobalExtensionMethods Ctx (H.setImports this Is') this T n R with
      | error e' => rw [h₂] at key; exact absurd key (by simp [Outcome.Agree])
      | ok out =>
        rw [h₂] at key
        obtain ⟨R₂, H₂⟩ := out
        exact ⟨H₂, by rw [key.1]⟩
    · intro e he
      rw [he] at key
      cases h₂ : Module.lookupGlobalExtensionMethods Ctx (H.setImports this Is') this T n R with
      | error e' =>
        rw [h₂] at key
        have : e = e' := key
        rw [this]
      | ok out => rw [h₂] at key; exact absurd key (by simp [Outcome.Agree])
  · intro N TN Foo loc himp hN hs hsN hc hcN hloc
    have hP : H.ImportsParsed Ctx TU.ImportedModules := by
      intro I hmem
      rw [himp] at hmem
      simp only [List.mem_singleton] at hmem
      subst hmem
      simp only [hN]
      exact hsN
    obtain ⟨H', e⟩ := Module.lookupGlobalExtensionMethods_eq Ctx H this TU T n hM hs hP
    refine ⟨H', ?_⟩
    rw [e]
    have hl := Module.localExtensionMethods_eq Ctx H this T n (by rw [hM]; exact hs)
      (fun TU' h' => by rw [hM] at h'; cases h'; exact hc)
    have hlN := Module.localExtensionMethods_eq Ctx H N T n (by rw [hN]; exact hsN)
      (fun TU' h' => by rw [hN] at h'; cases h'; exact hcN)
    rw [hM] at hl
    rw [hN] at hlN
    simp only [Module.extensionMembersNamed] at hl hlN
    rw [hl, hloc, himp]
    simp only [List.map_cons, List.map_nil, hlN]
    cases hv : TN.extensionMembersNamed T n <;> simp [firstNonEmpty]

/-- Witness of C19 on module R of the example heap, whose only import is B
restricted to the symbol `N`: the member `bar` of the extension of `Int` in B
is returned, as it is when the import is not restricted. -/
theorem extension_lookup_ignores_access_path_witness :
    (exR.ImportedModules = [([("N", 7)], 2)] ∧
      exB.extensionMembersNamed exInt "bar" = [⟨26, "bar"⟩]) ∧
    (∃ H', Module.lookupGlobalExtensionMethods exCtx exHeap 6 exInt "bar" []
      = .ok (exB.extensionMembersNamed exInt "bar", H')) ∧
    (∃ H₂, Module.lookupGlobalExtensionMethods exCtx (exHeap.setImports 6 [([], 2)]) 6
      exInt "bar" [] = .ok (exB.extensionMembersNamed exInt "bar", H₂)) := by
  have h := extension_lookup_ignores_access_path exCtx exHeap 6 exR exInt "bar" rfl
  obtain ⟨H', e⟩ := h.2 2 exB "N" 7 rfl rfl (by decide) (by decide)
    (exR.extensionCacheCurrent_of_none rfl) (exB.extensionCacheCurrent_of_none rfl)
    (by decide)
  exact ⟨by decide, ⟨H', e⟩,
    (h.1 [([], 2)] [] (List.Forall₂.cons rfl List.Forall₂.nil)).1 _ H' e⟩

/-! ### Results carry the queried name -/

theorem mem_valuesNamedIn (Body : List ExprStmtOrDecl) (n : Identifier) (VD : ValueDecl) :
    VD ∈ valuesNamedIn Body n ↔ ExprStmtOrDecl.ofDecl (.Value VD) ∈ Body ∧ VD.Name = n := by
  unfold valuesNamedIn
  rw [List.mem_filterMap]
  constructor
  · rintro ⟨Elt, hmem, h⟩
    rcases Elt with a | a | D
    · simp at h
    · simp at h
    · rcases D with TAD | V | ⟨a, Ty, Ms⟩ | a
      · simp at h
      · by_cases hc : V.Name = n
        · simp only [hc, if_true, Option.some.injEq] at h
          subst h
          exact ⟨hmem, hc⟩
        · simp [hc] at h
      · simp at h
      · simp at h
  · rintro ⟨hmem, hc⟩
    exact ⟨_, hmem, by simp [hc]⟩

theorem mem_typesNamedIn (Body : List ExprStmtOrDecl) (n : Identifier) (TAD : TypeAliasDecl) :
    TAD ∈ typesNamedIn Body n ↔
      ExprStmtOrDecl.ofDecl (.TypeAlias TAD) ∈ Body ∧ TAD.Name = n := by
  unfold typesNamedIn
  rw [List.mem_filterMap]
  constructor
  · rintro ⟨Elt, hmem, h⟩
    rcases Elt with a | a | D
    · simp at h
    · simp at h
    · rcases D with T | V | ⟨a, Ty, Ms⟩ | a
      · by_cases hc : T.Name = n
        · simp only [hc, if_true, Option.some.injEq] at h
          subst h
          exact ⟨hmem, hc⟩
        · simp [hc] at h
      · simp at h
      · simp at h
      · simp at h
  · rintro ⟨hmem, hc⟩
    exact ⟨_, hmem, by simp [hc]⟩

theorem mem_memberValuesNamed (ED : ExtensionDecl) (n : Identifier) (VD : ValueDecl) :
    VD ∈ ED.memberValuesNamed n ↔ Decl.Value VD ∈ ED.Members ∧ VD.Name = n := by
  unfold ExtensionDecl.memberValuesNamed
  rw [List.mem_filterMap]
  constructor
  · rintro ⟨D, hmem, h⟩
    rcases D with T | V | ⟨a, Ty, Ms⟩ | a
    · simp at h
    · by_cases hc : V.Name = n
      · simp only [hc, if_true, Option.some.injEq] at h
        subst h
        exact ⟨hmem, hc⟩
      · simp [hc] at h
    · simp at h
    · simp at h
  · rintro ⟨hmem, hc⟩
    exact ⟨_, hmem, by simp [hc]⟩

theorem firstHit_mem {α : Type} (l : List (Option α)) (a : α) (h : firstHit l = some a) :
    some a ∈ l := by
  induction l with
  | nil => simp [firstHit] at h
  | cons x l ih =>
    cases x with
    | none =>
      simp only [firstHit] at h
      exact List.mem_cons_of_mem _ (ih h)
    | some b =>
      simp only [firstHit, Option.some.injEq] at h
      subst h
      exact List.mem_cons_self _ _

theorem firstNonEmpty_mem {α : Type} (l : List (List α)) (a : α) (h : a ∈ firstNonEmpty l) :
    ∃ L ∈ l, a ∈ L := by
  induction l with
  | nil => simp [firstNonEmpty] at h
  | cons x l ih =>
    cases x with
    | nil =>
      simp only [firstNonEmpty, List.isEmpty_nil, if_true] at h
      obtain ⟨L, hL, ha⟩ := ih h
      exact ⟨L, List.mem_cons_of_mem _ hL, ha⟩
    | cons b bs =>
      simp only [firstNonEmpty, List.isEmpty_cons, Bool.false_eq_true, if_false] at h
      exact ⟨b :: bs, List.mem_cons_self _ _, h⟩

/-- With a current cache, a type the local lookup of a translation unit
returns is one of its top-level declarations, carries the queried name, and
the queried name is not empty. -/
theorem Module.localType_sound (Ctx : ASTContext) (H : Heap) (r : ModuleRef)
    (TU : TranslationUnit) (p : AccessPathTy) (n : Identifier) (k : NLKind)
    (TAD : TypeAliasDecl) (hM : H.Modules r = .ofTU TU) (hp : p.length ≤ 1)
    (hc : TU.LookupCacheCurrent) (h : Module.localType Ctx H r p n k = some TAD) :
    TAD.Name = n ∧ H.DeclaresType r TAD ∧ n ≠ "" := by
  rw [Module.localType_TU Ctx H r TU p n k hM hp hc] at h
  by_cases hf : (p.filtersOut n || n.empty) = true
  · simp [hf] at h
  · simp only [hf, Bool.false_eq_true, if_false] at h
    have hmem := (mem_typesNamedIn TU.Body n TAD).mp (List.mem_of_getLast?_eq_some h)
    refine ⟨hmem.2, ⟨TU, hM, hmem.1⟩, ?_⟩
    intro hn
    simp [hn, Identifier.empty] at hf

/-- With a current cache, a value the local lookup of a translation unit
returns is one of its top-level declarations, carries the queried name, and
the queried name is not empty. -/
theorem Module.localValues_sound (Ctx : ASTContext) (H : Heap) (r : ModuleRef)
    (TU : TranslationUnit) (p : AccessPathTy) (n : Identifier) (k : NLKind)
    (VD : ValueDecl) (hM : H.Modules r = .ofTU TU) (hp : p.length ≤ 1)
    (hc : TU.LookupCacheCurrent) (h : VD ∈ Module.localValues Ctx H r p n k) :
    VD.Name = n ∧ H.DeclaresValue r VD ∧ n ≠ "" := by
  rw [Module.localValues_TU Ctx H r TU p n k hM hp hc] at h
  by_cases hf : (p.filtersOut n || n.empty) = true
  · simp [hf] at h
  · simp only [hf, Bool.false_eq_true, if_false] at h
    have hmem := (mem_valuesNamedIn TU.Body n VD).mp h
    refine ⟨hmem.2, ⟨TU, hM, hmem.1⟩, ?_⟩
    intro hn
    simp [hn, Identifier.empty] at hf

/-- Past parsing and with a current extension cache, an extension member a
translation unit exposes is a member of one of its top-level extensions and
carries the queried name. -/
theorem Module.localExtensionMethods_sound (Ctx : ASTContext) (H : Heap) (r : ModuleRef)
    (T : TypeBase) (n : Identifier) (VD : ValueDecl)
    (hs : (H.Modules r).ASTStage ≥ Ctx.Parsed)
    (hc : ∀ TU, H.Modules r = .ofTU TU → TU.ExtensionCacheCurrent)
    (h : VD ∈ Module.localExtensionMethods Ctx H r T n) :
    VD.Name = n ∧ H.DeclaresMember r VD := by
  rw [Module.localExtensionMethods_eq Ctx H r T n hs hc] at h
  cases hM : H.Modules r with
  | ofBuiltin BM => simp [hM, Module.extensionMembersNamed] at h
  | ofTU TU =>
    rw [hM] at h
    simp only [Module.extensionMembersNamed, TranslationUnit.extensionMembersNamed,
      List.mem_flatMap] at h
    obtain ⟨ED, hED, hVD⟩ := h
    have h1 := (mem_extensionsIn TU.Body T.CanonicalType ED).mp hED
    have h2 := (mem_memberValuesNamed ED n VD).mp hVD
    exact ⟨h2.2, ⟨TU, ED.addr, ED.ExtendedType, ED.Members, hM, h1.1, h2.1⟩⟩

theorem Module.isBuiltin_false_TU (M : Module) (h : M.isBuiltin = false) :
    ∃ TU, M = .ofTU TU := by
  cases M with
  | ofBuiltin BM => simp [Module.isBuiltin] at h
  | ofTU TU => exact ⟨TU, rfl⟩

/-- C20. Lookup results are sound with respect to the queried name: for a
translation unit whose imports are translation units and meet the documented
preconditions, with caches absent or current, the global lookups return, and
the type `lookupGlobalType` returns, every value `lookupGlobalValue` returns
and every value `lookupGlobalExtensionMethods` returns carries the queried
name and is a top-level declaration (for extension members: a member of a
top-level extension) of the unit or of one of its direct imports; and for the
empty identifier `lookupGlobalType` returns `none` and `lookupGlobalValue`
returns the empty list, whatever unnamed declarations exist. -/
theorem lookup_results_sound (Ctx : ASTContext) (H : Heap) (this : ModuleRef)
    (TU : TranslationUnit) (n : Identifier) (k : NLKind)
    (hM : H.Modules this = .ofTU TU) (hc : H.CachesCurrent)
    (hI : H.ImportsOK TU.ImportedModules)
    (hTU : ∀ I ∈ TU.ImportedModules, (H.Modules I.2).isBuiltin = false) :
    (∃ a H', Module.lookupGlobalType Ctx H this n k = .ok (a, H') ∧
      (∀ TAD, a = some TAD →
        TAD.Name = n ∧ ∃ r, H.VisibleFrom this r ∧ H.DeclaresType r TAD) ∧
      (n = "" → a = none)) ∧
    (∃ R H', Module.lookupGlobalValue Ctx H this n k [] = .ok (R, H') ∧
      (∀ VD ∈ R, VD.Name = n ∧ ∃ r, H.VisibleFrom this r ∧ H.DeclaresValue r VD) ∧
      (n = "" → R = [])) ∧
    (∀ T : TypeBase, TU.ASTStage ≥ Ctx.Parsed → H.ImportsParsed Ctx TU.ImportedModules →
      ∃ R H', Module.lookupGlobalExtensionMethods Ctx H this T n [] = .ok (R, H') ∧
        ∀ VD ∈ R, VD.Name = n ∧ ∃ r, H.VisibleFrom this r ∧ H.DeclaresMember r VD) := by
  have hI' : H.ImportsOK (H.Modules this).importedModules := by rw [hM]; exact hI
  have hvis : ∀ I ∈ TU.ImportedModules, H.VisibleFrom this I.2 := by
    intro I hmem
    right
    rw [hM]
    exact ⟨I, hmem, rfl⟩
  refine ⟨?_, ?_, ?_⟩
  · obtain ⟨H', e⟩ := Module.lookupGlobalType_eq Ctx H this n k hI'
    have key : ∀ TAD,
        (if (Module.localType Ctx H this [] n k).isSome || (H.Modules this).isBuiltin
         then Module.localType Ctx H this [] n k
         else firstHit ((H.Modules this).importedModules.map
           fun I => Module.localType Ctx H I.2 I.1 n k)) = some TAD →
        TAD.Name = n ∧ (∃ r, H.VisibleFrom this r ∧ H.DeclaresType r TAD) ∧ n ≠ "" := by
      intro TAD ha
      cases hl : Module.localType Ctx H this [] n k with
      | some TAD₀ =>
        rw [hl] at ha
        simp only [Option.isSome_some, Bool.true_or, if_true, Option.some.injEq] at ha
        subst ha
        obtain ⟨h1, h2, h3⟩ := Module.localType_sound Ctx H this TU [] n k TAD₀ hM (by simp)
          (hc this TU hM).1 hl
        exact ⟨h1, ⟨this, Or.inl rfl, h2⟩, h3⟩
      | none =>
        rw [hl, hM] at ha
        simp only [Option.isSome_none, Module.isBuiltin, Bool.or_false, Bool.false_eq_true,
          if_false, Module.importedModules, TranslationUnit.getImportedModules] at ha
        have hmem := firstHit_mem _ TAD ha
        obtain ⟨I, hIm, hIl⟩ := List.mem_map.mp hmem
        obtain ⟨TU', hTU'⟩ := Module.isBuiltin_false_TU _ (hTU I hIm)
        obtain ⟨h1, h2, h3⟩ := Module.localType_sound Ctx H I.2 TU' I.1 n k TAD hTU'
          (hI I hIm).1 (hc I.2 TU' hTU').1 hIl
        exact ⟨h1, ⟨I.2, hvis I hIm, h2⟩, h3⟩
    refine ⟨_, H', e, fun TAD ha => ⟨(key TAD ha).1, (key TAD ha).2.1⟩, ?_⟩
    intro hn
    cases ha : (if (Module.localType Ctx H this [] n k).isSome || (H.Modules this).isBuiltin
         then Module.localType Ctx H this [] n k
         else firstHit ((H.Modules this).importedModules.map
           fun I => Module.localType Ctx H I.2 I.1 n k)) with
    | none => rfl
    | some TAD => exact absurd hn (key TAD ha).2.2
  · obtain ⟨H', e⟩ := Module.lookupGlobalValue_eq Ctx H this n k hI'
    have key : ∀ VD,
        VD ∈ (if !(Module.localValues Ctx H this [] n k).isEmpty || (H.Modules this).isBuiltin
         then Module.localValues Ctx H this [] n k
         else firstNonEmpty ((H.Modules this).importedModules.map
           fun I => Module.localValues Ctx H I.2 I.1 n k)) →
        VD.Name = n ∧ (∃ r, H.VisibleFrom this r ∧ H.DeclaresValue r VD) ∧ n ≠ "" := by
      intro VD ha
      by_cases hl : (Module.localValues Ctx H this [] n k).isEmpty = true
      · rw [hM] at ha
        simp only [hl, Bool.not_true, Module.isBuiltin, Bool.or_false, Bool.false_eq_true,
          if_false, Module.importedModules, TranslationUnit.getImportedModules] at ha
        obtain ⟨L, hL, hVD⟩ := firstNonEmpty_mem _ VD ha
        obtain ⟨I, hIm, hIl⟩ := List.mem_map.mp hL
        subst hIl
        obtain ⟨TU', hTU'⟩ := Module.isBuiltin_false_TU _ (hTU I hIm)
        obtain ⟨h1, h2, h3⟩ := Module.localValues_sound Ctx H I.2 TU' I.1 n k VD hTU'
          (hI I hIm).1 (hc I.2 TU' hTU').1 hVD
        exact ⟨h1, ⟨I.2, hvis I hIm, h2⟩, h3⟩
      · simp only [hl, Bool.not_false, Bool.true_or, if_true] at ha
        obtain ⟨h1, h2, h3⟩ := Module.localValues_sound Ctx H this TU [] n k VD hM (by simp)
          (hc this TU hM).1 ha
        exact ⟨h1, ⟨this, Or.inl rfl, h2⟩, h3⟩
    refine ⟨_, H', e, fun VD ha => ⟨(key VD ha).1, (key VD ha).2.1⟩, ?_⟩
    intro hn
    cases ha : (if !(Module.localValues Ctx H this [] n k).isEmpty || (H.Modules this).isBuiltin
         then Module.localValues Ctx H this [] n k
         else firstNonEmpty ((H.Modules this).importedModules.map
           fun I => Module.localValues Ctx H I.2 I.1 n k)) with
    | nil => rfl
    | cons VD Vs =>
      exact absurd hn (key VD (by rw [ha]; exact List.mem_cons_self _ _)).2.2
  · intro T hs hP
    obtain ⟨H', e⟩ := Module.lookupGlobalExtensionMethods_eq Ctx H this TU T n hM hs hP
    refine ⟨_, H', e, ?_⟩
    intro VD ha
    by_cases hl : (Module.localExtensionMethods Ctx H this T n).isEmpty = true
    · simp only [hl, Bool.not_true, Bool.false_eq_true, if_false] at ha
      obtain ⟨L, hL, hVD⟩ := firstNonEmpty_mem _ VD ha
      obtain ⟨I, hIm, hIl⟩ := List.mem_map.mp hL
      subst hIl
      obtain ⟨h1, h2⟩ := Module.localExtensionMethods_sound Ctx H I.2 T n VD (hP I hIm)
        (fun TU' h' => (hc I.2 TU' h').2) hVD
      exact ⟨h1, I.2, hvis I hIm, h2⟩
    · simp only [hl, Bool.not_false, if_true] at ha
      obtain ⟨h1, h2⟩ := Module.localExtensionMethods_sound Ctx H this T n VD
        (by rw [hM]; exact hs) (fun TU' h' => (hc this TU' h').2) ha
      exact ⟨h1, this, Or.inl rfl, h2⟩

theorem exHeapU_cachesCurrent : exHeapU.CachesCurrent :=
  Heap.cachesCurrent_store exHeap 8 (.ofTU exU) exHeap.ArenaTop exHeap_cachesCurrent
    (fun TU h => by
      cases h
      exact ⟨exU.lookupCacheCurrent_of_none rfl, exU.extensionCacheCurrent_of_none rfl⟩)

/-- Witness of C20 on module U, which declares an unnamed value and an unnamed
type and imports A: the lookups of the empty identifier find nothing, and the
values found for `x` are the two `x` of A. -/
theorem lookup_results_sound_witness :
    (exU.valuesNamed "" = [⟨90, ""⟩] ∧ (exU.typesNamed "").length = 1) ∧
    (∃ H', Module.lookupGlobalType exCtx exHeapU 8 "" .QualifiedLookup = .ok (none, H')) ∧
    (∃ H', Module.lookupGlobalValue exCtx exHeapU 8 "" .QualifiedLookup [] = .ok ([], H')) ∧
    (∃ R H', Module.lookupGlobalValue exCtx exHeapU 8 "x" .QualifiedLookup [] = .ok (R, H') ∧
      R = [⟨12, "x"⟩, ⟨14, "x"⟩] ∧ ∀ VD ∈ R, VD.Name = "x") := by
  obtain ⟨⟨a, H₁, e₁, _, hn₁⟩, ⟨R, H₂, e₂, _, hn₂⟩, _⟩ :=
    lookup_results_sound exCtx exHeapU 8 exU "" .QualifiedLookup rfl exHeapU_cachesCurrent
      (by unfold Heap.ImportsOK; decide) (by decide)
  obtain ⟨_, ⟨R', H₃, e₃, hs₃, _⟩, _⟩ :=
    lookup_results_sound exCtx exHeapU 8 exU "x" .QualifiedLookup rfl exHeapU_cachesCurrent
      (by unfold Heap.ImportsOK; decide) (by decide)
  have ha := hn₁ rfl
  have hR := hn₂ rfl
  subst ha
  subst hR
  have hx : ∃ H', Module.lookupGlobalValue exCtx exHeapU 8 "x" .QualifiedLookup []
      = .ok ([⟨12, "x"⟩, ⟨14, "x"⟩], H') := ⟨_, rfl⟩
  obtain ⟨H₄, e₄⟩ := hx
  have hR' : R' = [⟨12, "x"⟩, ⟨14, "x"⟩] := by
    rw [e₄] at e₃
    simp only [Except.ok.injEq, Prod.mk.injEq] at e₃
    exact e₃.1.symm
  exact ⟨by decide, ⟨H₁, e₁⟩, ⟨H₂, e₂⟩, ⟨R', H₃, e₃, hR', fun VD h => (hs₃ VD h).1⟩⟩

end Swift
